import Mathlib

/-!
Text-Comparator: a shallow embedding of the analysis core.

Source files: `src/main.cpp` (basic variant, with the word-replacement feature) and
`src/main3.cpp` (advanced variant, with readability, paragraphs, exclusive words).

Modelling conventions.

* A C++ `std::string` is a list of characters (`Str`).  The program never calls
  `setlocale`, so the `<cctype>` functions are those of the "C" locale: they classify
  ASCII characters only, and `tolower` changes the 26 upper-case ASCII letters only.
* `std::set<string>` is a strictly increasing list of keys, `std::map<K, int>` a list of
  key/value pairs with strictly increasing keys; both are iterated in key order.
* `int` is `Int` and `size_t` is `Nat`: documents are assumed to hold fewer than `2^31`
  tokens, so no counter wraps.
* `double` is read as an exact rational (`ℚ`): rounding is not modelled.
* A `while` loop that need not terminate is run with fuel and returns an `Option`.
* The library call `std::sort` is a parameter of `getTopFrequentWords`, constrained by its
  contract where a property holds for every implementation; where the order of entries
  of equal count matters, it is the GNU implementation (`bits/stl_algo.h`), embedded
  below as `std_sort`.
-/

namespace TextComparator

/-- A `std::string`. -/
abbrev Str := List Char

/-! ## `<cctype>` in the "C" locale -/

/-- The `<cctype>` test `isupper`. -/
def isupper (c : Char) : Bool := decide (65 ≤ c.toNat) && decide (c.toNat ≤ 90)

/-- The `<cctype>` test `islower`. -/
def islower (c : Char) : Bool := decide (97 ≤ c.toNat) && decide (c.toNat ≤ 122)

/-- The `<cctype>` test `isalpha`. -/
def isalpha (c : Char) : Bool := isupper c || islower c

/-- The `<cctype>` test `isdigit`. -/
def isdigit (c : Char) : Bool := decide (48 ≤ c.toNat) && decide (c.toNat ≤ 57)

/-- The `<cctype>` test `isalnum`. -/
def isalnum (c : Char) : Bool := isalpha c || isdigit c

/-- The `<cctype>` test `isspace`: space, `\t`, `\n`, `\v`, `\f`, `\r`. -/
def isspace (c : Char) : Bool :=
  decide (c.toNat = 32) || (decide (9 ≤ c.toNat) && decide (c.toNat ≤ 13))

/-- The `<cctype>` test `ispunct`: a printable ASCII character that is neither a space
nor alphanumeric. -/
def ispunct (c : Char) : Bool :=
  decide (33 ≤ c.toNat) && decide (c.toNat ≤ 126) && !isalnum c

/-- The `<cctype>` conversion `tolower`. -/
def tolower (c : Char) : Char :=
  if isupper c then Char.ofNat (c.toNat + 32) else c

/-! ## `std::string` members used by the program -/

/-- Scan for `needle` in `hay`, whose first character has index `i`. -/
def findAux (needle : Str) : Str → Nat → Option Nat
  | [], i => if needle.isEmpty then some i else none
  | c :: cs, i =>
    if needle.isPrefixOf (c :: cs) then some i else findAux needle cs (i + 1)

/-- The member call `hay.find(needle, pos)`: the first index `≥ pos` at which `needle`
occurs, `none` for `npos`. -/
def find (hay needle : Str) (pos : Nat) : Option Nat :=
  if pos ≤ hay.length then findAux needle (hay.drop pos) pos else none

/-- The member call `s.replace(pos, len, str)` for `pos ≤ s.size()`. -/
def replace (s : Str) (pos len : Nat) (str : Str) : Str :=
  s.take pos ++ str ++ s.drop (pos + len)

/-- The character `s[i]`; the program only reads indices below `s.size()`. -/
def charAt (s : Str) (i : Nat) : Char := s.getD i (Char.ofNat 0)

/-! ## Word replacement (`src/main.cpp`) -/

/-- The whole-word test made at a match position `pos` by both scanning loops. -/
def isWholeWord (textLower : Str) (pos len : Nat) : Bool :=
  !(decide (0 < pos) && isalnum (charAt textLower (pos - 1))) &&
  !(decide (pos + len < textLower.length) && isalnum (charAt textLower (pos + len)))

/-- The `while` loop of `replaceWordInText`, on the state `(result, textLower, pos)`.
The last component of the value counts the accepted matches (a ghost counter: the C++
function returns the text only). -/
def replaceLoop (oldLen : Nat) (oldWordLower newWord : Str) :
    Nat → Str → Str → Nat → Nat → Option (Str × Nat)
  | 0, _, _, _, _ => none
  | fuel + 1, result, textLower, pos, n =>
    match find textLower oldWordLower pos with
    | none => some (result, n)
    | some p =>
      if isWholeWord textLower p oldWordLower.length then
        replaceLoop oldLen oldWordLower newWord fuel
          (replace result p oldLen newWord)
          (replace textLower p oldWordLower.length newWord)
          (p + newWord.length) (n + 1)
      else
        replaceLoop oldLen oldWordLower newWord fuel result textLower
          (p + oldWordLower.length) n

/-- The function `replaceWordInText` run for at most `fuel` loop iterations, with the
number of accepted matches. -/
def replaceWordInTextFuel (fuel : Nat) (text oldWord newWord : Str) : Option (Str × Nat) :=
  replaceLoop oldWord.length (oldWord.map tolower) newWord fuel
    text (text.map tolower) 0 0

/-- The function `replaceWordInText(text, oldWord, newWord)`; `none` when the loop has not
ended within `text.size() + 1` iterations (it never ends for an empty `oldWord`). -/
def replaceWordInText (text oldWord newWord : Str) : Option Str :=
  (replaceWordInTextFuel (text.length + 1) text oldWord newWord).map Prod.fst

/-- The number of matches accepted (and replaced) by `replaceWordInText`. -/
def replaceWordInTextAccepted (text oldWord newWord : Str) : Option Nat :=
  (replaceWordInTextFuel (text.length + 1) text oldWord newWord).map Prod.snd

/-- The `while` loop of `countWordOccurrences`, on the state `(count, pos)`. -/
def countLoop (wordLower textLower : Str) : Nat → Nat → Int → Option Int
  | 0, _, _ => none
  | fuel + 1, pos, count =>
    match find textLower wordLower pos with
    | none => some count
    | some p =>
      countLoop wordLower textLower fuel (p + wordLower.length)
        (if isWholeWord textLower p wordLower.length then count + 1 else count)

/-- The function `countWordOccurrences` run for at most `fuel` loop iterations. -/
def countWordOccurrencesFuel (fuel : Nat) (text word : Str) : Option Int :=
  countLoop (word.map tolower) (text.map tolower) fuel 0 0

/-- The function `countWordOccurrences(text, word)`; `none` when the loop has not ended
within `text.size() + 1` iterations (it never ends for an empty `word`). -/
def countWordOccurrences (text word : Str) : Option Int :=
  countWordOccurrencesFuel (text.length + 1) text word

/-! ## Specification side of the word replacement -/

/-- The word `w` occurs in `t` at index `i`, compared case-insensitively. -/
def occursAt (t w : Str) (i : Nat) : Bool :=
  decide (i + w.length ≤ t.length) &&
    (((t.drop i).take w.length).map tolower == w.map tolower)

/-- The occurrence of `w` at index `i` of `t` is a whole word: it is neither directly
preceded nor directly followed by an alphanumeric character. -/
def wholeWordAt (t w : Str) (i : Nat) : Bool :=
  occursAt t w i &&
    (decide (i = 0) || !isalnum (charAt t (i - 1))) &&
    (decide (t.length ≤ i + w.length) || !isalnum (charAt t (i + w.length)))

/-- The whole-word occurrences of `w` in `t` at the indices `q, q + 1, ...`, ascending. -/
def wholeWordPositionsFrom (t w : Str) (q : Nat) : List Nat :=
  (List.range' q (t.length + 1 - q)).filter (wholeWordAt t w)

/-- All whole-word occurrences of `w` in `t`, ascending. -/
def wholeWordPositions (t w : Str) : List Nat := wholeWordPositionsFrom t w 0

/-- The text `t` from index `start` on, in which the `len` characters at each of the
listed indices are replaced by `r` and every other character is copied. -/
def splice (t : Str) (len : Nat) (r : Str) : List Nat → Nat → Str
  | [], start => t.drop start
  | p :: ps, start => (t.drop start).take (p - start) ++ r ++ splice t len r ps (p + len)

/-- The character before index `B.length` of the scratch copy is alphanumeric. -/
def prevAlnum (B : Str) : Bool :=
  decide (0 < B.length) && isalnum (charAt B (B.length - 1))

/-! ## Ordered containers (`std::set<string>`, `std::map<K, int>`) -/

/-- The `operator<` of `std::string`: lexicographic comparison of the characters. -/
def strLess : Str → Str → Bool
  | _, [] => false
  | [], _ :: _ => true
  | a :: as, b :: bs =>
    if a.toNat < b.toNat then true
    else if b.toNat < a.toNat then false
    else strLess as bs

/-- The `operator<` of `int`, for maps keyed by integers. -/
def intLess (a b : Int) : Bool := decide (a < b)

/-- The member `std::set<string>::insert`: the set keeps its keys in increasing order and
ignores a key it already holds. -/
def setInsert (x : Str) : List Str → List Str
  | [] => [x]
  | y :: ys =>
    if strLess x y then x :: y :: ys
    else if strLess y x then y :: setInsert x ys
    else y :: ys

/-- A set filled from a sequence: the range constructor `set<string>(first, last)` and an
output written through `inserter(s, s.begin())` into an empty set. -/
def setOfRange (xs : List Str) : List Str :=
  xs.foldl (fun s x => setInsert x s) []

/-- The statement `m[k]++` on a `std::map<K, int>`: a missing key is first inserted with
the value `0`. -/
def mapIncr {κ : Type} (lt : κ → κ → Bool) (k : κ) : List (κ × Int) → List (κ × Int)
  | [] => [(k, 0 + 1)]
  | (k', v) :: rest =>
    if lt k k' then (k, 0 + 1) :: (k', v) :: rest
    else if lt k' k then (k', v) :: mapIncr lt k rest
    else (k', v + 1) :: rest

/-- The member `std::map<K, int>::find`: the value stored under the key equivalent to `k`,
`none` for `end()`. -/
def mapFind {κ : Type} (lt : κ → κ → Bool) (k : κ) : List (κ × Int) → Option Int
  | [] => none
  | (k', v) :: rest => if !lt k k' && !lt k' k then some v else mapFind lt k rest

/-- One step of the merge loops below on the head `a` of the first range: the second range
is advanced while its head is smaller than `a`. -/
def intersectionStep (a : Str) (next : List Str → List Str) : List Str → List Str
  | [] => []
  | b :: bs =>
    if strLess a b then next (b :: bs)
    else if strLess b a then intersectionStep a next bs
    else a :: next bs

/-- The algorithm `std::set_intersection` on two sorted ranges. -/
def set_intersection : List Str → List Str → List Str
  | [], _ => []
  | a :: as, ys => intersectionStep a (set_intersection as) ys

/-- The inner loop of `std::set_union` for the head `a` of the first range. -/
def unionStep (a : Str) (as : List Str) (next : List Str → List Str) :
    List Str → List Str
  | [] => a :: as
  | b :: bs =>
    if strLess b a then b :: unionStep a as next bs
    else if strLess a b then a :: next (b :: bs)
    else a :: next bs

/-- The algorithm `std::set_union` on two sorted ranges. -/
def set_union : List Str → List Str → List Str
  | [], ys => ys
  | a :: as, ys => unionStep a as (set_union as) ys

/-- The inner loop of `std::set_difference` for the head `a` of the first range. -/
def differenceStep (a : Str) (as : List Str) (next : List Str → List Str) :
    List Str → List Str
  | [] => a :: as
  | b :: bs =>
    if strLess a b then a :: next (b :: bs)
    else if strLess b a then differenceStep a as next bs
    else next bs

/-- The algorithm `std::set_difference` on two sorted ranges. -/
def set_difference : List Str → List Str → List Str
  | [], _ => []
  | a :: as, ys => differenceStep a as (set_difference as) ys

/-- A well-formed `std::set<string>`: strictly increasing keys. -/
def IsSet (s : List Str) : Prop := s.Pairwise (fun a b => strLess a b = true)

instance (s : List Str) : Decidable (IsSet s) := by
  unfold IsSet; infer_instance

/-- A well-formed `std::map<string, int>`: strictly increasing keys. -/
def IsMap (m : List (Str × Int)) : Prop := IsSet (m.map Prod.fst)

instance (m : List (Str × Int)) : Decidable (IsMap m) := by
  unfold IsMap; infer_instance

/-! ## The analysis pipeline (`src/main.cpp`, `src/main3.cpp`) -/

/-- The lines read by repeated `getline(file, line)`: the text is cut at each newline, and
a last line without a newline is read too. -/
def getlines : Str → Str → List Str
  | [], line => if line.isEmpty then [] else [line]
  | c :: cs, line => if c == '\n' then line :: getlines cs [] else getlines cs (line ++ [c])

/-- The function `loadFile`; `file` is the text of the file, `none` when it cannot be
opened. -/
def loadFile (file : Option Str) : Str :=
  match file with
  | none => []
  | some text => (getlines text []).foldl (fun content line => content ++ (line ++ [' '])) []

/-- The function `normalizeText`. -/
def normalizeText (text : Str) : Str :=
  text.foldl (fun normalized c =>
    if isalpha c || isspace c || c == '.' || c == '!' || c == '?' then
      normalized ++ [tolower c]
    else if ispunct c then normalized ++ [' ']
    else normalized) []

/-- The words extracted by `while (iss >> word)`: each extraction skips white space and
then reads up to the next white space or the end of the stream; `word` holds the
characters read so far. -/
def extractWords : Str → Str → List Str
  | [], word => if word.isEmpty then [] else [word]
  | c :: cs, word =>
    if isspace c then
      if word.isEmpty then extractWords cs [] else word :: extractWords cs []
    else extractWords cs (word ++ [c])

/-- The function `tokenize`. -/
def tokenize (text : Str) : List Str :=
  (extractWords (normalizeText text) []).filter
    (fun word => !word.isEmpty && isalpha (charAt word 0))

/-- The function `countWords`. -/
def countWords (tokens : List Str) : Int := tokens.length

/-- The function `countSentences`. -/
def countSentences (text : Str) : Int :=
  let count : Int := text.foldl
    (fun count c => if c == '.' || c == '!' || c == '?' then count + 1 else count) 0
  if count > 0 then count else 1

/-- The function `calculateAvgSentenceLength`. -/
def calculateAvgSentenceLength (wordCount sentenceCount : Int) : ℚ :=
  if sentenceCount > 0 then (wordCount : ℚ) / (sentenceCount : ℚ) else 0

/-- The function `getWordFrequency`. -/
def getWordFrequency (tokens : List Str) : List (Str × Int) :=
  tokens.foldl (fun frequency word => mapIncr strLess word frequency) []

/-- The function `getTopFrequentWords`.  `stdSort` stands for the call
`std::sort(words.begin(), words.end(), byCountDescending)`, whose order of entries with
equal counts the C++ standard leaves unspecified. -/
def getTopFrequentWords (stdSort : List (Str × Int) → List (Str × Int))
    (wordFreq : List (Str × Int)) (n : Nat) : List (Str × Int) :=
  let words := stdSort wordFreq
  if words.length > n then words.take n else words

/-- The function `getUniqueWords`. -/
def getUniqueWords (tokens : List Str) : List Str := setOfRange tokens

/-- The function `findCommonWords`. -/
def findCommonWords (words1 words2 : List Str) : List Str :=
  setOfRange (set_intersection words1 words2)

/-- The function `findExclusiveWords` (`src/main3.cpp`). -/
def findExclusiveWords (words1 words2 : List Str) : List Str :=
  setOfRange (set_difference words1 words2)

/-- The terminal punctuation test `c == '.' || c == '!' || c == '?'`. -/
def isTerminator (c : Char) : Bool := c == '.' || c == '!' || c == '?'

/-- The `while (iss.get(c))` loop of `findLongestSentence`, on the state
`(sentence, longestSentence, maxWords)`. -/
def findLongestLoop : Str → Str → Str → Nat → Str × Str × Nat
  | [], sentence, longestSentence, maxWords => (sentence, longestSentence, maxWords)
  | c :: cs, sentence, longestSentence, maxWords =>
    if isTerminator c then
      if (tokenize (sentence ++ [c])).length > maxWords then
        findLongestLoop cs [] (sentence ++ [c]) (tokenize (sentence ++ [c])).length
      else findLongestLoop cs [] longestSentence maxWords
    else findLongestLoop cs (sentence ++ [c]) longestSentence maxWords

/-- The function `findLongestSentence`. -/
def findLongestSentence (text : Str) : Str × Int :=
  match findLongestLoop text [] [] 0 with
  | (sentence, longestSentence, maxWords) =>
    if !sentence.isEmpty && decide ((tokenize sentence).length > maxWords) then
      (sentence, ((tokenize sentence).length : Int))
    else (longestSentence, (maxWords : Int))

/-- The function `jaccardSimilarity`. -/
def jaccardSimilarity (set1 set2 : List Str) : ℚ :=
  let intersection := setOfRange (set_intersection set1 set2)
  let unionSet := setOfRange (set_union set1 set2)
  if unionSet.isEmpty then 0
  else (intersection.length : ℚ) / (unionSet.length : ℚ) * 100

/-- The record `DocumentStats` of `src/main3.cpp`; that of `src/main.cpp` has its first
nine fields. -/
structure DocumentStats where
  filename : Str
  wordCount : Int
  sentenceCount : Int
  avgSentenceLength : ℚ
  longestSentence : Str
  longestSentenceWordCount : Int
  uniqueWords : List Str
  wordFrequency : List (Str × Int)
  topWords : List (Str × Int)
  readabilityScore : ℚ
  paragraphCount : Int
  wordLengthDistribution : List (Int × Int)
  lexicalDiversity : ℚ
  sentences : List Str

/-- The vowel test of the syllable counter. -/
def isVowel (c : Char) : Bool :=
  c == 'a' || c == 'e' || c == 'i' || c == 'o' || c == 'u' || c == 'y'

/-- The syllable count of one word, as computed inside `calculateReadabilityScore`. -/
def countSyllables (word : Str) : Int :=
  let counted : Int × Bool := word.foldl
    (fun (state : Int × Bool) c =>
      (if isVowel c && !state.2 then state.1 + 1 else state.1, isVowel c)) (0, false)
  let syllables : Int :=
    if decide (word.length > 2) && (charAt word (word.length - 1) == 'e')
        && decide (counted.1 > 1) then counted.1 - 1
    else counted.1
  if syllables == 0 then 1 else syllables

/-- The function `calculateReadabilityScore` (`src/main3.cpp`). -/
def calculateReadabilityScore (doc : DocumentStats) : ℚ :=
  if doc.sentenceCount == 0 || doc.wordCount == 0 then 50
  else
    let avgWordsPerSentence : ℚ := (doc.wordCount : ℚ) / (doc.sentenceCount : ℚ)
    let totalSyllables : ℚ := doc.wordFrequency.foldl
      (fun total wordPair => total + ((countSyllables wordPair.1 * wordPair.2 : Int) : ℚ)) 0
    let avgSyllablesPerWord : ℚ := totalSyllables / (doc.wordCount : ℚ)
    let score : ℚ :=
      206835 / 1000 - (1015 / 1000 * avgWordsPerSentence) - (846 / 10 * avgSyllablesPerWord)
    max 0 (min 100 score)

/-- The function `calculateLexicalDiversity` (`src/main3.cpp`). -/
def calculateLexicalDiversity (doc : DocumentStats) : ℚ :=
  if doc.wordCount == 0 then 0
  else (doc.uniqueWords.length : ℚ) / (doc.wordCount : ℚ) * 100

/-- The function `getWordLengthDistribution` (`src/main3.cpp`). -/
def getWordLengthDistribution (tokens : List Str) : List (Int × Int) :=
  tokens.foldl (fun distribution word => mapIncr intLess (word.length : Int) distribution) []

/-- The function `countParagraphs` (`src/main3.cpp`), for a non-empty `text`: the loop
bound `text.length() - 1` is unsigned and wraps around for the empty string, which
`analyzeDocument` never passes. -/
def countParagraphs (text : Str) : Int :=
  (List.range (text.length - 1)).foldl
    (fun count i =>
      if charAt text i == '\n' && charAt text (i + 1) == '\n' then count + 1 else count) 1

/-- The sentence-splitting loop of `analyzeDocument` (`src/main3.cpp`), on the state
`(sentence, sentences)`. -/
def splitSentencesLoop : Str → Str → List Str → Str × List Str
  | [], sentence, sentences => (sentence, sentences)
  | c :: cs, sentence, sentences =>
    if isTerminator c then
      if !(sentence ++ [c]).isEmpty then splitSentencesLoop cs [] (sentences ++ [sentence ++ [c]])
      else splitSentencesLoop cs [] sentences
    else splitSentencesLoop cs (sentence ++ [c]) sentences

/-- The sentences stored by `analyzeDocument` (`src/main3.cpp`). -/
def splitSentences (content : Str) : List Str :=
  match splitSentencesLoop content [] [] with
  | (sentence, sentences) =>
    if !sentence.isEmpty then sentences ++ [sentence] else sentences

/-- The function `analyzeDocument` (`src/main3.cpp`; that of `src/main.cpp` fills the
fields it has in the same way).  The object `DocumentStats stats;` is default-initialised:
its containers are empty and its `int` and `double` members are indeterminate, here taken
from `init`.  `file` is the text of the file named `filename` (`none` when it cannot be
opened). -/
def analyzeDocument (init : DocumentStats)
    (stdSort : List (Str × Int) → List (Str × Int))
    (filename : Str) (file : Option Str) : DocumentStats :=
  let stats := { init with
    filename := filename, longestSentence := [], uniqueWords := [], wordFrequency := [],
    topWords := [], wordLengthDistribution := [], sentences := [] }
  let content := loadFile file
  if content.isEmpty then { stats with wordCount := 0 }
  else
    let tokens := tokenize content
    let stats := { stats with wordCount := countWords tokens }
    let stats := { stats with sentenceCount := countSentences content }
    let stats := { stats with paragraphCount := countParagraphs content }
    let stats := { stats with
      avgSentenceLength := calculateAvgSentenceLength stats.wordCount stats.sentenceCount }
    let stats := { stats with uniqueWords := getUniqueWords tokens }
    let stats := { stats with wordFrequency := getWordFrequency tokens }
    let stats := { stats with topWords := getTopFrequentWords stdSort stats.wordFrequency 5 }
    let stats := { stats with wordLengthDistribution := getWordLengthDistribution tokens }
    let stats := { stats with readabilityScore := calculateReadabilityScore stats }
    let stats := { stats with lexicalDiversity := calculateLexicalDiversity stats }
    let stats := { stats with sentences := stats.sentences ++ splitSentences content }
    let longestInfo := findLongestSentence content
    { stats with
      longestSentence := longestInfo.1
      longestSentenceWordCount := longestInfo.2 }

/-- A `DocumentStats` object with empty containers and every number zero, used as a
sample of the indeterminate initial object. -/
def zeroStats : DocumentStats :=
  { filename := [], wordCount := 0, sentenceCount := 0, avgSentenceLength := 0,
    longestSentence := [], longestSentenceWordCount := 0, uniqueWords := [],
    wordFrequency := [], topWords := [], readabilityScore := 0, paragraphCount := 0,
    wordLengthDistribution := [], lexicalDiversity := 0, sentences := [] }

/-! ## The word-replacement feature (`src/main.cpp`) -/

/-- The scan of `s.find_last_of(ch)`: `i` is the index of the next character and `last`
the last index found so far. -/
def findLastAux (ch : Char) : Str → Nat → Option Nat → Option Nat
  | [], _, last => last
  | c :: cs, i, last => findLastAux ch cs (i + 1) (if c == ch then some i else last)

/-- The member call `s.find_last_of(ch)`: the last index holding `ch`, `none` for `npos`. -/
def find_last_of (s : Str) (ch : Char) : Option Nat := findLastAux ch s 0 none

/-- The name of the updated copy computed by `performWordReplacement` ("Create new
filename"). -/
def updatedFilename (filename : Str) : Str :=
  match find_last_of filename '.' with
  | some dotPos => filename.take dotPos ++ "_updated".toList ++ filename.drop dotPos
  | none => filename ++ "_updated.txt".toList

/-- One iteration of the `while` loop of `replaceWordInText` on the state
`(result, textLower, pos)`: `none` when `find` returns `npos` and the loop ends. -/
def replaceStep (oldLen : Nat) (oldWordLower newWord : Str) (result textLower : Str)
    (pos : Nat) : Option (Str × Str × Nat) :=
  match find textLower oldWordLower pos with
  | none => none
  | some p =>
    if isWholeWord textLower p oldWordLower.length then
      some (replace result p oldLen newWord,
        replace textLower p oldWordLower.length newWord, p + newWord.length)
    else some (result, textLower, p + oldWordLower.length)

/-- One iteration of the `while` loop of `countWordOccurrences` on the cursor `pos`:
`none` when `find` returns `npos` and the loop ends. -/
def countStep (wordLower textLower : Str) (pos : Nat) : Option Nat :=
  match find textLower wordLower pos with
  | none => none
  | some p => some (p + wordLower.length)

/-- The files selected by the `switch (option)` of `performWordReplacement`; `none` for an
invalid option. -/
def filesToProcess (option : Int) (originalFile1 originalFile2 : Str) : Option (List Str) :=
  if option == 1 then some [originalFile1, originalFile2]
  else if option == 2 then some [originalFile1]
  else if option == 3 then some [originalFile2]
  else none

/-- The loop "Process each selected file" of `performWordReplacement`, returning
`updatedFiles`.  `fs` gives the text of each readable file and `canWrite` tells whether an
output file can be created; the value is `none` when a scanning loop does not end. -/
def processFiles (fs : Str → Option Str) (canWrite : Str → Bool) (oldWord newWord : Str) :
    List Str → List Str → Option (List Str)
  | [], updatedFiles => some updatedFiles
  | filename :: rest, updatedFiles =>
    if (loadFile (fs filename)).isEmpty then
      processFiles fs canWrite oldWord newWord rest updatedFiles
    else
      match countWordOccurrences (loadFile (fs filename)) oldWord with
      | none => none
      | some occurrences =>
        if occurrences == 0 then processFiles fs canWrite oldWord newWord rest updatedFiles
        else
          match replaceWordInText (loadFile (fs filename)) oldWord newWord with
          | none => none
          | some _ =>
            if !canWrite (updatedFilename filename) then
              processFiles fs canWrite oldWord newWord rest updatedFiles
            else
              processFiles fs canWrite oldWord newWord rest
                (updatedFiles ++ [updatedFilename filename])

/-- The two file names passed to `generateUpdatedReport` by `performWordReplacement`
("Generate new report if files were updated"); `none` when no report is generated.  The
strings `file1ForReport` and `file2ForReport` start empty. -/
def reportFileNames (option : Int) (originalFile1 originalFile2 : Str)
    (updatedFiles : List Str) : Option (Str × Str) :=
  if !updatedFiles.isEmpty then
    if option == 1 && updatedFiles.length == 2 then
      some (updatedFiles.getD 0 [], updatedFiles.getD 1 [])
    else if option == 2 then some (updatedFiles.getD 0 [], originalFile2)
    else if option == 3 then some (originalFile1, updatedFiles.getD 0 [])
    else some ([], [])
  else none

/-- One round of `performWordReplacement` after the prompts: the outer `none` when a
scanning loop does not end, `some none` when no report is generated (invalid option or no
file updated), and otherwise the two names given to `generateUpdatedReport`. -/
def performWordReplacement (fs : Str → Option Str) (canWrite : Str → Bool) (option : Int)
    (originalFile1 originalFile2 oldWord newWord : Str) : Option (Option (Str × Str)) :=
  match filesToProcess option originalFile1 originalFile2 with
  | none => some none
  | some files =>
    match processFiles fs canWrite oldWord newWord files [] with
    | none => none
    | some updatedFiles =>
      some (reportFileNames option originalFile1 originalFile2 updatedFiles)

/-! ## Specification side of the readability score -/

/-- A maximal run of the letters a, e, i, o, u, y starts at index `i` of `word`: the
character at `i` is one of them and `i` is the first index or the character before is not
one of them. -/
def vowelRunStartsAt (word : Str) (i : Nat) : Bool :=
  isVowel (charAt word i) && (decide (i = 0) || !isVowel (charAt word (i - 1)))

/-- The number `g` of maximal runs of the letters a, e, i, o, u, y in `word`. -/
def vowelRuns (word : Str) : Nat :=
  ((List.range word.length).filter (vowelRunStartsAt word)).length

/-- The syllable count `syl(word) = max(1, g - d)` of the specification, `d` being 1 when
the word has more than 2 characters, ends in 'e' and `g > 1`, and 0 otherwise. -/
def syllablesSpec (word : Str) : Int :=
  max 1 ((vowelRuns word : Int)
    - (if word.length > 2 ∧ word.getLast? = some 'e' ∧ vowelRuns word > 1 then 1 else 0))

/-- The Flesch reading ease of `W` words, `S` sentences and `Σ` syllables, clamped to
`[0, 100]`. -/
def fleschSpec (W S syllables : ℚ) : ℚ :=
  max 0 (min 100 (206.835 - 1.015 * (W / S) - 84.6 * (syllables / W)))

/-- The vowel test on the last character of `word`, `false` for the empty word: the
variable `previousWasVowel` after the syllable-counting loop. -/
def lastIsVowel (word : Str) : Bool :=
  decide (0 < word.length) && isVowel (charAt word (word.length - 1))

/-! ## Specification side of the sentence and word statistics -/

/-- The scenario text "Document A" of the specification. -/
def documentA : Str := "The cat sat. The dog ran fast!".toList

/-- The scenario text "Document B" of the specification. -/
def documentB : Str := "The cat slept. A dog ran.".toList

/-- The character-wise map the specification gives for `normalizeText`: a letter becomes
its lowercase form, a white-space character and each of '.', '!', '?' is kept, any other
punctuation character becomes one space, and every remaining character is deleted. -/
def normalizeCharSpec (c : Char) : Str :=
  if isalpha c then [tolower c]
  else if isspace c || isTerminator c then [c]
  else if ispunct c then [' ']
  else []

/-- The sentence spans of the text `sentence ++ cs`, where `sentence` is the span begun so
far: a span ends with each terminator, and the characters after the last terminator form
a last span when there are any. -/
def sentenceSpans : Str → Str → List Str
  | [], sentence => if sentence.isEmpty then [] else [sentence]
  | c :: cs, sentence =>
    if isTerminator c then (sentence ++ [c]) :: sentenceSpans cs []
    else sentenceSpans cs (sentence ++ [c])

/-- The string ends with a terminator. -/
def endsWithTerminator (s : Str) : Bool :=
  match s.getLast? with
  | some c => isTerminator c
  | none => false

/-- The number of tokens of a sentence span. -/
def tokenCount (s : Str) : Nat := (tokenize s).length

/-- The update `if (words.size() > maxWords)` of `findLongestSentence` for one span, on the
pair `(longestSentence, maxWords)`. -/
def longestStep (state : Str × Nat) (s : Str) : Str × Nat :=
  if tokenCount s > state.2 then (s, tokenCount s) else state

/-- The comparator `a.second > b.second` passed to `std::sort` by `getTopFrequentWords`. -/
def byCountDescending (a b : Str × Int) : Bool := decide (a.2 > b.2)

/-- The contract of `std::sort(first, last, comp)` for the comparator of
`getTopFrequentWords`: the result is a rearrangement of the input in which no later entry
compares before an earlier one. -/
def IsStdSort (stdSort : List (Str × Int) → List (Str × Int)) : Prop :=
  ∀ l, (stdSort l).Perm l ∧ (stdSort l).Pairwise (fun a b => byCountDescending b a = false)

/-- An insertion sort by descending count, a sample implementation of `std::sort`. -/
def insertionSortByCount (l : List (Str × Int)) : List (Str × Int) :=
  l.insertionSort (fun a b => a.2 ≥ b.2)

/-! ## The GNU implementation of `std::sort` (`bits/stl_algo.h`, `bits/stl_heap.h`)

The vector is a list and an iterator is an index into it.  A read outside the vector
(undefined behaviour in C++) and a loop that has used up its fuel give `none`. -/

/-- The helper `std::iter_swap(i, j)`. -/
def iter_swap {α : Type} (a : List α) (i j : Nat) : Option (List α) := do
  let x ← a[i]?
  let y ← a[j]?
  pure ((a.set i y).set j x)

/-- The helper `__move_median_to_first(result, a, b, c, comp)`; `ia`, `ib`, `ic` are the
iterators `a`, `b`, `c`. -/
def move_median_to_first {α : Type} (comp : α → α → Bool) (v : List α)
    (result ia ib ic : Nat) : Option (List α) := do
  let a ← v[ia]?
  let b ← v[ib]?
  let c ← v[ic]?
  if comp a b then
    if comp b c then iter_swap v result ib
    else if comp a c then iter_swap v result ic
    else iter_swap v result ia
  else if comp a c then iter_swap v result ia
  else if comp b c then iter_swap v result ic
  else iter_swap v result ib

/-- The `while (comp(val, next))` loop of `__unguarded_linear_insert`, by recursion on the
iterator `last`; `next` is `last - 1`, which does not exist for `last = 0`. -/
def linearInsertLoop {α : Type} (comp : α → α → Bool) (val : α) :
    Nat → List α → Option (List α)
  | 0, _ => none
  | next + 1, v => do
    let x ← v[next]?
    if comp val x then linearInsertLoop comp val next (v.set (next + 1) x)
    else pure (v.set (next + 1) val)

/-- The helper `__unguarded_linear_insert(last, comp)`. -/
def unguarded_linear_insert {α : Type} (comp : α → α → Bool) (v : List α) (last : Nat) :
    Option (List α) := do
  let val ← v[last]?
  linearInsertLoop comp val last v

/-- The body of the `for` loop of `__insertion_sort` for the iterator `i`: an element that
compares before `*first` is moved to the front (`move_backward`), any other is inserted by
`__unguarded_linear_insert`. -/
def insertionStep {α : Type} (comp : α → α → Bool) (first : Nat) (v : List α) (i : Nat) :
    Option (List α) := do
  let x ← v[i]?
  let f ← v[first]?
  if comp x f then
    pure (v.take first ++ x :: (v.drop first).take (i - first) ++ v.drop (i + 1))
  else unguarded_linear_insert comp v i

/-- The `for` loop of `__insertion_sort`, with `n` iterations left from the iterator `i`. -/
def insertionLoop {α : Type} (comp : α → α → Bool) (first : Nat) :
    Nat → Nat → List α → Option (List α)
  | 0, _, v => some v
  | n + 1, i, v => (insertionStep comp first v i).bind (insertionLoop comp first n (i + 1))

/-- The helper `__insertion_sort(first, last, comp)`. -/
def insertion_sort {α : Type} (comp : α → α → Bool) (v : List α) (first last : Nat) :
    Option (List α) :=
  if first = last then some v
  else insertionLoop comp first (last - (first + 1)) (first + 1) v

/-- The `for` loop of `__unguarded_insertion_sort`, with `n` iterations left from the
iterator `i`. -/
def unguardedInsertionLoop {α : Type} (comp : α → α → Bool) :
    Nat → Nat → List α → Option (List α)
  | 0, _, v => some v
  | n + 1, i, v =>
    (unguarded_linear_insert comp v i).bind (unguardedInsertionLoop comp n (i + 1))

/-- The helper `__unguarded_insertion_sort(first, last, comp)`. -/
def unguarded_insertion_sort {α : Type} (comp : α → α → Bool) (v : List α)
    (first last : Nat) : Option (List α) :=
  unguardedInsertionLoop comp (last - first) first v

/-- The constant `_S_threshold`. -/
def S_threshold : Nat := 16

/-- The helper `__final_insertion_sort(first, last, comp)`. -/
def final_insertion_sort {α : Type} (comp : α → α → Bool) (v : List α) (first last : Nat) :
    Option (List α) :=
  if last - first > S_threshold then do
    let v ← insertion_sort comp v first (first + S_threshold)
    unguarded_insertion_sort comp v (first + S_threshold) last
  else insertion_sort comp v first last

/-- The loop `while (comp(first, pivot)) ++first` of `__unguarded_partition`. -/
def advanceFirst {α : Type} (comp : α → α → Bool) (v : List α) (pivot : Nat) :
    Nat → Nat → Option Nat
  | 0, _ => none
  | fuel + 1, first => do
    let x ← v[first]?
    let p ← v[pivot]?
    if comp x p then advanceFirst comp v pivot fuel (first + 1) else pure first

/-- The loop `while (comp(pivot, last)) --last` of `__unguarded_partition`, by recursion on
the iterator `last`. -/
def retreatLast {α : Type} (comp : α → α → Bool) (v : List α) (pivot : Nat) :
    Nat → Option Nat
  | 0 => do
    let x ← v[0]?
    let p ← v[pivot]?
    if comp p x then none else pure 0
  | last + 1 => do
    let x ← v[last + 1]?
    let p ← v[pivot]?
    if comp p x then retreatLast comp v pivot last else pure (last + 1)

/-- The `while (true)` loop of `__unguarded_partition`, on the state `(first, last)` and the
vector; the result is the returned iterator and the vector. -/
def partitionLoop {α : Type} (comp : α → α → Bool) (pivot : Nat) :
    Nat → Nat → Nat → List α → Option (Nat × List α)
  | 0, _, _, _ => none
  | fuel + 1, first, last, v => do
    let first ← advanceFirst comp v pivot (v.length + 1) first
    match last with
    | 0 => none
    | l + 1 =>
      let last ← retreatLast comp v pivot l
      if first < last then do
        let v ← iter_swap v first last
        partitionLoop comp pivot fuel (first + 1) last v
      else pure (first, v)

/-- The helper `__unguarded_partition(first, last, pivot, comp)`. -/
def unguarded_partition {α : Type} (comp : α → α → Bool) (v : List α)
    (first last pivot : Nat) : Option (Nat × List α) :=
  partitionLoop comp pivot (v.length + 1) first last v

/-- The helper `__unguarded_partition_pivot(first, last, comp)`. -/
def unguarded_partition_pivot {α : Type} (comp : α → α → Bool) (v : List α)
    (first last : Nat) : Option (Nat × List α) := do
  let mid := first + (last - first) / 2
  let v ← move_median_to_first comp v first (first + 1) mid (last - 1)
  unguarded_partition comp v (first + 1) last first

/-- The `while` loop of `__push_heap`, on the state `holeIndex`; it ends by storing
`value` in the hole. -/
def pushHeapLoop {α : Type} (comp : α → α → Bool) (first topIndex : Nat) (value : α) :
    Nat → Nat → List α → Option (List α)
  | 0, _, _ => none
  | fuel + 1, holeIndex, v =>
    let parent := (holeIndex - 1) / 2
    if holeIndex > topIndex then do
      let p ← v[first + parent]?
      if comp p value then
        pushHeapLoop comp first topIndex value fuel parent (v.set (first + holeIndex) p)
      else pure (v.set (first + holeIndex) value)
    else pure (v.set (first + holeIndex) value)

/-- The helper `__push_heap(first, holeIndex, topIndex, value, comp)`. -/
def push_heap {α : Type} (comp : α → α → Bool) (v : List α)
    (first holeIndex topIndex : Nat) (value : α) : Option (List α) :=
  pushHeapLoop comp first topIndex value (holeIndex + 1) holeIndex v

/-- The `while (secondChild < (len - 1) / 2)` loop of `__adjust_heap`, on the state
`(holeIndex, secondChild)` and the vector. -/
def adjustHeapLoop {α : Type} (comp : α → α → Bool) (first len : Nat) :
    Nat → Nat → Nat → List α → Option (Nat × Nat × List α)
  | 0, _, _, _ => none
  | fuel + 1, holeIndex, secondChild, v =>
    if secondChild < (len - 1) / 2 then do
      let child := 2 * (secondChild + 1)
      let x ← v[first + child]?
      let y ← v[first + (child - 1)]?
      let child := if comp x y then child - 1 else child
      let z ← v[first + child]?
      adjustHeapLoop comp first len fuel child child (v.set (first + holeIndex) z)
    else pure (holeIndex, secondChild, v)

/-- The helper `__adjust_heap(first, holeIndex, len, value, comp)`.  The indices are signed
in C++: for `len = 0` the quotient `(len - 2) / 2` is `-1` and the test after the loop
fails, hence the condition `2 ≤ len`; the other quotients agree with those of natural
numbers. -/
def adjust_heap {α : Type} (comp : α → α → Bool) (v : List α)
    (first holeIndex len : Nat) (value : α) : Option (List α) := do
  let topIndex := holeIndex
  let (holeIndex, secondChild, v) ← adjustHeapLoop comp first len (len + 1) holeIndex holeIndex v
  if len % 2 = 0 ∧ 2 ≤ len ∧ secondChild = (len - 2) / 2 then do
    let child := 2 * (secondChild + 1)
    let x ← v[first + (child - 1)]?
    push_heap comp (v.set (first + holeIndex) x) first (child - 1) topIndex value
  else push_heap comp v first holeIndex topIndex value

/-- The helper `__pop_heap(first, last, result, comp)`. -/
def pop_heap {α : Type} (comp : α → α → Bool) (v : List α) (first last result : Nat) :
    Option (List α) := do
  let value ← v[result]?
  let top ← v[first]?
  adjust_heap comp (v.set result top) first 0 (last - first) value

/-- The `while (true)` loop of `__make_heap`, by recursion on `parent`. -/
def makeHeapLoop {α : Type} (comp : α → α → Bool) (first len : Nat) :
    Nat → List α → Option (List α)
  | 0, v => do
    let value ← v[first]?
    adjust_heap comp v first 0 len value
  | parent + 1, v => do
    let value ← v[first + (parent + 1)]?
    let v ← adjust_heap comp v first (parent + 1) len value
    makeHeapLoop comp first len parent v

/-- The helper `__make_heap(first, last, comp)`. -/
def make_heap {α : Type} (comp : α → α → Bool) (v : List α) (first last : Nat) :
    Option (List α) :=
  if last - first < 2 then some v
  else makeHeapLoop comp first (last - first) ((last - first - 2) / 2) v

/-- The `for` loop of `__heap_select`, with `n` iterations left from the iterator `i`. -/
def heapSelectLoop {α : Type} (comp : α → α → Bool) (first middle : Nat) :
    Nat → Nat → List α → Option (List α)
  | 0, _, v => some v
  | n + 1, i, v => do
    let x ← v[i]?
    let f ← v[first]?
    let v ← if comp x f then pop_heap comp v first middle i else pure v
    heapSelectLoop comp first middle n (i + 1) v

/-- The helper `__heap_select(first, middle, last, comp)`. -/
def heap_select {α : Type} (comp : α → α → Bool) (v : List α) (first middle last : Nat) :
    Option (List α) := do
  let v ← make_heap comp v first middle
  heapSelectLoop comp first middle (last - middle) middle v

/-- The `while (last - first > 1)` loop of `__sort_heap`, by recursion on the iterator
`last`. -/
def sortHeapLoop {α : Type} (comp : α → α → Bool) (first : Nat) :
    Nat → List α → Option (List α)
  | 0, v => some v
  | last + 1, v =>
    if last + 1 - first > 1 then do
      let v ← pop_heap comp v first last last
      sortHeapLoop comp first last v
    else some v

/-- The helper `__sort_heap(first, last, comp)`. -/
def sort_heap {α : Type} (comp : α → α → Bool) (v : List α) (first last : Nat) :
    Option (List α) :=
  sortHeapLoop comp first last v

/-- The helper `__partial_sort(first, middle, last, comp)`. -/
def partial_sort {α : Type} (comp : α → α → Bool) (v : List α) (first middle last : Nat) :
    Option (List α) := do
  let v ← heap_select comp v first middle last
  sort_heap comp v first middle

/-- The helper `__introsort_loop(first, last, depth_limit, comp)`, by recursion on
`depth_limit`: each pass of its `while` loop lowers the limit by one, sorts the part from
the cut on by a recursive call and goes on with the part before the cut. -/
def introsort_loop {α : Type} (comp : α → α → Bool) :
    Nat → Nat → Nat → List α → Option (List α)
  | 0, first, last, v =>
    if last - first > S_threshold then partial_sort comp v first last last else some v
  | depth_limit + 1, first, last, v =>
    if last - first > S_threshold then do
      let (cut, v) ← unguarded_partition_pivot comp v first last
      let v ← introsort_loop comp depth_limit cut last v
      introsort_loop comp depth_limit first cut v
    else some v

/-- The loop behind `std::__lg`: the index of the highest set bit. -/
def lgLoop : Nat → Nat → Nat
  | 0, _ => 0
  | fuel + 1, n => if n ≥ 2 then lgLoop fuel (n / 2) + 1 else 0

/-- The helper `std::__lg(n)`, the integer part of the binary logarithm. -/
def lg (n : Nat) : Nat := lgLoop n n

/-- The function `std::sort(first, last, comp)` on the whole vector (`__sort`). -/
def std_sort {α : Type} (comp : α → α → Bool) (v : List α) : Option (List α) :=
  if v.length = 0 then some v
  else do
    let v ← introsort_loop comp (lg v.length * 2) 0 v.length v
    final_insertion_sort comp v 0 v.length

/-- The call `sort(words.begin(), words.end(), byCountDescending)` of
`getTopFrequentWords` with the GNU implementation; the vector is left as it is where
`std_sort` gives no result. -/
def gnuSort (words : List (Str × Int)) : List (Str × Int) :=
  match std_sort byCountDescending words with
  | some sorted => sorted
  | none => words

/-! ## Specification side of the paragraph count and the top words -/

/-- The number of indices `i` such that `text[i]` and `text[i + 1]` are both the newline
character (overlapping pairs counted). -/
def newlinePairs (text : Str) : Nat :=
  ((List.range text.length).filter (fun i =>
    decide (i + 1 < text.length) && (charAt text i == '\n') && (charAt text (i + 1) == '\n'))).length

/-- The number of adjacent newline pairs, by recursion on the text. -/
def adjacentNewlines : Str → Nat
  | [] => 0
  | [_] => 0
  | a :: b :: rest =>
    (if a == '\n' && b == '\n' then 1 else 0) + adjacentNewlines (b :: rest)

/-- A stable sort keeps entries of equal count in their input order: for every count, the
entries with that count appear in the result as they do in the input. -/
def IsStableSort (stdSort : List (Str × Int) → List (Str × Int)) : Prop :=
  ∀ (l : List (Str × Int)) (count : Int),
    (stdSort l).filter (fun e => e.2 == count) = l.filter (fun e => e.2 == count)

/-- The tie order of `topWords` for the table `F`: the counts do not increase, entries of
equal count are in ascending lexicographic order of the word, and every entry left out by
the cut-off at 5 has a larger word than each kept entry of the same count. -/
def TiesAscending (stdSort : List (Str × Int) → List (Str × Int))
    (F : List (Str × Int)) : Prop :=
  (getTopFrequentWords stdSort F 5).Pairwise (fun x y => x.2 ≥ y.2)
  ∧ (getTopFrequentWords stdSort F 5).Pairwise
      (fun x y => x.2 = y.2 → strLess x.1 y.1 = true)
  ∧ (∀ e ∈ F, e ∉ getTopFrequentWords stdSort F 5 →
      ∀ r ∈ getTopFrequentWords stdSort F 5, r.2 = e.2 → strLess r.1 e.1 = true)

/-- A text of twenty different words, each occurring once. -/
def twentyWords : Str := "a b c d e f g h i j k l m n o p q r s t".toList

/-! ## Specification side of repeated replacement and of the re-analysed text -/

/-- The text with every maximal run of characters satisfying `p` replaced by its image
under `f`; the characters outside the runs are copied. -/
def mapRuns (p : Char → Bool) (f : Str → Str) : Str → Str
  | [] => []
  | c :: cs =>
    if p c then f (c :: cs.takeWhile p) ++ mapRuns p f (cs.dropWhile p)
    else c :: mapRuns p f cs
termination_by s => s.length
decreasing_by
  · have h := (List.dropWhile_sublist p : (cs.dropWhile p).Sublist cs).length_le
    simp only [List.length_cons]
    omega
  · simp only [List.length_cons]
    omega

/-- The maximal runs of characters satisfying `p`, from left to right. -/
def runsOf (p : Char → Bool) : Str → List Str
  | [] => []
  | c :: cs =>
    if p c then (c :: cs.takeWhile p) :: runsOf p (cs.dropWhile p)
    else runsOf p cs
termination_by s => s.length
decreasing_by
  · have h := (List.dropWhile_sublist p : (cs.dropWhile p).Sublist cs).length_le
    simp only [List.length_cons]
    omega
  · simp only [List.length_cons]
    omega

/-- A run matches the word `w` when the two agree up to the case of letters. -/
def matchesWord (w run : Str) : Bool := run.map tolower == w.map tolower

/-- The replacement of one run: `r` for a run that matches `w`, the run itself otherwise. -/
def substRun (w r run : Str) : Str := if matchesWord w run then r else run

/-- A separator of tokens: white space, or punctuation that `normalizeText` turns into a
space (any punctuation other than the sentence terminators `.`, `!`, `?`). -/
def isSeparator (c : Char) : Bool :=
  isspace c || (ispunct c && !isTerminator c)

/-- A character that is not a separator; the maximal runs of such characters are the
chunks of the text from which the tokens are made. -/
def inChunk (c : Char) : Bool := !isSeparator c

/-- The token made from a chunk: its characters as `normalizeText` leaves them (letters in
lower case, terminators kept, everything else deleted). -/
def chunkToken (C : Str) : Str := C.flatMap normalizeCharSpec

/-- A text starts outside a run when it is empty or its first character fails `p`. -/
def StartsOutside (p : Char → Bool) (x : Str) : Prop := ∀ d ∈ x.head?, p d = false

/-! ## Auxiliary predicates of the proofs -/

/-- The insertion of `val` into a sorted range given from its last element to its first:
`val` passes every element of smaller count, as in `__unguarded_linear_insert`. -/
def insertRev (val : Str × Int) : List (Str × Int) → List (Str × Int)
  | [] => [val]
  | y :: ys => if byCountDescending val y then y :: insertRev val ys else val :: y :: ys

/-- One step of `__insertion_sort` on the sorted range `sorted`, for the next element
`x`. -/
def gnuInsert (sorted : List (Str × Int)) (x : Str × Int) : List (Str × Int) :=
  match sorted with
  | [] => [x]
  | f :: _ => if byCountDescending x f then x :: sorted else (insertRev x sorted.reverse).reverse

/-- The characters `normalizeText` can emit. -/
def normalChar (c : Char) : Prop :=
  islower c = true ∨ isspace c = true ∨ isTerminator c = true

/-! ## Character facts -/

theorem isupper_bounds {c : Char} (h : isupper c = true) : 65 ≤ c.toNat ∧ c.toNat ≤ 90 := by
  simpa [isupper] using h

theorem tolower_toNat_of_isupper {c : Char} (h : isupper c = true) :
    (tolower c).toNat = c.toNat + 32 := by
  obtain ⟨h1, h2⟩ := isupper_bounds h
  simp only [tolower, h, if_true]
  generalize c.toNat = k at h1 h2
  interval_cases k <;> rfl

theorem tolower_of_not_isupper {c : Char} (h : isupper c = false) : tolower c = c := by
  simp [tolower, h]

theorem isupper_tolower (c : Char) : isupper (tolower c) = false := by
  cases h : isupper c
  · rw [tolower_of_not_isupper h, h]
  · have h1 := isupper_bounds h
    have h2 := tolower_toNat_of_isupper h
    simp only [isupper, h2]
    simp
    omega

theorem islower_tolower (c : Char) : islower (tolower c) = isalpha c := by
  cases h : isupper c
  · rw [tolower_of_not_isupper h]; simp [isalpha, h]
  · have h1 := isupper_bounds h
    have h2 := tolower_toNat_of_isupper h
    simp only [isalpha, h, islower, h2]
    simp
    omega

theorem isalpha_tolower (c : Char) : isalpha (tolower c) = isalpha c := by
  rw [isalpha, isupper_tolower, islower_tolower]; simp

theorem isdigit_tolower (c : Char) : isdigit (tolower c) = isdigit c := by
  cases h : isupper c
  · rw [tolower_of_not_isupper h]
  · have h1 := isupper_bounds h
    have h2 := tolower_toNat_of_isupper h
    simp only [isdigit, h2]
    rw [Bool.eq_iff_iff]
    simp
    omega

theorem isalnum_tolower (c : Char) : isalnum (tolower c) = isalnum c := by
  rw [isalnum, isalpha_tolower, isdigit_tolower, isalnum]

theorem tolower_tolower (c : Char) : tolower (tolower c) = tolower c :=
  tolower_of_not_isupper (isupper_tolower c)

/-! ## Facts about `find` -/

theorem findAux_none {nd : Str} : ∀ (h : Str) (i : Nat), findAux nd h i = none →
    ∀ k, k ≤ h.length → ¬ nd <+: h.drop k
  | [], i, hf, k, hk => by
    have hk0 : k = 0 := by simpa using hk
    subst hk0
    intro hp
    have : nd = [] := by simpa using hp
    subst this
    simp [findAux] at hf
  | c :: cs, i, hf, k, hk => by
    rw [findAux] at hf
    split at hf
    · simp at hf
    · rename_i hnp
      cases k with
      | zero =>
        intro hp
        exact hnp (List.isPrefixOf_iff_prefix.mpr (by simpa using hp))
      | succ k =>
        have := findAux_none cs (i + 1) hf k (by simpa using hk)
        simpa using this

theorem findAux_some {nd : Str} : ∀ (h : Str) (i p : Nat), findAux nd h i = some p →
    ∃ j, p = i + j ∧ j ≤ h.length ∧ nd <+: h.drop j ∧ ∀ k, k < j → ¬ nd <+: h.drop k
  | [], i, p, hf => by
    rw [findAux] at hf
    split at hf
    · rename_i he
      have : nd = [] := by simpa using he
      subst this
      exact ⟨0, by simpa using hf.symm, by simp, by simp, by simp⟩
    · simp at hf
  | c :: cs, i, p, hf => by
    rw [findAux] at hf
    split at hf
    · rename_i hp
      refine ⟨0, by simpa using hf.symm, by simp, ?_, by simp⟩
      simpa using List.isPrefixOf_iff_prefix.mp hp
    · rename_i hnp
      obtain ⟨j, hj, hjl, hpre, hmin⟩ := findAux_some cs (i + 1) p hf
      refine ⟨j + 1, by omega, by simpa using hjl, by simpa using hpre, ?_⟩
      intro k hk
      cases k with
      | zero =>
        intro hp
        exact hnp (List.isPrefixOf_iff_prefix.mpr (by simpa using hp))
      | succ k => simpa using hmin k (by omega)

/-- A case-insensitive occurrence is a prefix match on the lower-cased strings. -/
theorem prefix_drop_iff_occursAt (t w : Str) (hw : w ≠ []) (k : Nat) :
    w.map tolower <+: (t.map tolower).drop k ↔ occursAt t w k = true := by
  have hlen : 0 < w.length := List.length_pos.mpr hw
  rw [List.prefix_iff_eq_take, occursAt]
  simp only [List.length_map, Bool.and_eq_true, decide_eq_true_eq, beq_iff_eq,
    ← List.map_drop, ← List.map_take]
  constructor
  · intro h
    have hl := congrArg List.length h
    simp only [List.length_map, List.length_take, List.length_drop] at hl
    exact ⟨by omega, h.symm⟩
  · rintro ⟨_, h⟩
    exact h.symm

/-! ## Facts about `charAt` -/

theorem charAt_of_lt {s : Str} {i : Nat} (h : i < s.length) : charAt s i = s[i] := by
  simp [charAt, List.getD_eq_getElem, h]

theorem charAt_mem {s : Str} {i : Nat} (h : i < s.length) : charAt s i ∈ s := by
  rw [charAt_of_lt h]; exact List.getElem_mem h

theorem charAt_append_left {a b : Str} {i : Nat} (h : i < a.length) :
    charAt (a ++ b) i = charAt a i := by
  rw [charAt_of_lt h, charAt_of_lt (by simp; omega), List.getElem_append_left h]

theorem charAt_append_right (a b : Str) (j : Nat) :
    charAt (a ++ b) (a.length + j) = charAt b j := by
  simp [charAt, List.getD_eq_getElem?_getD, List.getElem?_append_right]

theorem charAt_drop (s : Str) (q j : Nat) : charAt (s.drop q) j = charAt s (q + j) := by
  simp [charAt, List.getD_eq_getElem?_getD, List.getElem?_drop]

theorem charAt_map_tolower {s : Str} {i : Nat} (h : i < s.length) :
    charAt (s.map tolower) i = tolower (charAt s i) := by
  rw [charAt_of_lt h, charAt_of_lt (by simpa using h)]; simp

/-- At an occurrence, the characters of `t` are those of `w` up to case. -/
theorem occursAt_char {t w : Str} {p : Nat} (h : occursAt t w p = true) {i : Nat}
    (hi : i < w.length) : tolower (charAt t (p + i)) = tolower (charAt w i) := by
  simp only [occursAt, Bool.and_eq_true, decide_eq_true_eq, beq_iff_eq] at h
  obtain ⟨hlen, heq⟩ := h
  have h1 : charAt (((t.drop p).take w.length).map tolower) i
      = charAt (w.map tolower) i := by rw [heq]
  rw [charAt_map_tolower (by simp; omega), charAt_map_tolower hi] at h1
  rw [← h1]
  congr 1
  rw [charAt_of_lt (by omega), charAt_of_lt (by simp; omega)]
  simp

theorem occursAt_le {t w : Str} {p : Nat} (h : occursAt t w p = true) :
    p + w.length ≤ t.length := by
  simp only [occursAt, Bool.and_eq_true, decide_eq_true_eq] at h
  exact h.1

/-- Inside an occurrence of an alphanumeric word every character is alphanumeric. -/
theorem occursAt_isalnum {t w : Str} {p : Nat} (hal : ∀ c ∈ w, isalnum c = true)
    (h : occursAt t w p = true) {i : Nat} (hi : i < w.length) :
    isalnum (charAt t (p + i)) = true := by
  rw [← isalnum_tolower, occursAt_char h hi, isalnum_tolower]
  exact hal _ (charAt_mem hi)

/-! ## Facts about the whole-word positions and `splice` -/

theorem wholeWordAt_occursAt {t w : Str} {k : Nat} (h : wholeWordAt t w k = true) :
    occursAt t w k = true := by
  simp only [wholeWordAt, Bool.and_eq_true] at h
  exact h.1.1

theorem wholeWordPositionsFrom_nil {t w : Str} {q : Nat}
    (h : ∀ k, q ≤ k → k ≤ t.length → occursAt t w k = false) :
    wholeWordPositionsFrom t w q = [] := by
  rw [wholeWordPositionsFrom, List.filter_eq_nil_iff]
  intro k hk hww
  rw [List.mem_range'_1] at hk
  have := h k hk.1 (by omega)
  rw [wholeWordAt_occursAt hww] at this
  cases this

theorem range'_filter_nil {f : Nat → Bool} {a n : Nat}
    (h : ∀ k, a ≤ k → k < a + n → f k = false) : (List.range' a n).filter f = [] := by
  rw [List.filter_eq_nil_iff]
  intro k hk hf
  rw [List.mem_range'_1] at hk
  rw [h k hk.1 hk.2] at hf
  cases hf

/-- Between two scan positions only the occurrence found by `find` can be a whole word. -/
theorem wholeWordPositionsFrom_split {t w : Str} (hw : w ≠ [])
    (hal : ∀ c ∈ w, isalnum c = true) {q p : Nat} (hqp : q ≤ p)
    (hocc : occursAt t w p = true)
    (hmin : ∀ k, q ≤ k → k < p → occursAt t w k = false) :
    wholeWordPositionsFrom t w q
      = (if wholeWordAt t w p then [p] else []) ++ wholeWordPositionsFrom t w (p + w.length) := by
  have hlen : 0 < w.length := List.length_pos.mpr hw
  have hle := occursAt_le hocc
  have e1 : List.range' q (t.length + 1 - q)
      = List.range' q (p - q) ++ (List.range' p 1
          ++ (List.range' (p + 1) (w.length - 1)
            ++ List.range' (p + w.length) (t.length + 1 - (p + w.length)))) := by
    have a1 : p + 1 + (w.length - 1) = p + w.length := by omega
    have a2 : q + (p - q) = p := by omega
    rw [← a1, List.range'_append_1, List.range'_append_1]
    conv => rhs; arg 2; rw [← a2]
    rw [List.range'_append_1]
    congr 1
    omega
  rw [wholeWordPositionsFrom, e1, List.filter_append, List.filter_append, List.filter_append]
  have f1 : (List.range' q (p - q)).filter (wholeWordAt t w) = [] := by
    apply range'_filter_nil
    intro k hk1 hk2
    have := hmin k hk1 (by omega)
    simp [wholeWordAt, this]
  have f2 : (List.range' (p + 1) (w.length - 1)).filter (wholeWordAt t w) = [] := by
    apply range'_filter_nil
    intro k hk1 hk2
    have hk : p + (k - 1 - p) = k - 1 := by omega
    have := occursAt_isalnum hal hocc (i := k - 1 - p) (by omega)
    rw [hk] at this
    have hk0 : k ≠ 0 := by omega
    simp [wholeWordAt, this, hk0]
  have f3 : (List.range' p 1).filter (wholeWordAt t w)
      = if wholeWordAt t w p then [p] else [] := by
    simp [List.range', List.filter]
    cases wholeWordAt t w p <;> rfl
  rw [f1, f2, f3, wholeWordPositionsFrom]
  simp

theorem wholeWordPositionsFrom_ge {t w : Str} {q k : Nat}
    (h : k ∈ wholeWordPositionsFrom t w q) : q ≤ k := by
  rw [wholeWordPositionsFrom, List.mem_filter, List.mem_range'_1] at h
  exact h.1.1

/-- Moving the start of `splice` forward, up to the first listed index, copies the
characters in between. -/
theorem splice_shift (t : Str) (len : Nat) (r : Str) :
    ∀ (ps : List Nat) (q q' : Nat), q ≤ q' → (∀ k ∈ ps, q' ≤ k) →
      splice t len r ps q = (t.drop q).take (q' - q) ++ splice t len r ps q'
  | [], q, q', hq, _ => by
    simp only [splice]
    have : t.drop q' = (t.drop q).drop (q' - q) := by
      rw [List.drop_drop]; congr 1; omega
    rw [this, List.take_append_drop]
  | p :: ps, q, q', hq, hps => by
    have hp : q' ≤ p := hps p (by simp)
    simp only [splice]
    have : (t.drop q).take (p - q)
        = (t.drop q).take (q' - q) ++ (t.drop q').take (p - q') := by
      have e : p - q = (q' - q) + (p - q') := by omega
      have e2 : t.drop q' = (t.drop q).drop (q' - q) := by
        rw [List.drop_drop]; congr 1; omega
      rw [e, e2, List.take_add]
    rw [this]
    simp [List.append_assoc]

/-! ## The replacement loop against its specification -/

theorem find_append (B X nd : Str) :
    find (B ++ X) nd B.length = findAux nd X B.length := by
  simp [find]

/-- The whole-word test of the loop, made on the partly rewritten scratch copy, agrees
with the test on the original text. -/
theorem isWholeWord_eq (t w B : Str) (q j : Nat) (hocc : occursAt t w (q + j) = true)
    (hB : 0 < j ∨ prevAlnum B = (decide (0 < q) && isalnum (charAt t (q - 1)))) :
    isWholeWord (B ++ (t.map tolower).drop q) (B.length + j) (w.map tolower).length
      = wholeWordAt t w (q + j) := by
  have hle := occursAt_le hocc
  have hafter : (decide (B.length + j + w.length < (B ++ (t.map tolower).drop q).length)
        && isalnum (charAt (B ++ (t.map tolower).drop q) (B.length + j + w.length)))
      = (decide (q + j + w.length < t.length) && isalnum (charAt t (q + j + w.length))) := by
    by_cases hlt : q + j + w.length < t.length
    · have e : B.length + j + w.length = B.length + (j + w.length) := by omega
      rw [e, charAt_append_right, charAt_drop, charAt_map_tolower (by omega),
        isalnum_tolower]
      have e2 : q + (j + w.length) = q + j + w.length := by omega
      rw [e2]
      simp only [List.length_append, List.length_drop, List.length_map]
      congr 1
      simp only [decide_eq_decide]
      omega
    · have h1 : ¬ (B.length + (j + w.length)
          < (B ++ (t.map tolower).drop q).length) := by
        simp only [List.length_append, List.length_drop, List.length_map]; omega
      have e : B.length + j + w.length = B.length + (j + w.length) := by omega
      rw [e]
      have h2 : decide (q + j + w.length < t.length) = false := by simpa using hlt
      have h3 : decide (B.length + (j + w.length)
          < (B ++ (t.map tolower).drop q).length) = false := by simpa using h1
      rw [h2, h3]
      rfl
  have hbefore : (decide (0 < B.length + j)
        && isalnum (charAt (B ++ (t.map tolower).drop q) (B.length + j - 1)))
      = (decide (0 < q + j) && isalnum (charAt t (q + j - 1))) := by
    rcases Nat.eq_zero_or_pos j with hj | hj
    · subst hj
      rcases hB with hB | hB
      · omega
      · simp only [Nat.add_zero]
        rw [← hB, prevAlnum]
        by_cases hb : 0 < B.length
        · rw [charAt_append_left (by omega)]
        · simp [hb]
    · have e : B.length + j - 1 = B.length + (j - 1) := by omega
      rw [e, charAt_append_right, charAt_drop, charAt_map_tolower (by omega),
        isalnum_tolower]
      have e2 : q + (j - 1) = q + j - 1 := by omega
      rw [e2]
      congr 1
      simp only [decide_eq_decide]
      omega
  rw [isWholeWord, List.length_map, hafter, hbefore, wholeWordAt, hocc]
  rw [Bool.eq_iff_iff]
  simp

theorem replace_append (A X : Str) (j len : Nat) (r : Str) :
    replace (A ++ X) (A.length + j) len r = (A ++ X.take j ++ r) ++ X.drop (j + len) := by
  simp [replace, List.take_append, List.drop_append, Nat.add_assoc]

theorem prevAlnum_append_of_ne_nil (B X : Str) (hX : X ≠ []) :
    prevAlnum (B ++ X) = isalnum (charAt X (X.length - 1)) := by
  have hpos : 0 < X.length := List.length_pos.mpr hX
  have e : (B ++ X).length - 1 = B.length + (X.length - 1) := by
    simp only [List.length_append]; omega
  rw [prevAlnum, e, charAt_append_right]
  simp [hpos]

/-- Loop invariant of `replaceWordInText`.  When the cursor stands at index `q` of the
original text, `result` is `A ++ t.drop q` and the scratch copy is
`B ++ (lower t).drop q` with `A` and `B` of the cursor's length; the loop then returns `A`
followed by the rest of `t` spliced at its whole-word occurrences. -/
theorem replaceLoop_spec (t w r : Str) (hw : w ≠ []) (hal : ∀ c ∈ w, isalnum c = true) :
    ∀ (fuel : Nat) (A B : Str) (q cnt : Nat), A.length = B.length → q ≤ t.length →
      t.length - q < fuel →
      (occursAt t w q = false ∨
        prevAlnum B = (decide (0 < q) && isalnum (charAt t (q - 1)))) →
      replaceLoop w.length (w.map tolower) r fuel (A ++ t.drop q)
          (B ++ (t.map tolower).drop q) B.length cnt
        = some (A ++ splice t w.length r (wholeWordPositionsFrom t w q) q,
            cnt + (wholeWordPositionsFrom t w q).length) := by
  have hlen : 0 < w.length := List.length_pos.mpr hw
  intro fuel
  induction fuel with
  | zero => intro A B q cnt _ _ hf; omega
  | succ fuel ih =>
    intro A B q cnt hAB hq hfuel hbd
    rw [replaceLoop, find_append]
    cases hfind : findAux (w.map tolower) ((t.map tolower).drop q) B.length with
    | none =>
      have hnone := findAux_none _ _ hfind
      have hnil : wholeWordPositionsFrom t w q = [] := by
        apply wholeWordPositionsFrom_nil
        intro k hk1 hk2
        have := hnone (k - q) (by simp; omega)
        rw [List.drop_drop, show q + (k - q) = k by omega,
          prefix_drop_iff_occursAt t w hw] at this
        simpa using this
      simp [hnil, splice]
    | some p =>
      obtain ⟨j, hpj, hjl, hpre, hmin⟩ := findAux_some _ _ _ hfind
      subst hpj
      rw [List.drop_drop, prefix_drop_iff_occursAt t w hw] at hpre
      have hle := occursAt_le hpre
      have hmin' : ∀ k, q ≤ k → k < q + j → occursAt t w k = false := by
        intro k hk1 hk2
        have := hmin (k - q) (by omega)
        rw [List.drop_drop, show q + (k - q) = k by omega,
          prefix_drop_iff_occursAt t w hw] at this
        simpa using this
      have hB : 0 < j ∨ prevAlnum B = (decide (0 < q) && isalnum (charAt t (q - 1))) := by
        rcases hbd with h | h
        · left
          rcases Nat.eq_zero_or_pos j with hj | hj
          · subst hj; rw [Nat.add_zero, h] at hpre; cases hpre
          · exact hj
        · right; exact h
      have hww := isWholeWord_eq t w B q j hpre hB
      have hsplit := wholeWordPositionsFrom_split hw hal (Nat.le_add_right q j) hpre hmin'
      simp only []
      rw [hww, ← hAB, replace_append, hAB, replace_append, List.length_map]
      rw [List.drop_drop, List.drop_drop,
        show q + (j + w.length) = q + j + w.length by omega]
      cases hacc : wholeWordAt t w (q + j) with
      | true =>
        simp only [if_true]
        have hnext : occursAt t w (q + j + w.length) = false := by
          cases hnext : occursAt t w (q + j + w.length) with
          | false => rfl
          | true =>
            exfalso
            have hle2 := occursAt_le hnext
            have h0 := occursAt_isalnum hal hnext (i := 0) hlen
            simp only [wholeWordAt, Bool.and_eq_true, Bool.or_eq_true,
              decide_eq_true_eq, Bool.not_eq_true'] at hacc
            rcases hacc.2 with h | h
            · omega
            · rw [Nat.add_zero, h] at h0; cases h0
        have hrec := ih (A ++ ((t.drop q).take j) ++ r)
          (B ++ (((t.map tolower).drop q).take j) ++ r) (q + j + w.length) (cnt + 1)
          (by simp only [List.length_append, List.length_take, List.length_drop,
                List.length_map]; omega) hle (by omega) (Or.inl hnext)
        have e1 : (B ++ ((t.map tolower).drop q).take j ++ r).length
            = B.length + j + r.length := by
          simp only [List.length_append, List.length_take, List.length_drop, List.length_map]
          omega
        rw [e1] at hrec
        rw [hrec, hsplit, hacc]
        simp only [if_true, List.singleton_append, splice, List.length_cons]
        rw [Nat.add_sub_cancel_left]
        simp [List.append_assoc, Nat.add_assoc, Nat.add_comm]
      | false =>
        simp only [Bool.false_eq_true, if_false]
        have hne : ((t.map tolower).drop q).take (j + w.length) ≠ [] := by
          intro h
          have := congrArg List.length h
          simp only [List.length_take, List.length_drop, List.length_map,
            List.length_nil] at this
          omega
        have hprev : prevAlnum (B ++ ((t.map tolower).drop q).take (j + w.length))
            = (decide (0 < q + j + w.length)
                && isalnum (charAt t (q + j + w.length - 1))) := by
          rw [prevAlnum_append_of_ne_nil _ _ hne]
          have e0 : (((t.map tolower).drop q).take (j + w.length)).length = j + w.length := by
            simp only [List.length_take, List.length_drop, List.length_map]; omega
          rw [e0, charAt_of_lt (by rw [e0]; omega), List.getElem_take,
            ← charAt_of_lt (by simp only [List.length_drop, List.length_map]; omega),
            charAt_drop, charAt_map_tolower (by omega), isalnum_tolower,
            show q + (j + w.length - 1) = q + j + w.length - 1 by omega]
          have : decide (0 < q + j + w.length) = true := by simp; omega
          rw [this, Bool.true_and]
        have hrec := ih (A ++ (t.drop q).take (j + w.length))
          (B ++ ((t.map tolower).drop q).take (j + w.length)) (q + j + w.length) cnt
          (by simp only [List.length_append, List.length_take, List.length_drop,
                List.length_map]; omega) hle (by omega) (Or.inr hprev)
        have e1 : (B ++ ((t.map tolower).drop q).take (j + w.length)).length
            = B.length + j + w.length := by
          simp only [List.length_append, List.length_take, List.length_drop, List.length_map]
          omega
        have e2 : ∀ (X : Str), X.take (j + w.length) ++ X.drop (j + w.length) = X :=
          fun X => List.take_append_drop _ _
        have e3 : t.drop (q + j + w.length) = (t.drop q).drop (j + w.length) := by
          rw [List.drop_drop, Nat.add_assoc]
        have e4 : (t.map tolower).drop (q + j + w.length)
            = ((t.map tolower).drop q).drop (j + w.length) := by
          rw [List.drop_drop, Nat.add_assoc]
        rw [e1, e3, e4, List.append_assoc, List.append_assoc, e2, e2] at hrec
        rw [hrec, hsplit, hacc]
        simp only [Bool.false_eq_true, if_false, List.nil_append]
        rw [splice_shift t w.length r _ q (q + j + w.length) (by omega)
          (fun k hk => wholeWordPositionsFrom_ge hk)]
        rw [show q + j + w.length - q = j + w.length by omega, List.append_assoc]

/-- The loop of `replaceWordInText` ends within `text.size() + 1` iterations and returns
the text spliced at its whole-word occurrences, with their number. -/
theorem replaceWordInTextFuel_spec (t w r : Str) (hw : w ≠ [])
    (hal : ∀ c ∈ w, isalnum c = true) (fuel : Nat) (hfuel : t.length < fuel) :
    replaceWordInTextFuel fuel t w r
      = some (splice t w.length r (wholeWordPositions t w) 0,
          (wholeWordPositions t w).length) := by
  have h := replaceLoop_spec t w r hw hal fuel [] [] 0 0 rfl (Nat.zero_le _)
    (by simpa using hfuel) (Or.inr (by simp [prevAlnum]))
  simpa [replaceWordInTextFuel, wholeWordPositions] using h

/-! ## C1: whole-word replacement -/

/-- C1: for every text `t`, every non-empty old word `w` made only of ASCII letters and
digits and every replacement `r`, `replaceWordInText(t, w, r)` returns `t` in which exactly
the occurrences of `w` (compared case-insensitively) that are neither directly preceded nor
directly followed by an alphanumeric character are replaced by `r` verbatim, every other
character of `t` being copied unchanged; in particular replacing "cat" by `r` in
"concatenate cats cat." gives "concatenate cats " followed by `r` and ".". -/
theorem replaceWordInText_whole_words (t w r : Str) (hw : w ≠ [])
    (hal : ∀ c ∈ w, isalnum c = true) :
    replaceWordInText t w r = some (splice t w.length r (wholeWordPositions t w) 0)
    ∧ wholeWordPositions "concatenate cats cat.".toList "cat".toList = [17]
    ∧ replaceWordInText "concatenate cats cat.".toList "cat".toList r
        = some ("concatenate cats ".toList ++ r ++ ".".toList) := by
  refine ⟨?_, by decide, ?_⟩
  · rw [replaceWordInText, replaceWordInTextFuel_spec t w r hw hal _ (Nat.lt_succ_self _)]
    rfl
  · rw [replaceWordInText, replaceWordInTextFuel_spec _ _ r (by decide) (by decide) _
      (Nat.lt_succ_self _)]
    have h : wholeWordPositions "concatenate cats cat.".toList "cat".toList = [17] := by
      decide
    rw [h]
    rfl

/-- Witness for C1: "cat" replaced by "dog" in "concatenate cats cat.". -/
theorem replaceWordInText_whole_words_witness :
    "cat".toList ≠ [] ∧ (∀ c ∈ "cat".toList, isalnum c = true) ∧
    replaceWordInText "concatenate cats cat.".toList "cat".toList "dog".toList
      = some "concatenate cats dog.".toList :=
  ⟨by decide, by decide,
    (replaceWordInText_whole_words "concatenate cats cat.".toList "cat".toList
      "dog".toList (by decide) (by decide)).1.trans (by decide)⟩

/-! ## C2: the occurrence count against the replacements made -/

/-- C2 (failing input): on the text ".. " (a file holding the line ".."), the word "." and
the replacement "x", `countWordOccurrences` reports 2 whole-word matches but
`replaceWordInText` accepts and replaces only one: after the first replacement the second
"." is preceded by the inserted "x" in the scratch copy. -/
theorem countWordOccurrences_ne_replacements :
    countWordOccurrences ".. ".toList ".".toList = some 2
    ∧ replaceWordInTextAccepted ".. ".toList ".".toList "x".toList = some 1
    ∧ replaceWordInText ".. ".toList ".".toList "x".toList = some "x. ".toList := by
  decide

/-! ## C3: the shape of tokens -/

/-- An invariant of the accumulator of a left fold. -/
theorem foldl_invariant {α β : Type} (P : β → Prop) (f : β → α → β)
    (hstep : ∀ acc x, P acc → P (f acc x)) : ∀ (l : List α) (acc : β), P acc →
    P (l.foldl f acc)
  | [], _, h => h
  | x :: xs, acc, h => foldl_invariant P f hstep xs (f acc x) (hstep acc x h)

theorem normalChar_tolower {c : Char}
    (h : (isalpha c || isspace c || c == '.' || c == '!' || c == '?') = true) :
    normalChar (tolower c) := by
  by_cases ha : isalpha c = true
  · left; rw [islower_tolower]; exact ha
  · have hup : isupper c = false := by
      cases hu : isupper c
      · rfl
      · simp [isalpha, hu] at ha
    rw [tolower_of_not_isupper hup]
    simp only [Bool.or_eq_true, beq_iff_eq] at h
    rcases h with (((h | h) | h) | h) | h
    · exact absurd h ha
    · right; left; exact h
    · right; right; simp [isTerminator, h]
    · right; right; simp [isTerminator, h]
    · right; right; simp [isTerminator, h]

theorem normalizeText_chars (text : Str) : ∀ ch ∈ normalizeText text, normalChar ch := by
  unfold normalizeText
  apply foldl_invariant (fun acc : Str => ∀ ch ∈ acc, normalChar ch)
  · intro acc c hacc ch hch
    split at hch
    · rename_i hc
      rcases List.mem_append.mp hch with h | h
      · exact hacc ch h
      · rw [List.mem_singleton.mp h]; exact normalChar_tolower hc
    · split at hch
      · rcases List.mem_append.mp hch with h | h
        · exact hacc ch h
        · rw [List.mem_singleton.mp h]; right; left; decide
      · exact hacc ch hch
  · intro ch hch; cases hch

/-- Every extracted word is non-empty and made of characters of the stream that are not
white space. -/
theorem extractWords_spec : ∀ (s word : Str), (∀ ch ∈ word, isspace ch = false) →
    ∀ w ∈ extractWords s word, w ≠ [] ∧ ∀ ch ∈ w, (ch ∈ word ∨ ch ∈ s) ∧ isspace ch = false
  | [], word, hword, w, hw => by
    rw [extractWords] at hw
    split at hw
    · cases hw
    · rename_i hne
      rw [List.mem_singleton.mp hw]
      exact ⟨by simpa using hne, fun ch hch => ⟨Or.inl hch, hword ch hch⟩⟩
  | c :: cs, word, hword, w, hw => by
    rw [extractWords] at hw
    split at hw
    · split at hw
      · obtain ⟨h1, h2⟩ := extractWords_spec cs [] (by simp) w hw
        refine ⟨h1, fun ch hch => ?_⟩
        obtain ⟨h3, h4⟩ := h2 ch hch
        rcases h3 with h3 | h3
        · cases h3
        · exact ⟨Or.inr (List.mem_cons_of_mem _ h3), h4⟩
      · rename_i hne
        rcases List.mem_cons.mp hw with h | h
        · rw [h]
          exact ⟨by simpa using hne, fun ch hch => ⟨Or.inl hch, hword ch hch⟩⟩
        · obtain ⟨h1, h2⟩ := extractWords_spec cs [] (by simp) w h
          refine ⟨h1, fun ch hch => ?_⟩
          obtain ⟨h3, h4⟩ := h2 ch hch
          rcases h3 with h3 | h3
          · cases h3
          · exact ⟨Or.inr (List.mem_cons_of_mem _ h3), h4⟩
    · rename_i hsp
      have hword' : ∀ ch ∈ word ++ [c], isspace ch = false := by
        intro ch hch
        rcases List.mem_append.mp hch with h | h
        · exact hword ch h
        · rw [List.mem_singleton.mp h]; simpa using hsp
      obtain ⟨h1, h2⟩ := extractWords_spec cs (word ++ [c]) hword' w hw
      refine ⟨h1, fun ch hch => ?_⟩
      obtain ⟨h3, h4⟩ := h2 ch hch
      refine ⟨?_, h4⟩
      rcases h3 with h3 | h3
      · rcases List.mem_append.mp h3 with h | h
        · exact Or.inl h
        · rw [List.mem_singleton.mp h]; exact Or.inr (List.mem_cons_self _ _)
      · exact Or.inr (List.mem_cons_of_mem _ h3)

theorem isTerminator_iff (c : Char) : isTerminator c = true ↔ c = '.' ∨ c = '!' ∨ c = '?' := by
  simp [isTerminator, or_assoc]

theorem isalpha_of_isTerminator {c : Char} (h : isTerminator c = true) : isalpha c = false := by
  rcases (isTerminator_iff c).mp h with h | h | h <;> subst h <;> decide

/-- C3 (as stated) fails: "The cat sat." tokenises to "the", "cat", "sat.", and the token
"sat." holds the character '.', which is not a lowercase letter. -/
theorem tokenize_not_only_letters :
    tokenize "The cat sat.".toList = ["the".toList, "cat".toList, "sat.".toList]
    ∧ ¬ (∀ tok ∈ tokenize "The cat sat.".toList, tok ≠ [] ∧ ∀ c ∈ tok, islower c = true) := by
  refine ⟨by decide, fun h => ?_⟩
  have h1 := (h "sat.".toList (by decide)).2 '.' (by decide)
  revert h1
  decide

/-- C3 (amended): for every text `T`, every token of `tokenize(T)` is non-empty, starts
with a lowercase ASCII letter and consists only of lowercase ASCII letters and the sentence
terminators '.', '!' and '?' (no digit, no uppercase letter, no other punctuation). -/
theorem tokenize_token_shape (T tok : Str) (h : tok ∈ tokenize T) :
    tok ≠ [] ∧ islower (charAt tok 0) = true
    ∧ ∀ c ∈ tok, islower c = true ∨ c = '.' ∨ c = '!' ∨ c = '?' := by
  rw [tokenize, List.mem_filter] at h
  obtain ⟨hmem, hfirst⟩ := h
  obtain ⟨hne, hchars⟩ := extractWords_spec (normalizeText T) [] (by simp) tok hmem
  have hall : ∀ c ∈ tok, islower c = true ∨ isTerminator c = true := by
    intro c hc
    obtain ⟨h1, h2⟩ := hchars c hc
    rcases h1 with h1 | h1
    · cases h1
    · rcases normalizeText_chars T c h1 with h | h | h
      · exact Or.inl h
      · rw [h2] at h; cases h
      · exact Or.inr h
  refine ⟨hne, ?_, fun c hc => ?_⟩
  · have hpos : 0 < tok.length := List.length_pos.mpr hne
    simp only [Bool.and_eq_true] at hfirst
    rcases hall _ (charAt_mem hpos) with h | h
    · exact h
    · rw [isalpha_of_isTerminator h] at hfirst
      cases hfirst.2
  · rcases hall c hc with h | h
    · exact Or.inl h
    · exact Or.inr ((isTerminator_iff c).mp h)

/-- Witness for C3 (amended): the token "sat." of "The cat sat.". -/
theorem tokenize_token_shape_witness :
    "sat.".toList ∈ tokenize "The cat sat.".toList ∧
    ("sat.".toList ≠ [] ∧ islower (charAt "sat.".toList 0) = true
      ∧ ∀ c ∈ "sat.".toList, islower c = true ∨ c = '.' ∨ c = '!' ∨ c = '?') :=
  ⟨by decide, tokenize_token_shape "The cat sat.".toList "sat.".toList (by decide)⟩

/-! ## The order on strings -/

theorem char_eq_of_toNat_eq {a b : Char} (h : a.toNat = b.toNat) : a = b := by
  have := congrArg Char.ofNat h
  simpa using this

theorem strLess_irrefl : ∀ a : Str, strLess a a = false
  | [] => rfl
  | a :: as => by simp [strLess, strLess_irrefl as]

theorem strLess_trans : ∀ {a b c : Str}, strLess a b = true → strLess b c = true →
    strLess a c = true
  | _, [], _, h, _ => by simp [strLess] at h
  | _, _ :: _, [], _, h => by simp [strLess] at h
  | [], _ :: _, _ :: _, _, _ => by simp [strLess]
  | a :: as, b :: bs, c :: cs, h1, h2 => by
    simp only [strLess] at h1 h2 ⊢
    split at h1
    · split at h2
      · rw [if_pos (by omega)]
      · split at h2
        · cases h2
        · rw [if_pos (by omega)]
    · split at h1
      · cases h1
      · split at h2
        · rw [if_pos (by omega)]
        · split at h2
          · cases h2
          · rw [if_neg (by omega), if_neg (by omega)]
            exact strLess_trans h1 h2

theorem strLess_total : ∀ {a b : Str}, strLess a b = false → strLess b a = false → a = b
  | [], [], _, _ => rfl
  | [], _ :: _, h, _ => by simp [strLess] at h
  | _ :: _, [], _, h => by simp [strLess] at h
  | a :: as, b :: bs, h1, h2 => by
    simp only [strLess] at h1 h2
    split at h1
    · cases h1
    · split at h1
      · rw [if_pos (by omega)] at h2; cases h2
      · rw [if_neg (by omega), if_neg (by omega)] at h2
        rw [char_eq_of_toNat_eq (a := a) (b := b) (by omega), strLess_total h1 h2]

theorem strLess_asymm {a b : Str} (h : strLess a b = true) : strLess b a = false := by
  cases h2 : strLess b a
  · rfl
  · have := strLess_trans h h2
    rw [strLess_irrefl] at this
    cases this

theorem strLess_ne {a b : Str} (h : strLess a b = true) : a ≠ b := by
  intro e
  subst e
  rw [strLess_irrefl] at h
  cases h

/-! ## Sets -/

theorem IsSet.nodup {s : List Str} (h : IsSet s) : s.Nodup :=
  List.Pairwise.imp (fun hab => strLess_ne hab) h

theorem IsSet.tail {a : Str} {s : List Str} (h : IsSet (a :: s)) : IsSet s :=
  (List.pairwise_cons.mp h).2

theorem IsSet.head_lt {a : Str} {s : List Str} (h : IsSet (a :: s)) :
    ∀ y ∈ s, strLess a y = true :=
  (List.pairwise_cons.mp h).1

/-- A key below the head of a set is not in the set. -/
theorem IsSet.not_mem_of_lt {x a : Str} {s : List Str} (h : IsSet (a :: s))
    (hx : strLess x a = true) : x ∉ a :: s := by
  intro hmem
  rcases List.mem_cons.mp hmem with e | hm
  · exact strLess_ne hx e
  · exact strLess_ne (strLess_trans hx (h.head_lt x hm)) rfl

theorem IsSet.head_not_mem {a : Str} {s : List Str} (h : IsSet (a :: s)) : a ∉ s :=
  fun hm => strLess_ne (h.head_lt a hm) rfl

/-- Two sets with the same elements are the same list. -/
theorem IsSet.ext : ∀ {s t : List Str}, IsSet s → IsSet t → (∀ x, x ∈ s ↔ x ∈ t) → s = t
  | [], [], _, _, _ => rfl
  | [], b :: t, _, _, h => by simpa using (h b).mpr (List.mem_cons_self _ _)
  | a :: s, [], _, _, h => by simpa using (h a).mp (List.mem_cons_self _ _)
  | a :: s, b :: t, hs, ht, h => by
    have hab : a = b := by
      apply strLess_total
      · cases hlt : strLess a b
        · rfl
        · exact absurd ((h a).mp (List.mem_cons_self _ _)) (ht.not_mem_of_lt hlt)
      · cases hlt : strLess b a
        · rfl
        · exact absurd ((h b).mpr (List.mem_cons_self _ _)) (hs.not_mem_of_lt hlt)
    subst hab
    congr 1
    apply IsSet.ext hs.tail ht.tail
    intro x
    constructor
    · intro hx
      rcases List.mem_cons.mp ((h x).mp (List.mem_cons_of_mem _ hx)) with e | hm
      · subst e; exact absurd hx hs.head_not_mem
      · exact hm
    · intro hx
      rcases List.mem_cons.mp ((h x).mpr (List.mem_cons_of_mem _ hx)) with e | hm
      · subst e; exact absurd hx ht.head_not_mem
      · exact hm

theorem mem_setInsert {x y : Str} : ∀ {s : List Str}, y ∈ setInsert x s ↔ y = x ∨ y ∈ s
  | [] => by simp [setInsert]
  | a :: s => by
    rw [setInsert]
    split
    · simp
    · split
      · rw [List.mem_cons, mem_setInsert (s := s)]
        simp only [List.mem_cons]
        tauto
      · rename_i h1 h2
        have : x = a := strLess_total (by simpa using h1) (by simpa using h2)
        subst this
        simp

theorem isSet_setInsert {x : Str} : ∀ {s : List Str}, IsSet s → IsSet (setInsert x s)
  | [], _ => by simp [setInsert, IsSet]
  | a :: s, hs => by
    rw [setInsert]
    split
    · rename_i hlt
      refine List.pairwise_cons.mpr ⟨fun y hy => ?_, hs⟩
      rcases List.mem_cons.mp hy with e | hm
      · rw [e]; exact hlt
      · exact strLess_trans hlt (hs.head_lt y hm)
    · split
      · rename_i hlt
        refine List.pairwise_cons.mpr ⟨fun y hy => ?_, isSet_setInsert hs.tail⟩
        rcases mem_setInsert.mp hy with e | hm
        · rw [e]; exact hlt
        · exact hs.head_lt y hm
      · exact hs

theorem setOfRange_append (xs : List Str) (x : Str) :
    setOfRange (xs ++ [x]) = setInsert x (setOfRange xs) := by
  simp [setOfRange, List.foldl_append]

theorem mem_setOfRange {y : Str} (xs : List Str) : y ∈ setOfRange xs ↔ y ∈ xs := by
  induction xs using List.reverseRecOn with
  | nil => simp [setOfRange]
  | append_singleton xs x ih =>
    rw [setOfRange_append, mem_setInsert, ih, List.mem_append, List.mem_singleton]
    tauto

theorem isSet_setOfRange (xs : List Str) : IsSet (setOfRange xs) := by
  induction xs using List.reverseRecOn with
  | nil => simp [setOfRange, IsSet]
  | append_singleton xs x ih =>
    rw [setOfRange_append]; exact isSet_setInsert ih

/-- A set written element by element into an empty set is the same set. -/
theorem setOfRange_of_isSet {s : List Str} (h : IsSet s) : setOfRange s = s :=
  IsSet.ext (isSet_setOfRange s) h (fun _ => mem_setOfRange s)

/-! ## Maps -/

theorem strEquiv_iff {a b : Str} : (!strLess a b && !strLess b a) = true ↔ a = b := by
  constructor
  · intro h
    simp only [Bool.and_eq_true, Bool.not_eq_true'] at h
    exact strLess_total h.1 h.2
  · intro h
    subst h
    simp [strLess_irrefl]

theorem mapIncr_keys (k : Str) : ∀ m : List (Str × Int),
    (mapIncr strLess k m).map Prod.fst = setInsert k (m.map Prod.fst)
  | [] => rfl
  | (k', v) :: rest => by
    simp only [mapIncr, List.map_cons, setInsert]
    split
    · rfl
    · split
      · simp [mapIncr_keys k rest]
      · rfl

theorem mapIncr_sum {κ : Type} (lt : κ → κ → Bool) (k : κ) : ∀ m : List (κ × Int),
    ((mapIncr lt k m).map Prod.snd).sum = (m.map Prod.snd).sum + 1
  | [] => by simp [mapIncr]
  | (k', v) :: rest => by
    simp only [mapIncr]
    split
    · simp; omega
    · split
      · simp [mapIncr_sum lt k rest]; omega
      · simp; omega

theorem isMap_mapIncr {k : Str} {m : List (Str × Int)} (h : IsMap m) :
    IsMap (mapIncr strLess k m) := by
  rw [IsMap, mapIncr_keys]; exact isSet_setInsert h

theorem mapFind_eq_none {k : Str} : ∀ {m : List (Str × Int)}, k ∉ m.map Prod.fst →
    mapFind strLess k m = none
  | [], _ => rfl
  | (k', v) :: rest, h => by
    simp only [List.map_cons, List.mem_cons, not_or] at h
    rw [mapFind, if_neg (fun he => h.1 (strEquiv_iff.mp he))]
    exact mapFind_eq_none h.2

theorem mapFind_mapIncr_self {k : Str} : ∀ {m : List (Str × Int)}, IsMap m →
    mapFind strLess k (mapIncr strLess k m) = some ((mapFind strLess k m).getD 0 + 1)
  | [], _ => by simp [mapIncr, mapFind, strLess_irrefl]
  | (k', v) :: rest, hm => by
    simp only [mapIncr]
    split
    · rename_i hlt
      have hnot : k ∉ ((k', v) :: rest).map Prod.fst := IsSet.not_mem_of_lt hm hlt
      rw [mapFind_eq_none hnot]
      simp [mapFind, strLess_irrefl]
    · split
      · rename_i h1 h2
        have hne : ¬ (!strLess k k' && !strLess k' k) = true := by simp [h2]
        rw [mapFind, if_neg hne, mapFind, if_neg hne]
        exact mapFind_mapIncr_self (IsSet.tail hm)
      · rename_i h1 h2
        have he : (!strLess k k' && !strLess k' k) = true := by
          simp only [Bool.not_eq_true] at h1 h2
          simp [h1, h2]
        rw [mapFind, if_pos he, mapFind, if_pos he]
        rfl

theorem mapFind_mapIncr_ne {k k0 : Str} (hne : k0 ≠ k) : ∀ {m : List (Str × Int)},
    mapFind strLess k0 (mapIncr strLess k m) = mapFind strLess k0 m
  | [] => by
    simp only [mapIncr, mapFind]
    rw [if_neg (fun he => hne (strEquiv_iff.mp he))]
  | (k', v) :: rest => by
    simp only [mapIncr]
    split
    · rw [mapFind, if_neg (fun he => hne (strEquiv_iff.mp he))]
    · split
      · rw [mapFind, mapFind, mapFind_mapIncr_ne hne (m := rest)]
      · rename_i h1 h2
        have hk : k = k' := strLess_total (by simpa using h1) (by simpa using h2)
        subst hk
        rw [mapFind, mapFind, if_neg (fun he => hne (strEquiv_iff.mp he)),
          if_neg (fun he => hne (strEquiv_iff.mp he))]

/-- In a well-formed map, the pairs are exactly what `find` returns. -/
theorem mem_iff_mapFind {k : Str} {v : Int} : ∀ {m : List (Str × Int)}, IsMap m →
    ((k, v) ∈ m ↔ mapFind strLess k m = some v)
  | [], _ => by simp [mapFind]
  | (k', v') :: rest, hm => by
    rw [mapFind]
    split
    · rename_i he
      have hk : k = k' := strEquiv_iff.mp he
      subst hk
      have hnot : k ∉ rest.map Prod.fst := IsSet.head_not_mem hm
      constructor
      · intro h
        rcases List.mem_cons.mp h with e | h
        · cases e; rfl
        · exact absurd (List.mem_map_of_mem Prod.fst h) hnot
      · intro h
        cases h
        exact List.mem_cons_self _ _
    · rename_i he
      have hk : k ≠ k' := fun e => he (strEquiv_iff.mpr e)
      rw [← mem_iff_mapFind (IsSet.tail hm)]
      constructor
      · intro h
        rcases List.mem_cons.mp h with e | h
        · cases e; exact absurd rfl hk
        · exact h
      · exact List.mem_cons_of_mem _

theorem getWordFrequency_append (ts : List Str) (w : Str) :
    getWordFrequency (ts ++ [w]) = mapIncr strLess w (getWordFrequency ts) := by
  simp [getWordFrequency, List.foldl_append]

theorem getWordFrequency_keys (ts : List Str) :
    (getWordFrequency ts).map Prod.fst = getUniqueWords ts := by
  induction ts using List.reverseRecOn with
  | nil => rfl
  | append_singleton ts w ih =>
    rw [getWordFrequency_append, mapIncr_keys, ih, getUniqueWords, getUniqueWords,
      setOfRange_append]

theorem isMap_getWordFrequency (ts : List Str) : IsMap (getWordFrequency ts) := by
  rw [IsMap, getWordFrequency_keys]; exact isSet_setOfRange ts

theorem getWordFrequency_sum (ts : List Str) :
    ((getWordFrequency ts).map Prod.snd).sum = (ts.length : Int) := by
  induction ts using List.reverseRecOn with
  | nil => rfl
  | append_singleton ts w ih =>
    rw [getWordFrequency_append, mapIncr_sum, ih]
    simp

/-- The count stored for a word is its number of occurrences among the tokens. -/
theorem mapFind_getWordFrequency (ts : List Str) (w : Str) :
    mapFind strLess w (getWordFrequency ts)
      = if w ∈ ts then some ((ts.count w : Nat) : Int) else none := by
  induction ts using List.reverseRecOn with
  | nil => simp [getWordFrequency, mapFind]
  | append_singleton ts x ih =>
    rw [getWordFrequency_append]
    by_cases hx : w = x
    · subst hx
      rw [mapFind_mapIncr_self (isMap_getWordFrequency ts), ih]
      simp only [List.mem_append, List.mem_singleton, or_true, if_true, List.count_append]
      by_cases hm : w ∈ ts
      · simp [hm]
      · simp [hm, List.count_eq_zero_of_not_mem hm]
    · rw [mapFind_mapIncr_ne hx, ih]
      have hx' : ¬ x = w := fun e => hx e.symm
      simp [List.count_append, hx, hx']

/-! ## C4 and C5: word count and word frequency -/

/-- C4: for every text `T` with `tokens = tokenize(T)`, `countWords(tokens)` is the length
of the token sequence and equals the sum of all counts of `getWordFrequency(tokens)`; for
every file, the `wordCount` field stored by `analyzeDocument` is the number of tokens of
the loaded content and the sum of the counts of its `wordFrequency` field. -/
theorem wordCount_eq_length_eq_frequency_sum (T : Str) :
    countWords (tokenize T) = ((tokenize T).length : Int)
    ∧ ((getWordFrequency (tokenize T)).map Prod.snd).sum = countWords (tokenize T)
    ∧ ∀ (init : DocumentStats) (stdSort : List (Str × Int) → List (Str × Int))
        (filename : Str) (file : Option Str),
        (analyzeDocument init stdSort filename file).wordCount
            = ((tokenize (loadFile file)).length : Int)
        ∧ (((analyzeDocument init stdSort filename file).wordFrequency).map Prod.snd).sum
            = (analyzeDocument init stdSort filename file).wordCount := by
  refine ⟨rfl, getWordFrequency_sum _, ?_⟩
  intro init stdSort filename file
  cases hc : loadFile file with
  | nil => simp [analyzeDocument, hc, tokenize, normalizeText, extractWords]
  | cons c cs =>
    simp only [analyzeDocument, hc, List.isEmpty_cons, Bool.false_eq_true, if_false]
    exact ⟨rfl, getWordFrequency_sum _⟩

/-- C5: for every token sequence, `getWordFrequency` is a well-formed map holding exactly
the pairs (token, number of positions at which that token occurs), so that every stored
count is at least 1 and no other key is present, and its keys are `getUniqueWords` of the
same sequence. -/
theorem getWordFrequency_counts (tokens : List Str) :
    IsMap (getWordFrequency tokens)
    ∧ (∀ (k : Str) (v : Int), (k, v) ∈ getWordFrequency tokens
        ↔ (k ∈ tokens ∧ v = ((tokens.count k : Nat) : Int)))
    ∧ (∀ (k : Str) (v : Int), (k, v) ∈ getWordFrequency tokens → 1 ≤ v)
    ∧ (getWordFrequency tokens).map Prod.fst = getUniqueWords tokens
    ∧ (∀ k : Str, k ∈ getUniqueWords tokens ↔ k ∈ tokens) := by
  have hpairs : ∀ (k : Str) (v : Int), (k, v) ∈ getWordFrequency tokens
      ↔ (k ∈ tokens ∧ v = ((tokens.count k : Nat) : Int)) := by
    intro k v
    rw [mem_iff_mapFind (isMap_getWordFrequency tokens), mapFind_getWordFrequency]
    by_cases hk : k ∈ tokens
    · simp only [hk, if_true, true_and, Option.some.injEq]
      exact eq_comm
    · simp [hk]
  refine ⟨isMap_getWordFrequency tokens, hpairs, ?_, getWordFrequency_keys tokens,
    fun k => mem_setOfRange tokens⟩
  intro k v hkv
  obtain ⟨hk, hv⟩ := (hpairs k v).mp hkv
  have : 0 < tokens.count k := List.count_pos_iff.mpr hk
  omega

/-! ## The merge algorithms on sets -/

theorem set_intersection_cons_cons (a b : Str) (as bs : List Str) :
    set_intersection (a :: as) (b :: bs)
      = if strLess a b then set_intersection as (b :: bs)
        else if strLess b a then set_intersection (a :: as) bs
        else a :: set_intersection as bs := by
  simp [set_intersection, intersectionStep]

theorem set_union_cons_cons (a b : Str) (as bs : List Str) :
    set_union (a :: as) (b :: bs)
      = if strLess b a then b :: set_union (a :: as) bs
        else if strLess a b then a :: set_union as (b :: bs)
        else a :: set_union as bs := by
  simp [set_union, unionStep]

theorem set_difference_cons_cons (a b : Str) (as bs : List Str) :
    set_difference (a :: as) (b :: bs)
      = if strLess a b then a :: set_difference as (b :: bs)
        else if strLess b a then set_difference (a :: as) bs
        else set_difference as bs := by
  simp [set_difference, differenceStep]

theorem mem_set_intersection {x : Str} : ∀ {A B : List Str}, IsSet A → IsSet B →
    (x ∈ set_intersection A B ↔ x ∈ A ∧ x ∈ B)
  | [], _, _, _ => by simp [set_intersection]
  | a :: as, [], _, _ => by simp [set_intersection, intersectionStep]
  | a :: as, b :: bs, hA, hB => by
    rw [set_intersection_cons_cons]
    split
    · rename_i hlt
      rw [mem_set_intersection hA.tail hB]
      have hna : a ∉ b :: bs := hB.not_mem_of_lt hlt
      constructor
      · rintro ⟨h1, h2⟩; exact ⟨List.mem_cons_of_mem _ h1, h2⟩
      · rintro ⟨h1, h2⟩
        rcases List.mem_cons.mp h1 with e | h
        · subst e; exact absurd h2 hna
        · exact ⟨h, h2⟩
    · split
      · rename_i _ hlt
        rw [mem_set_intersection hA hB.tail]
        have hnb : b ∉ a :: as := hA.not_mem_of_lt hlt
        constructor
        · rintro ⟨h1, h2⟩; exact ⟨h1, List.mem_cons_of_mem _ h2⟩
        · rintro ⟨h1, h2⟩
          rcases List.mem_cons.mp h2 with e | h
          · subst e; exact absurd h1 hnb
          · exact ⟨h1, h⟩
      · rename_i h1 h2
        have hab : a = b := strLess_total (by simpa using h1) (by simpa using h2)
        subst hab
        rw [List.mem_cons, mem_set_intersection hA.tail hB.tail]
        simp only [List.mem_cons]
        tauto
termination_by A B => A.length + B.length

theorem mem_set_union {x : Str} : ∀ {A B : List Str},
    (x ∈ set_union A B ↔ x ∈ A ∨ x ∈ B)
  | [], _ => by simp [set_union]
  | a :: as, [] => by simp [set_union, unionStep]
  | a :: as, b :: bs => by
    rw [set_union_cons_cons]
    split
    · rw [List.mem_cons, mem_set_union (A := a :: as) (B := bs)]
      simp only [List.mem_cons]
      tauto
    · split
      · rw [List.mem_cons, mem_set_union (A := as) (B := b :: bs)]
        simp only [List.mem_cons]
        tauto
      · rename_i h1 h2
        have hab : a = b := strLess_total (by simpa using h2) (by simpa using h1)
        subst hab
        rw [List.mem_cons, mem_set_union (A := as) (B := bs)]
        simp only [List.mem_cons]
        tauto
termination_by A B => A.length + B.length

theorem mem_set_difference {x : Str} : ∀ {A B : List Str}, IsSet A → IsSet B →
    (x ∈ set_difference A B ↔ x ∈ A ∧ x ∉ B)
  | [], _, _, _ => by simp [set_difference]
  | a :: as, [], _, _ => by simp [set_difference, differenceStep]
  | a :: as, b :: bs, hA, hB => by
    rw [set_difference_cons_cons]
    split
    · rename_i hlt
      have hna : a ∉ b :: bs := hB.not_mem_of_lt hlt
      rw [List.mem_cons, mem_set_difference hA.tail hB]
      constructor
      · rintro (e | ⟨h1, h2⟩)
        · subst e; exact ⟨List.mem_cons_self _ _, hna⟩
        · exact ⟨List.mem_cons_of_mem _ h1, h2⟩
      · rintro ⟨h1, h2⟩
        rcases List.mem_cons.mp h1 with e | h
        · exact Or.inl e
        · exact Or.inr ⟨h, h2⟩
    · split
      · rename_i _ hlt
        have hnb : b ∉ a :: as := hA.not_mem_of_lt hlt
        rw [mem_set_difference hA hB.tail]
        constructor
        · rintro ⟨h1, h2⟩
          refine ⟨h1, fun h => ?_⟩
          rcases List.mem_cons.mp h with e | h
          · subst e; exact hnb h1
          · exact h2 h
        · rintro ⟨h1, h2⟩
          exact ⟨h1, fun h => h2 (List.mem_cons_of_mem _ h)⟩
      · rename_i hl1 hl2
        have hab : a = b := strLess_total (by simpa using hl1) (by simpa using hl2)
        subst hab
        clear hl1 hl2
        rw [mem_set_difference hA.tail hB.tail]
        have hna : a ∉ as := hA.head_not_mem
        constructor
        · rintro ⟨h1, h2⟩
          refine ⟨List.mem_cons_of_mem _ h1, fun h => ?_⟩
          rcases List.mem_cons.mp h with e | h
          · subst e; exact hna h1
          · exact h2 h
        · rintro ⟨h1, h2⟩
          rcases List.mem_cons.mp h1 with e | h
          · subst e; exact absurd (List.mem_cons_self _ _) h2
          · exact ⟨h, fun hb => h2 (List.mem_cons_of_mem _ hb)⟩
termination_by A B => A.length + B.length

theorem mem_findCommonWords {x : Str} {A B : List Str} (hA : IsSet A) (hB : IsSet B) :
    x ∈ findCommonWords A B ↔ x ∈ A ∧ x ∈ B := by
  rw [findCommonWords, mem_setOfRange, mem_set_intersection hA hB]

theorem mem_findExclusiveWords {x : Str} {A B : List Str} (hA : IsSet A) (hB : IsSet B) :
    x ∈ findExclusiveWords A B ↔ x ∈ A ∧ x ∉ B := by
  rw [findExclusiveWords, mem_setOfRange, mem_set_difference hA hB]

theorem length_setOfRange (xs : List Str) :
    (setOfRange xs).length = xs.toFinset.card := by
  rw [← List.toFinset_card_of_nodup (isSet_setOfRange xs).nodup]
  congr 1
  ext x
  simp [mem_setOfRange]

/-! ## C6: Jaccard similarity -/

/-- C6: for all word sets `A` and `B`, `jaccardSimilarity(A, B)` is
`|A ∩ B| / |A ∪ B| × 100` when `A ∪ B` is non-empty and 0 when both sets are empty; in
particular it is 100 on `(S, S)` for every non-empty `S`, and 0 on the two empty sets
(`double` read as exact rationals). -/
theorem jaccardSimilarity_spec (A B : List Str) (hA : IsSet A) (hB : IsSet B) :
    jaccardSimilarity A B
      = (if A = [] ∧ B = [] then 0
         else ((A.toFinset ∩ B.toFinset).card : ℚ) / ((A.toFinset ∪ B.toFinset).card : ℚ)
            * 100)
    ∧ (A ≠ [] → jaccardSimilarity A A = 100)
    ∧ jaccardSimilarity [] [] = 0 := by
  have hinter : ∀ {X Y : List Str}, IsSet X → IsSet Y →
      (setOfRange (set_intersection X Y)).length = (X.toFinset ∩ Y.toFinset).card := by
    intro X Y hX hY
    rw [length_setOfRange]
    congr 1
    ext x
    simp [mem_set_intersection hX hY]
  have hunion : ∀ {X Y : List Str},
      (setOfRange (set_union X Y)).length = (X.toFinset ∪ Y.toFinset).card := by
    intro X Y
    rw [length_setOfRange]
    congr 1
    ext x
    simp [mem_set_union]
  have hempty : ∀ {X Y : List Str},
      (setOfRange (set_union X Y)).isEmpty = true ↔ X = [] ∧ Y = [] := by
    intro X Y
    rw [List.isEmpty_iff]
    constructor
    · intro h
      have hno : ∀ x, x ∉ set_union X Y := by
        intro x hx
        have := (mem_setOfRange (set_union X Y)).mpr hx
        rw [h] at this
        cases this
      constructor
      · apply List.eq_nil_iff_forall_not_mem.mpr
        intro x hx
        exact hno x (mem_set_union.mpr (Or.inl hx))
      · apply List.eq_nil_iff_forall_not_mem.mpr
        intro x hx
        exact hno x (mem_set_union.mpr (Or.inr hx))
    · rintro ⟨rfl, rfl⟩
      rfl
  have hmain : ∀ {X Y : List Str}, IsSet X → IsSet Y → jaccardSimilarity X Y
      = (if X = [] ∧ Y = [] then 0
         else ((X.toFinset ∩ Y.toFinset).card : ℚ) / ((X.toFinset ∪ Y.toFinset).card : ℚ)
            * 100) := by
    intro X Y hX hY
    simp only [jaccardSimilarity]
    by_cases he : X = [] ∧ Y = []
    · rw [if_pos (hempty.mpr he), if_pos he]
    · rw [if_neg (fun h => he (hempty.mp h)), if_neg he, hinter hX hY, hunion]
  refine ⟨hmain hA hB, ?_, rfl⟩
  intro hne
  rw [hmain hA hA, if_neg (fun h => hne h.1), Finset.inter_self, Finset.union_self]
  have hpos : 0 < A.toFinset.card := by
    rw [List.toFinset_card_of_nodup hA.nodup]
    exact List.length_pos.mpr hne
  have hne0 : ((A.toFinset.card : ℕ) : ℚ) ≠ 0 := by
    exact_mod_cast hpos.ne'
  rw [div_self hne0]
  norm_num

/-- Witness for C6: the sets {cat, the} and {dog, the} share one of three words. -/
theorem jaccardSimilarity_spec_witness :
    IsSet ["cat".toList, "the".toList] ∧ IsSet ["dog".toList, "the".toList]
    ∧ jaccardSimilarity ["cat".toList, "the".toList] ["dog".toList, "the".toList]
        = (1 : ℚ) / 3 * 100
    ∧ jaccardSimilarity ["cat".toList, "the".toList] ["cat".toList, "the".toList] = 100 := by
  have h := jaccardSimilarity_spec ["cat".toList, "the".toList] ["dog".toList, "the".toList]
    (by decide) (by decide)
  have h2 := jaccardSimilarity_spec ["cat".toList, "the".toList]
    ["cat".toList, "the".toList] (by decide) (by decide)
  refine ⟨by decide, by decide, ?_, h2.2.1 (by decide)⟩
  rw [h.1, if_neg (by decide)]
  have c1 : (["cat".toList, "the".toList].toFinset ∩ ["dog".toList, "the".toList].toFinset).card
      = 1 := by decide
  have c2 : (["cat".toList, "the".toList].toFinset ∪ ["dog".toList, "the".toList].toFinset).card
      = 3 := by decide
  rw [c1, c2]
  norm_num

/-! ## C7 and C8: common and exclusive words -/

/-- C7: for all word sets `A` and `B`, `findCommonWords(A, B)` is a set whose elements are
exactly the words that are in both `A` and `B`, and `findCommonWords(A, B)` equals
`findCommonWords(B, A)`. -/
theorem findCommonWords_spec (A B : List Str) (hA : IsSet A) (hB : IsSet B) :
    IsSet (findCommonWords A B)
    ∧ (∀ x, x ∈ findCommonWords A B ↔ x ∈ A ∧ x ∈ B)
    ∧ findCommonWords A B = findCommonWords B A := by
  refine ⟨isSet_setOfRange _, fun x => mem_findCommonWords hA hB, ?_⟩
  apply IsSet.ext (isSet_setOfRange _) (isSet_setOfRange _)
  intro x
  exact (mem_findCommonWords hA hB).trans (and_comm.trans (mem_findCommonWords hB hA).symm)

/-- Witness for C7: the common words of {cat, dog, the} and {dog, ran, the}. -/
theorem findCommonWords_spec_witness :
    IsSet ["cat".toList, "dog".toList, "the".toList]
    ∧ IsSet ["dog".toList, "ran".toList, "the".toList]
    ∧ findCommonWords ["cat".toList, "dog".toList, "the".toList]
        ["dog".toList, "ran".toList, "the".toList] = ["dog".toList, "the".toList]
    ∧ findCommonWords ["cat".toList, "dog".toList, "the".toList]
        ["dog".toList, "ran".toList, "the".toList]
      = findCommonWords ["dog".toList, "ran".toList, "the".toList]
        ["cat".toList, "dog".toList, "the".toList] :=
  ⟨by decide, by decide, by decide,
    (findCommonWords_spec ["cat".toList, "dog".toList, "the".toList]
      ["dog".toList, "ran".toList, "the".toList] (by decide) (by decide)).2.2⟩

/-- C8: for all word sets `A` and `B`, `findExclusiveWords(A, B)` is a set whose elements
are exactly the words of `A` that are not in `B`, and `findExclusiveWords(A, B)` and
`findExclusiveWords(B, A)` have no element in common. -/
theorem findExclusiveWords_spec (A B : List Str) (hA : IsSet A) (hB : IsSet B) :
    IsSet (findExclusiveWords A B)
    ∧ (∀ x, x ∈ findExclusiveWords A B ↔ x ∈ A ∧ x ∉ B)
    ∧ (∀ x, ¬ (x ∈ findExclusiveWords A B ∧ x ∈ findExclusiveWords B A))
    ∧ findCommonWords (findExclusiveWords A B) (findExclusiveWords B A) = [] := by
  have hdisj : ∀ x, ¬ (x ∈ findExclusiveWords A B ∧ x ∈ findExclusiveWords B A) := by
    rintro x ⟨h1, h2⟩
    exact ((mem_findExclusiveWords hA hB).mp h1).2 ((mem_findExclusiveWords hB hA).mp h2).1
  refine ⟨isSet_setOfRange _, fun x => mem_findExclusiveWords hA hB, hdisj, ?_⟩
  apply List.eq_nil_iff_forall_not_mem.mpr
  intro x hx
  exact hdisj x ((mem_findCommonWords (isSet_setOfRange _) (isSet_setOfRange _)).mp hx)

/-- Witness for C8: the exclusive words of {cat, dog, the} and {dog, ran, the}. -/
theorem findExclusiveWords_spec_witness :
    IsSet ["cat".toList, "dog".toList, "the".toList]
    ∧ IsSet ["dog".toList, "ran".toList, "the".toList]
    ∧ findExclusiveWords ["cat".toList, "dog".toList, "the".toList]
        ["dog".toList, "ran".toList, "the".toList] = ["cat".toList]
    ∧ findExclusiveWords ["dog".toList, "ran".toList, "the".toList]
        ["cat".toList, "dog".toList, "the".toList] = ["ran".toList]
    ∧ findCommonWords
        (findExclusiveWords ["cat".toList, "dog".toList, "the".toList]
          ["dog".toList, "ran".toList, "the".toList])
        (findExclusiveWords ["dog".toList, "ran".toList, "the".toList]
          ["cat".toList, "dog".toList, "the".toList]) = [] :=
  ⟨by decide, by decide, by decide, by decide,
    (findExclusiveWords_spec ["cat".toList, "dog".toList, "the".toList]
      ["dog".toList, "ran".toList, "the".toList] (by decide) (by decide)).2.2.2⟩

/-! ## C9: range of the readability score -/

/-- C9: for every input `DocumentStats` (any `wordCount`, `sentenceCount` and
word-frequency table), `calculateReadabilityScore` returns a value in the closed interval
`[0, 100]`, and exactly 50 whenever `sentenceCount = 0` or `wordCount = 0` (`double` read
as exact rationals). -/
theorem calculateReadabilityScore_range (doc : DocumentStats) :
    0 ≤ calculateReadabilityScore doc ∧ calculateReadabilityScore doc ≤ 100
    ∧ (doc.sentenceCount = 0 ∨ doc.wordCount = 0 → calculateReadabilityScore doc = 50) := by
  unfold calculateReadabilityScore
  refine ⟨?_, ?_, ?_⟩
  · split
    · norm_num
    · exact le_max_left _ _
  · split
    · norm_num
    · exact max_le (by norm_num) (min_le_left _ _)
  · intro h
    rw [if_pos]
    rcases h with h | h <;> simp [h]

/-- Witness for C9: a document with no words scores 50, and a table of one two-syllable
word in one sentence scores 36.62. -/
theorem calculateReadabilityScore_range_witness :
    calculateReadabilityScore zeroStats = 50
    ∧ calculateReadabilityScore { zeroStats with
        wordCount := 1, sentenceCount := 1, wordFrequency := [("hello".toList, 1)] }
      = 3662 / 100 := by
  refine ⟨(calculateReadabilityScore_range zeroStats).2.2 (Or.inl rfl), ?_⟩
  have h : countSyllables "hello".toList = 2 := by decide
  simp only [calculateReadabilityScore, zeroStats, List.foldl, h]
  norm_num

/-! ## C10: the readability formula -/

theorem lastIsVowel_append (w : Str) (c : Char) : lastIsVowel (w ++ [c]) = isVowel c := by
  have e : (w ++ [c]).length - 1 = w.length + 0 := by simp
  rw [lastIsVowel, e, charAt_append_right]
  simp [charAt]

theorem vowelRuns_append (w : Str) (c : Char) :
    vowelRuns (w ++ [c]) = vowelRuns w + (if isVowel c && !lastIsVowel w then 1 else 0) := by
  have hcongr : (List.range w.length).filter (vowelRunStartsAt (w ++ [c]))
      = (List.range w.length).filter (vowelRunStartsAt w) := by
    apply List.filter_congr
    intro i hi
    have hi' : i < w.length := List.mem_range.mp hi
    simp only [vowelRunStartsAt]
    rw [charAt_append_left hi', charAt_append_left (by omega)]
  have hlast : vowelRunStartsAt (w ++ [c]) w.length = (isVowel c && !lastIsVowel w) := by
    have e : charAt (w ++ [c]) w.length = c := by
      have := charAt_append_right w [c] 0
      rw [Nat.add_zero] at this
      rw [this]
      rfl
    rw [vowelRunStartsAt, e, lastIsVowel]
    rcases Nat.eq_zero_or_pos w.length with h0 | hpos
    · simp [h0]
    · rw [charAt_append_left (by omega)]
      have h1 : decide (w.length = 0) = false := by
        rw [decide_eq_false_iff_not]; omega
      have h2 : decide (0 < w.length) = true := by
        rw [decide_eq_true_eq]; exact hpos
      rw [h1, h2]
      simp
  rw [vowelRuns, List.length_append, List.length_singleton, List.range_succ,
    List.filter_append, hcongr, List.length_append, vowelRuns]
  congr 1
  simp only [List.filter, hlast]
  cases (isVowel c && !lastIsVowel w) <;> rfl

/-- The syllable-counting loop counts the starts of the vowel runs. -/
theorem syllable_loop (word : Str) :
    word.foldl (fun (state : Int × Bool) c =>
        (if isVowel c && !state.2 then state.1 + 1 else state.1, isVowel c)) (0, false)
      = ((vowelRuns word : Int), lastIsVowel word) := by
  induction word using List.reverseRecOn with
  | nil => rfl
  | append_singleton w c ih =>
    rw [List.foldl_append, ih, List.foldl_cons, List.foldl_nil, lastIsVowel_append,
      vowelRuns_append]
    cases (isVowel c && !lastIsVowel w) <;> simp

theorem getLast?_eq_charAt {word : Str} (h : 0 < word.length) :
    word.getLast? = some (charAt word (word.length - 1)) := by
  rw [List.getLast?_eq_getElem?, charAt_of_lt (by omega), List.getElem?_eq_getElem]

/-- The syllable count of the code is `max(1, g - d)`. -/
theorem countSyllables_eq_spec (word : Str) : countSyllables word = syllablesSpec word := by
  simp only [countSyllables, syllable_loop, syllablesSpec]
  by_cases hlen : word.length > 2
  · rw [getLast?_eq_charAt (by omega)]
    by_cases he : charAt word (word.length - 1) = 'e'
    · by_cases hg : vowelRuns word > 1
      · have hg' : ((vowelRuns word : Nat) : Int) > 1 := by exact_mod_cast hg
        simp only [hlen, he, hg, hg', decide_True, beq_self_eq_true, Bool.and_self, if_true,
          and_self]
        rw [max_eq_right (by omega)]
        simp
        omega
      · have hg' : ¬ ((vowelRuns word : Nat) : Int) > 1 := by exact_mod_cast hg
        simp only [hlen, he, hg, hg', decide_True, decide_False, beq_self_eq_true,
          Bool.and_false, Bool.false_eq_true, if_false, and_false, and_true, sub_zero]
        by_cases h0 : vowelRuns word = 0
        · simp [h0]
        · rw [max_eq_right (by omega)]
          simp
          omega
    · have he' : (charAt word (word.length - 1) == 'e') = false := by simpa using he
      simp only [hlen, he, he', decide_True, Bool.and_false, Bool.false_and,
        Bool.false_eq_true, if_false, Option.some.injEq, false_and, and_false, sub_zero]
      by_cases h0 : vowelRuns word = 0
      · simp [h0]
      · rw [max_eq_right (by omega)]
        simp
        omega
  · simp only [hlen, decide_False, Bool.false_and, Bool.false_eq_true, if_false, false_and,
      sub_zero]
    by_cases h0 : vowelRuns word = 0
    · simp [h0]
    · rw [max_eq_right (by omega)]
      simp
      omega

theorem mapIncr_weighted_sum (g : Str → Int) (k : Str) : ∀ m : List (Str × Int),
    ((mapIncr strLess k m).map (fun p => g p.1 * p.2)).sum
      = (m.map (fun p => g p.1 * p.2)).sum + g k
  | [] => by simp [mapIncr]
  | (k', v) :: rest => by
    simp only [mapIncr]
    split
    · simp; omega
    · split
      · simp only [List.map_cons, List.sum_cons, mapIncr_weighted_sum g k rest]; omega
      · rename_i h1 h2
        have hk : k = k' := strLess_total (by simpa using h1) (by simpa using h2)
        subst hk
        simp only [List.map_cons, List.sum_cons, mul_add, mul_one]; omega

/-- The frequency-weighted sum over the distinct words equals the sum over the token
occurrences. -/
theorem getWordFrequency_weighted_sum (g : Str → Int) (ts : List Str) :
    ((getWordFrequency ts).map (fun p => g p.1 * p.2)).sum = (ts.map g).sum := by
  induction ts using List.reverseRecOn with
  | nil => rfl
  | append_singleton ts w ih =>
    rw [getWordFrequency_append, mapIncr_weighted_sum, ih]
    simp

theorem foldl_add_cast (h : Str × Int → Int) : ∀ (m : List (Str × Int)) (a : ℚ),
    m.foldl (fun total p => total + ((h p : Int) : ℚ)) a = a + (((m.map h).sum : Int) : ℚ)
  | [], a => by simp
  | p :: m, a => by
    rw [List.foldl_cons, foldl_add_cast h m]
    simp only [List.map_cons, List.sum_cons]
    push_cast
    ring

/-- C10: for every document analysed by `analyzeDocument` with `W = wordCount > 0` tokens
and `S = sentenceCount > 0`, `readabilityScore` is the clamp to `[0, 100]` of
`206.835 − 1.015·(W/S) − 84.6·(Σ/W)`, where `Σ` is the sum of `syl(t)` over every token
occurrence `t` of the document (the frequency-weighted sum over the distinct words that the
code computes equals this per-token sum) and `syl(word) = max(1, g − d)` (`double` read as
exact rationals). -/
theorem readabilityScore_formula (init : DocumentStats)
    (stdSort : List (Str × Int) → List (Str × Int)) (filename : Str) (file : Option Str)
    (hW : 0 < (analyzeDocument init stdSort filename file).wordCount)
    (hS : 0 < (analyzeDocument init stdSort filename file).sentenceCount) :
    (analyzeDocument init stdSort filename file).wordCount
        = ((tokenize (loadFile file)).length : Int)
    ∧ (analyzeDocument init stdSort filename file).sentenceCount
        = countSentences (loadFile file)
    ∧ (((analyzeDocument init stdSort filename file).wordFrequency).map
          (fun p => countSyllables p.1 * p.2)).sum
        = ((tokenize (loadFile file)).map syllablesSpec).sum
    ∧ (analyzeDocument init stdSort filename file).readabilityScore
        = fleschSpec (analyzeDocument init stdSort filename file).wordCount
            (analyzeDocument init stdSort filename file).sentenceCount
            ((((tokenize (loadFile file)).map syllablesSpec).sum : Int) : ℚ) := by
  cases hc : loadFile file with
  | nil =>
    exfalso
    simp [analyzeDocument, hc] at hW
  | cons c cs =>
    simp only [analyzeDocument, hc, List.isEmpty_cons, Bool.false_eq_true, if_false] at hW hS
    simp only [analyzeDocument, hc, List.isEmpty_cons, Bool.false_eq_true, if_false]
    have hsum : ((getWordFrequency (tokenize (c :: cs))).map
        (fun p => countSyllables p.1 * p.2)).sum
          = ((tokenize (c :: cs)).map syllablesSpec).sum := by
      rw [getWordFrequency_weighted_sum countSyllables]
      congr 1
      exact List.map_congr_left (fun t _ => countSyllables_eq_spec t)
    refine ⟨rfl, trivial, hsum, ?_⟩
    have hW0 : ¬ countWords (tokenize (c :: cs)) = 0 := by omega
    have hS0 : ¬ countSentences (c :: cs) = 0 := by omega
    have hcond : ¬ (countSentences (c :: cs) == 0 || countWords (tokenize (c :: cs)) == 0)
        = true := by simp [hW0, hS0]
    simp only [calculateReadabilityScore]
    rw [if_neg hcond, foldl_add_cast (fun p => countSyllables p.1 * p.2), hsum, fleschSpec]
    norm_num

/-- Witness for C10: the file "The beautiful cat." has 3 tokens, 1 sentence and 5
syllables, and scores 62.79. -/
theorem readabilityScore_formula_witness :
    0 < (analyzeDocument zeroStats id "a.txt".toList
          (some "The beautiful cat.".toList)).wordCount
    ∧ 0 < (analyzeDocument zeroStats id "a.txt".toList
          (some "The beautiful cat.".toList)).sentenceCount
    ∧ (analyzeDocument zeroStats id "a.txt".toList
          (some "The beautiful cat.".toList)).readabilityScore = 6279 / 100 := by
  have h := readabilityScore_formula zeroStats id "a.txt".toList
    (some "The beautiful cat.".toList) (by decide) (by decide)
  refine ⟨by decide, by decide, ?_⟩
  have hw : (analyzeDocument zeroStats id "a.txt".toList
      (some "The beautiful cat.".toList)).wordCount = 3 := by decide
  have hs : (analyzeDocument zeroStats id "a.txt".toList
      (some "The beautiful cat.".toList)).sentenceCount = 1 := by decide
  have hsyl : ((tokenize (loadFile (some "The beautiful cat.".toList))).map
      syllablesSpec).sum = 5 := by decide
  rw [h.2.2.2, hw, hs, hsyl, fleschSpec]
  norm_num

/-! ## The counting loop on alphanumeric words -/

/-- The loop of `countWordOccurrences`, started at index `q` of the text, counts the
whole-word occurrences of an alphanumeric word from `q` on. -/
theorem countLoop_spec (t w : Str) (hw : w ≠ []) (hal : ∀ c ∈ w, isalnum c = true) :
    ∀ (fuel q : Nat) (cnt : Int), q ≤ t.length → t.length - q < fuel →
      countLoop (w.map tolower) (t.map tolower) fuel q cnt
        = some (cnt + ((wholeWordPositionsFrom t w q).length : Int)) := by
  have hlen : 0 < w.length := List.length_pos.mpr hw
  intro fuel
  induction fuel with
  | zero => intro q cnt _ hf; omega
  | succ fuel ih =>
    intro q cnt hq hfuel
    rw [countLoop, find, if_pos (by simpa using hq)]
    cases hfind : findAux (w.map tolower) ((t.map tolower).drop q) q with
    | none =>
      have hnone := findAux_none _ _ hfind
      have hnil : wholeWordPositionsFrom t w q = [] := by
        apply wholeWordPositionsFrom_nil
        intro k hk1 hk2
        have := hnone (k - q) (by simp; omega)
        rw [List.drop_drop, show q + (k - q) = k by omega,
          prefix_drop_iff_occursAt t w hw] at this
        simpa using this
      simp [hnil]
    | some p =>
      obtain ⟨j, hpj, hjl, hpre, hmin⟩ := findAux_some _ _ _ hfind
      subst hpj
      rw [List.drop_drop, prefix_drop_iff_occursAt t w hw] at hpre
      have hle := occursAt_le hpre
      have hmin' : ∀ k, q ≤ k → k < q + j → occursAt t w k = false := by
        intro k hk1 hk2
        have := hmin (k - q) (by omega)
        rw [List.drop_drop, show q + (k - q) = k by omega,
          prefix_drop_iff_occursAt t w hw] at this
        simpa using this
      have hww := isWholeWord_eq t w [] 0 (q + j) (by rw [Nat.zero_add]; exact hpre)
        (Or.inr (by simp [prevAlnum]))
      simp only [List.nil_append, List.drop_zero, List.length_nil, Nat.zero_add] at hww
      have hsplit := wholeWordPositionsFrom_split hw hal (Nat.le_add_right q j) hpre hmin'
      simp only []
      rw [hww, List.length_map, ih (q + j + w.length) _ hle (by omega), hsplit]
      cases wholeWordAt t w (q + j) with
      | false => simp
      | true =>
        simp only [if_true, List.singleton_append, List.length_cons]
        push_cast
        rw [Option.some.injEq]
        omega

/-- For a non-empty word made of letters and digits, `countWordOccurrences` returns the
number of matches that `replaceWordInText` accepts. -/
theorem countWordOccurrences_eq_accepted_of_isalnum (t w r : Str) (hw : w ≠ [])
    (hal : ∀ c ∈ w, isalnum c = true) :
    countWordOccurrences t w = some (((wholeWordPositions t w).length : Nat) : Int)
    ∧ replaceWordInTextAccepted t w r = some (wholeWordPositions t w).length := by
  constructor
  · have h := countLoop_spec t w hw hal (t.length + 1) 0 0 (Nat.zero_le _) (by omega)
    simpa [countWordOccurrences, countWordOccurrencesFuel, wholeWordPositions] using h
  · rw [replaceWordInTextAccepted,
      replaceWordInTextFuel_spec t w r hw hal _ (Nat.lt_succ_self _)]
    rfl

/-! ## C11: the sentence count -/

theorem foldl_count_terminators : ∀ (text : Str) (a : Int),
    text.foldl (fun count c => if c == '.' || c == '!' || c == '?' then count + 1 else count) a
      = a + ((text.countP isTerminator : Nat) : Int)
  | [], a => by simp
  | c :: cs, a => by
    rw [List.foldl_cons, foldl_count_terminators cs, List.countP_cons]
    by_cases h : (c == '.' || c == '!' || c == '?') = true
    · have h' : isTerminator c = true := h
      rw [if_pos h, if_pos h']
      push_cast
      omega
    · have h' : ¬ isTerminator c = true := h
      rw [if_neg h, if_neg h']
      simp

theorem countSentences_eq (text : Str) :
    countSentences text
      = if 0 < text.countP isTerminator then ((text.countP isTerminator : Nat) : Int) else 1 := by
  simp only [countSentences, foldl_count_terminators, zero_add]
  by_cases h : 0 < text.countP isTerminator
  · rw [if_pos h, if_pos (by exact_mod_cast h)]
  · rw [if_neg h, if_neg (by omega)]

/-- C11: for every text `T`, `countSentences(T) ≥ 1`: it is the number of '.', '!' and '?'
characters of `T` when there is at least one, and exactly 1 when `T` contains no terminal
punctuation. -/
theorem countSentences_spec (T : Str) :
    1 ≤ countSentences T
    ∧ countSentences T
        = (if 0 < T.countP isTerminator then ((T.countP isTerminator : Nat) : Int) else 1)
    ∧ ((∃ c ∈ T, isTerminator c = true) →
        countSentences T = ((T.countP isTerminator : Nat) : Int))
    ∧ ((∀ c ∈ T, isTerminator c = false) → countSentences T = 1) := by
  refine ⟨?_, countSentences_eq T, ?_, ?_⟩
  · rw [countSentences_eq]
    split <;> omega
  · rintro ⟨c, hc, hterm⟩
    rw [countSentences_eq, if_pos (List.countP_pos_iff.mpr ⟨c, hc, hterm⟩)]
  · intro h
    have h0 : T.countP isTerminator = 0 := by
      rw [List.countP_eq_zero]
      intro c hc
      simp [h c hc]
    rw [countSentences_eq, h0]
    rfl

/-- Witness for C11: "Hi! Who? Me." has three terminators and "no end" has none. -/
theorem countSentences_spec_witness :
    countSentences "Hi! Who? Me.".toList = 3 ∧ countSentences "no end".toList = 1 :=
  ⟨((countSentences_spec "Hi! Who? Me.".toList).2.2.1 ⟨'!', by decide, by decide⟩).trans
      (by decide),
    (countSentences_spec "no end".toList).2.2.2 (by decide)⟩

/-! ## The sentence splitter -/

theorem splitSentencesLoop_eq : ∀ (cs sentence : Str) (sentences : List Str),
    (if !(splitSentencesLoop cs sentence sentences).1.isEmpty then
        (splitSentencesLoop cs sentence sentences).2
          ++ [(splitSentencesLoop cs sentence sentences).1]
      else (splitSentencesLoop cs sentence sentences).2)
      = sentences ++ sentenceSpans cs sentence
  | [], sentence, sentences => by
    simp only [splitSentencesLoop, sentenceSpans]
    cases sentence <;> simp
  | c :: cs, sentence, sentences => by
    simp only [splitSentencesLoop, sentenceSpans]
    by_cases h : isTerminator c = true
    · have hne : (!(sentence ++ [c]).isEmpty) = true := by simp
      rw [if_pos h, if_pos h, if_pos hne, splitSentencesLoop_eq cs []]
      simp
    · rw [if_neg h, if_neg h, splitSentencesLoop_eq cs (sentence ++ [c])]

/-- The sentences stored by `analyzeDocument` are the sentence spans of the text. -/
theorem splitSentences_eq (T : Str) : splitSentences T = sentenceSpans T [] := by
  have h := splitSentencesLoop_eq T [] []
  rw [List.nil_append] at h
  rw [← h, splitSentences]

theorem endsWithTerminator_cons {c : Char} {cs : Str} (h : cs ≠ []) :
    endsWithTerminator (c :: cs) = endsWithTerminator cs := by
  cases cs with
  | nil => exact absurd rfl h
  | cons d ds => simp [endsWithTerminator, List.getLast?_cons_cons]

theorem length_sentenceSpans : ∀ (cs sentence : Str),
    (sentenceSpans cs sentence).length
      = cs.countP isTerminator
        + (if cs = [] then (if sentence.isEmpty then 0 else 1)
           else if endsWithTerminator cs then 0 else 1)
  | [], sentence => by
    simp only [sentenceSpans]
    cases sentence <;> simp
  | c :: cs, sentence => by
    simp only [sentenceSpans, List.countP_cons]
    by_cases h : isTerminator c = true
    · rw [if_pos h, if_pos h, List.length_cons, length_sentenceSpans cs []]
      by_cases hcs : cs = []
      · subst hcs
        simp [endsWithTerminator, h]
      · rw [endsWithTerminator_cons hcs]
        simp only [hcs, if_false, List.cons_ne_nil]
        omega
    · rw [if_neg h, if_neg h, length_sentenceSpans cs (sentence ++ [c])]
      by_cases hcs : cs = []
      · subst hcs
        simp [endsWithTerminator, h]
      · rw [endsWithTerminator_cons hcs]
        simp only [hcs, if_false, List.cons_ne_nil]
        omega

/-- The content built by `loadFile` is empty or ends with a space. -/
theorem loadFile_ends_with_space (file : Option Str) :
    loadFile file = [] ∨ (loadFile file).getLast? = some ' ' := by
  cases file with
  | none => left; rfl
  | some text =>
    simp only [loadFile]
    apply foldl_invariant (fun acc : Str => acc = [] ∨ acc.getLast? = some ' ')
    · intro acc line _
      right
      rw [← List.append_assoc, List.getLast?_append]
      simp
    · left; rfl

theorem analyzeDocument_sentences (init : DocumentStats)
    (stdSort : List (Str × Int) → List (Str × Int)) (filename : Str) (file : Option Str)
    (h : loadFile file ≠ []) :
    (analyzeDocument init stdSort filename file).sentenceCount
        = countSentences (loadFile file)
    ∧ (analyzeDocument init stdSort filename file).sentences
        = splitSentences (loadFile file) := by
  cases hc : loadFile file with
  | nil => exact absurd hc h
  | cons c cs =>
    simp only [analyzeDocument, hc, List.isEmpty_cons, Bool.false_eq_true, if_false,
      List.nil_append, and_self]

/-! ## C12: the sentence count against the stored sentences -/

theorem countP_pos_of_endsWithTerminator {T : Str} (h : endsWithTerminator T = true) :
    0 < T.countP isTerminator := by
  rw [endsWithTerminator] at h
  split at h
  · rename_i c hc
    exact List.countP_pos_iff.mpr ⟨c, List.mem_of_getLast?_eq_some hc, h⟩
  · cases h

/-- C12 (as stated) fails: for the file "The cat sat.", loaded as "The cat sat. ",
`analyzeDocument` stores `sentenceCount = 1` but two sentence spans, "The cat sat." and
" ". -/
theorem sentenceCount_ne_number_of_sentences :
    (analyzeDocument zeroStats id "a.txt".toList (some "The cat sat.".toList)).sentenceCount = 1
    ∧ (analyzeDocument zeroStats id "a.txt".toList (some "The cat sat.".toList)).sentences
        = ["The cat sat.".toList, " ".toList]
    ∧ (analyzeDocument zeroStats id "a.txt".toList (some "The cat sat.".toList)).sentenceCount
        ≠ ((analyzeDocument zeroStats id "a.txt".toList
            (some "The cat sat.".toList)).sentences.length : Int) := by
  decide

/-- C12 (amended): for every non-empty document text, `sentenceCount` equals the number of
sentence spans emitted into `sentences` when the text holds no terminator or ends with a
terminator, and is one less than that number otherwise; a text loaded by `loadFile` ends
with a space, so a loaded document with at least one terminator stores
`sentenceCount + 1` spans. -/
theorem sentenceCount_vs_sentences (T : Str) (hT : T ≠ []) :
    ((splitSentences T).length : Int)
      = (if endsWithTerminator T = true ∨ T.countP isTerminator = 0 then countSentences T
         else countSentences T + 1)
    ∧ ∀ (init : DocumentStats) (stdSort : List (Str × Int) → List (Str × Int))
        (filename : Str) (file : Option Str), loadFile file = T →
        (analyzeDocument init stdSort filename file).sentenceCount = countSentences T
        ∧ (analyzeDocument init stdSort filename file).sentences = splitSentences T
        ∧ (((analyzeDocument init stdSort filename file).sentences.length : Nat) : Int)
            = (if T.countP isTerminator = 0 then
                (analyzeDocument init stdSort filename file).sentenceCount
               else (analyzeDocument init stdSort filename file).sentenceCount + 1) := by
  have hlen : ((splitSentences T).length : Int)
      = (if endsWithTerminator T = true ∨ T.countP isTerminator = 0 then countSentences T
         else countSentences T + 1) := by
    rw [splitSentences_eq, length_sentenceSpans, countSentences_eq, if_neg hT]
    by_cases hend : endsWithTerminator T = true
    · have hpos := countP_pos_of_endsWithTerminator hend
      rw [if_pos hend, if_pos (Or.inl hend), if_pos hpos]
      simp
    · by_cases h0 : T.countP isTerminator = 0
      · rw [if_neg hend, if_pos (Or.inr h0), h0]
        simp
      · have hpos : 0 < T.countP isTerminator := Nat.pos_of_ne_zero h0
        rw [if_neg hend, if_neg (by tauto), if_pos hpos]
        simp
  refine ⟨hlen, ?_⟩
  intro init stdSort filename file hfile
  have hne : loadFile file ≠ [] := by rw [hfile]; exact hT
  obtain ⟨h1, h2⟩ := analyzeDocument_sentences init stdSort filename file hne
  rw [hfile] at h1 h2
  refine ⟨h1, h2, ?_⟩
  have hend : ¬ endsWithTerminator T = true := by
    rcases loadFile_ends_with_space file with h | h
    · exact absurd h hne
    · rw [hfile] at h
      simp [endsWithTerminator, h, isTerminator]
  rw [h1, h2, hlen]
  by_cases h0 : T.countP isTerminator = 0
  · rw [if_pos (Or.inr h0), if_pos h0]
  · rw [if_neg (by tauto), if_neg h0]

/-- Witness for C12 (amended): the loaded text "The cat sat. " has one terminator, does
not end with it, and is split into two spans. -/
theorem sentenceCount_vs_sentences_witness :
    "The cat sat. ".toList ≠ [] ∧ countSentences "The cat sat. ".toList = 1
    ∧ ((splitSentences "The cat sat. ".toList).length : Int) = 2 :=
  ⟨by decide, by decide,
    (sentenceCount_vs_sentences "The cat sat. ".toList (by decide)).1.trans (by decide)⟩

/-! ## C13 to C16: the scenario documents -/

theorem analyzeDocument_wordCount (init : DocumentStats)
    (stdSort : List (Str × Int) → List (Str × Int)) (filename : Str) (file : Option Str)
    (h : loadFile file ≠ []) :
    (analyzeDocument init stdSort filename file).wordCount
      = countWords (tokenize (loadFile file)) := by
  cases hc : loadFile file with
  | nil => exact absurd hc h
  | cons c cs =>
    simp only [analyzeDocument, hc, List.isEmpty_cons, Bool.false_eq_true, if_false]

/-- C13: for Document A = "The cat sat. The dog ran fast!" the analysis gives
`wordCount = 7`, the length of `tokenize(A)`, and `sentenceCount = 2`, the value of
`countSentences(A)`; the same holds for the fields stored by `analyzeDocument` for a file
holding Document A. -/
theorem documentA_counts :
    (tokenize documentA).length = 7 ∧ countWords (tokenize documentA) = 7
    ∧ countSentences documentA = 2
    ∧ ∀ (init : DocumentStats) (stdSort : List (Str × Int) → List (Str × Int))
        (filename : Str),
        (analyzeDocument init stdSort filename (some documentA)).wordCount = 7
        ∧ (analyzeDocument init stdSort filename (some documentA)).sentenceCount = 2 := by
  refine ⟨by decide, by decide, by decide, ?_⟩
  intro init stdSort filename
  have hne : loadFile (some documentA) ≠ [] := by decide
  rw [analyzeDocument_wordCount init stdSort filename _ hne,
    (analyzeDocument_sentences init stdSort filename _ hne).1]
  exact ⟨by decide, by decide⟩

/-- C14 (as stated) fails: the unique words of Document A do not include "sat" (the token
is "sat."), so they are not the set {the, cat, sat, dog, ran, fast}. -/
theorem documentA_uniqueWords_not_plain :
    "sat".toList ∉ getUniqueWords (tokenize documentA)
    ∧ ¬ (∀ w : Str, w ∈ getUniqueWords (tokenize documentA)
          ↔ w ∈ ["the".toList, "cat".toList, "sat".toList, "dog".toList, "ran".toList,
              "fast".toList]) := by
  refine ⟨by decide, fun h => ?_⟩
  have h1 := (h "sat".toList).mpr (by decide)
  revert h1
  decide

/-- C14 (amended): for Document A = "The cat sat. The dog ran fast!",
`getUniqueWords(tokenize(A))` is exactly the six-element set
{cat, dog, fast!, ran, sat., the}: the words before a terminator keep it. -/
theorem documentA_uniqueWords :
    getUniqueWords (tokenize documentA)
      = ["cat".toList, "dog".toList, "fast!".toList, "ran".toList, "sat.".toList,
          "the".toList]
    ∧ (getUniqueWords (tokenize documentA)).length = 6 := by
  decide

/-- C15 (as stated) fails: "ran" is not a common word of Documents A and B, because the
token of Document B is "ran."; the shared words are not {the, cat, dog, ran}. -/
theorem documents_commonWords_without_ran :
    "ran".toList ∉ findCommonWords (getUniqueWords (tokenize documentA))
        (getUniqueWords (tokenize documentB))
    ∧ ¬ (∀ w : Str, w ∈ findCommonWords (getUniqueWords (tokenize documentA))
            (getUniqueWords (tokenize documentB))
          ↔ w ∈ ["the".toList, "cat".toList, "dog".toList, "ran".toList]) := by
  refine ⟨by decide, fun h => ?_⟩
  have h1 := (h "ran".toList).mpr (by decide)
  revert h1
  decide

/-- C15 (amended): for Documents A and B, the Jaccard similarity of their unique-word sets
is greater than 0 (it is 3/9 × 100) and `findCommonWords` of the two sets is exactly
{cat, dog, the}. -/
theorem documents_similarity :
    0 < jaccardSimilarity (getUniqueWords (tokenize documentA))
        (getUniqueWords (tokenize documentB))
    ∧ jaccardSimilarity (getUniqueWords (tokenize documentA))
        (getUniqueWords (tokenize documentB)) = (3 : ℚ) / 9 * 100
    ∧ findCommonWords (getUniqueWords (tokenize documentA))
        (getUniqueWords (tokenize documentB))
      = ["cat".toList, "dog".toList, "the".toList] := by
  have hi : (setOfRange (set_intersection (getUniqueWords (tokenize documentA))
      (getUniqueWords (tokenize documentB)))).length = 3 := by decide
  have hu : (setOfRange (set_union (getUniqueWords (tokenize documentA))
      (getUniqueWords (tokenize documentB)))).length = 9 := by decide
  have he : (setOfRange (set_union (getUniqueWords (tokenize documentA))
      (getUniqueWords (tokenize documentB)))).isEmpty = false := by decide
  have hj : jaccardSimilarity (getUniqueWords (tokenize documentA))
      (getUniqueWords (tokenize documentB)) = (3 : ℚ) / 9 * 100 := by
    simp only [jaccardSimilarity, he, hi, hu, Bool.false_eq_true, if_false]
    norm_num
  refine ⟨?_, hj, by decide⟩
  rw [hj]
  norm_num

/-- C16: for Document A, `countWordOccurrences(A, "dog") = 1`, and the token set of
`replaceWordInText(A, "dog", "wolf")`, which is "The cat sat. The wolf ran fast!",
contains "wolf" and does not contain "dog". -/
theorem documentA_replace_dog :
    countWordOccurrences documentA "dog".toList = some 1
    ∧ replaceWordInText documentA "dog".toList "wolf".toList
        = some "The cat sat. The wolf ran fast!".toList
    ∧ "wolf".toList ∈ getUniqueWords (tokenize "The cat sat. The wolf ran fast!".toList)
    ∧ "dog".toList ∉ getUniqueWords (tokenize "The cat sat. The wolf ran fast!".toList) := by
  decide

/-! ## C17: `normalizeText` as a character-wise map -/

theorem normalize_step (acc : Str) (c : Char) :
    (if (isalpha c || isspace c || c == '.' || c == '!' || c == '?') = true then
        acc ++ [tolower c]
      else if ispunct c = true then acc ++ [' '] else acc)
      = acc ++ normalizeCharSpec c := by
  rw [normalizeCharSpec]
  by_cases ha : isalpha c = true
  · simp [ha]
  · have hup : isupper c = false := by
      cases hu : isupper c
      · rfl
      · simp [isalpha, hu] at ha
    have hlow : tolower c = c := tolower_of_not_isupper hup
    have ha' : isalpha c = false := by simpa using ha
    by_cases hk : (isspace c || isTerminator c) = true
    · have hcond : (isalpha c || isspace c || c == '.' || c == '!' || c == '?') = true := by
        simp only [isTerminator, Bool.or_eq_true] at hk ⊢
        tauto
      rw [if_pos hcond, if_neg ha, if_pos hk, hlow]
    · have hcond : ¬ (isalpha c || isspace c || c == '.' || c == '!' || c == '?') = true := by
        simp only [isTerminator, Bool.or_eq_true] at hk ⊢
        tauto
      rw [if_neg hcond, if_neg ha, if_neg hk]
      by_cases hp : ispunct c = true
      · rw [if_pos hp, if_pos hp]
      · rw [if_neg hp, if_neg hp, List.append_nil]

theorem normalize_foldl : ∀ (text acc : Str),
    text.foldl (fun normalized c =>
      if isalpha c || isspace c || c == '.' || c == '!' || c == '?' then
        normalized ++ [tolower c]
      else if ispunct c then normalized ++ [' ']
      else normalized) acc
      = acc ++ text.flatMap normalizeCharSpec
  | [], acc => by simp
  | c :: cs, acc => by
    rw [List.foldl_cons, normalize_step, normalize_foldl cs, List.flatMap_cons,
      List.append_assoc]

theorem length_normalizeCharSpec (c : Char) : (normalizeCharSpec c).length ≤ 1 := by
  rw [normalizeCharSpec]
  split
  · simp
  · split
    · simp
    · split <;> simp

theorem length_flatMap_normalizeCharSpec : ∀ text : Str,
    (text.flatMap normalizeCharSpec).length ≤ text.length
  | [] => by simp
  | c :: cs => by
    rw [List.flatMap_cons, List.length_append, List.length_cons]
    have h1 := length_normalizeCharSpec c
    have h2 := length_flatMap_normalizeCharSpec cs
    omega

/-- C17: for every text (ASCII or not), `normalizeText` is the character-wise map that
turns each letter into its lowercase form, keeps each white-space character and each of
'.', '!', '?' unchanged, turns every other punctuation character into one space and
deletes every remaining character; hence the output is never longer than the input, and
"word1word" normalises to "wordword", which tokenises as the single token "wordword". -/
theorem normalizeText_charwise (T : Str) :
    normalizeText T = T.flatMap normalizeCharSpec
    ∧ (normalizeText T).length ≤ T.length
    ∧ normalizeText "word1word".toList = "wordword".toList
    ∧ tokenize "word1word".toList = ["wordword".toList] := by
  have h : normalizeText T = T.flatMap normalizeCharSpec := by
    rw [normalizeText, normalize_foldl, List.nil_append]
  refine ⟨h, ?_, by decide, by decide⟩
  rw [h]
  exact length_flatMap_normalizeCharSpec T

/-! ## C18: the sentence spans partition the text -/

theorem sentenceSpans_spec : ∀ (cs sentence : Str),
    (∀ c ∈ sentence, isTerminator c = false) →
    (∀ x ∈ sentenceSpans cs sentence, x ≠ [])
    ∧ (sentenceSpans cs sentence).flatten = sentence ++ cs
    ∧ (∀ (i : Nat) (x : Str), (sentenceSpans cs sentence)[i]? = some x →
        i + 1 < (sentenceSpans cs sentence).length → endsWithTerminator x = true)
    ∧ (∀ x ∈ sentenceSpans cs sentence, ∀ c ∈ x.dropLast, isTerminator c = false)
  | [], sentence, hs => by
    rw [sentenceSpans]
    cases sentence with
    | nil => simp
    | cons d ds =>
      simp only [List.isEmpty_cons, Bool.false_eq_true, if_false, List.mem_singleton,
        List.length_singleton, List.append_nil]
      refine ⟨fun x hx => by rw [hx]; simp, by simp, fun i x _ hi => by omega, ?_⟩
      intro x hx c hc
      rw [hx] at hc
      exact hs c (List.dropLast_subset _ hc)
  | c :: cs, sentence, hs => by
    rw [sentenceSpans]
    by_cases h : isTerminator c = true
    · rw [if_pos h]
      obtain ⟨h1, h2, h3, h4⟩ := sentenceSpans_spec cs [] (by simp)
      refine ⟨?_, ?_, ?_, ?_⟩
      · intro x hx
        rcases List.mem_cons.mp hx with e | hm
        · rw [e]; simp
        · exact h1 x hm
      · rw [List.flatten_cons, h2]; simp
      · intro i x hx hi
        cases i with
        | zero =>
          simp only [List.getElem?_cons_zero, Option.some.injEq] at hx
          rw [← hx]
          simp [endsWithTerminator, h]
        | succ i =>
          rw [List.getElem?_cons_succ] at hx
          rw [List.length_cons] at hi
          exact h3 i x hx (by omega)
      · intro x hx
        rcases List.mem_cons.mp hx with e | hm
        · rw [e, List.dropLast_concat]
          exact hs
        · exact h4 x hm
    · rw [if_neg h]
      have hs' : ∀ d ∈ sentence ++ [c], isTerminator d = false := by
        intro d hd
        rcases List.mem_append.mp hd with hd | hd
        · exact hs d hd
        · rw [List.mem_singleton.mp hd]; simpa using h
      obtain ⟨h1, h2, h3, h4⟩ := sentenceSpans_spec cs (sentence ++ [c]) hs'
      exact ⟨h1, by rw [h2]; simp, h3, h4⟩

theorem findLongestLoop_eq : ∀ (cs sentence longest : Str) (maxWords : Nat),
    (if (!(findLongestLoop cs sentence longest maxWords).1.isEmpty
          && decide ((tokenize (findLongestLoop cs sentence longest maxWords).1).length
              > (findLongestLoop cs sentence longest maxWords).2.2)) = true then
        ((findLongestLoop cs sentence longest maxWords).1,
          (tokenize (findLongestLoop cs sentence longest maxWords).1).length)
      else ((findLongestLoop cs sentence longest maxWords).2.1,
          (findLongestLoop cs sentence longest maxWords).2.2))
      = (sentenceSpans cs sentence).foldl longestStep (longest, maxWords)
  | [], sentence, longest, maxWords => by
    simp only [findLongestLoop, sentenceSpans]
    cases sentence with
    | nil => simp
    | cons d ds =>
      simp only [List.isEmpty_cons, Bool.not_false, Bool.true_and, decide_eq_true_eq,
        Bool.false_eq_true, if_false, List.foldl_cons, List.foldl_nil, longestStep,
        tokenCount]
  | c :: cs, sentence, longest, maxWords => by
    by_cases h : isTerminator c = true
    · have hspans : sentenceSpans (c :: cs) sentence
          = (sentence ++ [c]) :: sentenceSpans cs [] := by
        rw [sentenceSpans, if_pos h]
      rw [hspans, List.foldl_cons, longestStep, tokenCount]
      by_cases hgt : (tokenize (sentence ++ [c])).length > maxWords
      · have e : findLongestLoop (c :: cs) sentence longest maxWords
            = findLongestLoop cs [] (sentence ++ [c]) (tokenize (sentence ++ [c])).length := by
          rw [findLongestLoop, if_pos h, if_pos hgt]
        rw [e, if_pos hgt, findLongestLoop_eq cs []]
      · have e : findLongestLoop (c :: cs) sentence longest maxWords
            = findLongestLoop cs [] longest maxWords := by
          rw [findLongestLoop, if_pos h, if_neg hgt]
        rw [e, if_neg hgt, findLongestLoop_eq cs []]
    · have hspans : sentenceSpans (c :: cs) sentence = sentenceSpans cs (sentence ++ [c]) := by
        rw [sentenceSpans, if_neg h]
      have e : findLongestLoop (c :: cs) sentence longest maxWords
          = findLongestLoop cs (sentence ++ [c]) longest maxWords := by
        rw [findLongestLoop, if_neg h]
      rw [e, hspans, findLongestLoop_eq cs (sentence ++ [c])]

/-- The function `findLongestSentence` folds the update `longestStep` over the sentence
spans stored by `analyzeDocument`. -/
theorem findLongestSentence_eq_fold (T : Str) :
    findLongestSentence T
      = (((splitSentences T).foldl longestStep ([], 0)).1,
          ((((splitSentences T).foldl longestStep ([], 0)).2 : Nat) : Int)) := by
  rw [splitSentences_eq, ← findLongestLoop_eq T [] [] 0, findLongestSentence]
  rcases findLongestLoop T [] [] 0 with ⟨a, b, m⟩
  simp only []
  split <;> rfl

/-- C18: for every text, the sentence spans stored by `analyzeDocument`, which are the
spans `findLongestSentence` iterates over, are all non-empty, concatenate in order to
exactly the original text, each span other than possibly the last ends with one of '.',
'!', '?', and no span holds a terminator anywhere except as its last character. -/
theorem sentence_spans_partition (T : Str) :
    (∀ x ∈ splitSentences T, x ≠ [])
    ∧ (splitSentences T).flatten = T
    ∧ (∀ (i : Nat) (x : Str), (splitSentences T)[i]? = some x →
        i + 1 < (splitSentences T).length → endsWithTerminator x = true)
    ∧ (∀ x ∈ splitSentences T, ∀ c ∈ x.dropLast, isTerminator c = false)
    ∧ findLongestSentence T
        = (((splitSentences T).foldl longestStep ([], 0)).1,
            ((((splitSentences T).foldl longestStep ([], 0)).2 : Nat) : Int))
    ∧ ∀ (init : DocumentStats) (stdSort : List (Str × Int) → List (Str × Int))
        (filename : Str) (file : Option Str), loadFile file = T → T ≠ [] →
        (analyzeDocument init stdSort filename file).sentences = splitSentences T := by
  obtain ⟨h1, h2, h3, h4⟩ := sentenceSpans_spec T [] (by simp)
  rw [← splitSentences_eq] at h1 h2 h3 h4
  refine ⟨h1, by simpa using h2, h3, h4, findLongestSentence_eq_fold T, ?_⟩
  intro init stdSort filename file hfile hT
  have := (analyzeDocument_sentences init stdSort filename file (by rw [hfile]; exact hT)).2
  rw [hfile] at this
  exact this

/-- Witness for C18: the spans of "Hi! Who? me" are "Hi!", " Who?" and " me". -/
theorem sentence_spans_partition_witness :
    splitSentences "Hi! Who? me".toList = ["Hi!".toList, " Who?".toList, " me".toList]
    ∧ (splitSentences "Hi! Who? me".toList).flatten = "Hi! Who? me".toList
    ∧ endsWithTerminator " Who?".toList = true :=
  ⟨by decide, (sentence_spans_partition "Hi! Who? me".toList).2.1,
    (sentence_spans_partition "Hi! Who? me".toList).2.2.1 1 " Who?".toList (by decide)
      (by decide)⟩

/-! ## C19: the longest sentence -/

/-- What the fold of `longestStep` over the spans `ss` returns from the state `(l0, m0)`:
either no span has more than `m0` tokens and the state is unchanged, or the result is the
first span with the largest token count. -/
theorem longestStep_fold_spec : ∀ (ss : List Str) (l0 : Str) (m0 : Nat),
    m0 ≤ (ss.foldl longestStep (l0, m0)).2
    ∧ (∀ x ∈ ss, tokenCount x ≤ (ss.foldl longestStep (l0, m0)).2)
    ∧ ((ss.foldl longestStep (l0, m0) = (l0, m0) ∧ ∀ x ∈ ss, tokenCount x ≤ m0)
       ∨ (m0 < (ss.foldl longestStep (l0, m0)).2
          ∧ ∃ pre post, ss = pre ++ (ss.foldl longestStep (l0, m0)).1 :: post
            ∧ tokenCount (ss.foldl longestStep (l0, m0)).1
                = (ss.foldl longestStep (l0, m0)).2
            ∧ ∀ y ∈ pre, tokenCount y < (ss.foldl longestStep (l0, m0)).2))
  | [], l0, m0 => by simp
  | x :: xs, l0, m0 => by
    rw [List.foldl_cons, longestStep]
    by_cases hgt : tokenCount x > m0
    · rw [if_pos hgt]
      obtain ⟨h1, h2, h3⟩ := longestStep_fold_spec xs x (tokenCount x)
      refine ⟨by omega, ?_, Or.inr ⟨by omega, ?_⟩⟩
      · intro y hy
        rcases List.mem_cons.mp hy with e | hm
        · rw [e]; exact h1
        · exact h2 y hm
      · rcases h3 with ⟨heq, _⟩ | ⟨hlt, pre, post, hsplit, hcount, hpre⟩
        · rw [heq]
          exact ⟨[], xs, rfl, rfl, by simp⟩
        · refine ⟨x :: pre, post, by rw [List.cons_append, ← hsplit], hcount, ?_⟩
          intro y hy
          rcases List.mem_cons.mp hy with e | hm
          · rw [e]; exact hlt
          · exact hpre y hm
    · rw [if_neg hgt]
      obtain ⟨h1, h2, h3⟩ := longestStep_fold_spec xs l0 m0
      refine ⟨h1, ?_, ?_⟩
      · intro y hy
        rcases List.mem_cons.mp hy with e | hm
        · rw [e]; omega
        · exact h2 y hm
      · rcases h3 with ⟨heq, hall⟩ | ⟨hlt, pre, post, hsplit, hcount, hpre⟩
        · left
          refine ⟨heq, fun y hy => ?_⟩
          rcases List.mem_cons.mp hy with e | hm
          · rw [e]; omega
          · exact hall y hm
        · right
          refine ⟨hlt, x :: pre, post, by rw [List.cons_append, ← hsplit], hcount, ?_⟩
          intro y hy
          rcases List.mem_cons.mp hy with e | hm
          · rw [e]; omega
          · exact hpre y hm

theorem mem_of_eq_append_cons {α : Type} {a : α} {l pre post : List α}
    (h : l = pre ++ a :: post) : a ∈ l := by
  rw [h]; simp

/-- C19 (as stated) fails: the text "." has the single sentence span ".", with 0 tokens,
but `findLongestSentence` returns the empty string with count 0, which is not a span of
the text. -/
theorem findLongestSentence_not_a_span :
    splitSentences ".".toList = [".".toList]
    ∧ tokenCount ".".toList = 0
    ∧ findLongestSentence ".".toList = ([], 0)
    ∧ (findLongestSentence ".".toList).1 ∉ splitSentences ".".toList := by
  decide

/-- C19 (amended): for every text, `findLongestSentence` returns `(s, n)` where `n` is the
maximum of `|tokenize(x)|` over the sentence spans `x` of the text; when some span has a
token (`n > 0`), `s` is the first span in document order whose token count equals `n`
(the raw substring, with its trailing terminator), and when no span has a token it
returns the empty string and 0. -/
theorem findLongestSentence_spec (T : Str) :
    (∀ x ∈ splitSentences T, (tokenCount x : Int) ≤ (findLongestSentence T).2)
    ∧ (splitSentences T ≠ [] →
        ∃ x ∈ splitSentences T, (tokenCount x : Int) = (findLongestSentence T).2)
    ∧ (0 < (findLongestSentence T).2 →
        ∃ pre post, splitSentences T = pre ++ (findLongestSentence T).1 :: post
          ∧ (tokenCount (findLongestSentence T).1 : Int) = (findLongestSentence T).2
          ∧ ∀ y ∈ pre, (tokenCount y : Int) < (findLongestSentence T).2)
    ∧ ((∀ x ∈ splitSentences T, tokenCount x = 0) → findLongestSentence T = ([], 0)) := by
  obtain ⟨h1, h2, h3⟩ := longestStep_fold_spec (splitSentences T) [] 0
  rw [findLongestSentence_eq_fold]
  simp only []
  have hpos : 0 < (((splitSentences T).foldl longestStep ([], 0)).2 : Int) →
      ∃ pre post, splitSentences T
          = pre ++ ((splitSentences T).foldl longestStep ([], 0)).1 :: post
        ∧ (tokenCount ((splitSentences T).foldl longestStep ([], 0)).1 : Int)
            = (((splitSentences T).foldl longestStep ([], 0)).2 : Int)
        ∧ ∀ y ∈ pre, (tokenCount y : Int)
            < (((splitSentences T).foldl longestStep ([], 0)).2 : Int) := by
    intro hn
    rcases h3 with ⟨heq, _⟩ | ⟨_, pre, post, hsplit, hcount, hpre⟩
    · rw [heq] at hn
      simp at hn
    · exact ⟨pre, post, hsplit, by exact_mod_cast hcount,
        fun y hy => by exact_mod_cast hpre y hy⟩
  refine ⟨fun x hx => by exact_mod_cast h2 x hx, ?_, hpos, ?_⟩
  · intro hne
    by_cases hn : 0 < (((splitSentences T).foldl longestStep ([], 0)).2 : Int)
    · obtain ⟨pre, post, hsplit, hcount, _⟩ := hpos hn
      exact ⟨_, mem_of_eq_append_cons hsplit, hcount⟩
    · cases hss : splitSentences T with
      | nil => exact absurd hss hne
      | cons x xs =>
        have hx : x ∈ splitSentences T := by rw [hss]; simp
        refine ⟨x, by simp, ?_⟩
        have := h2 x hx
        rw [hss] at this hn
        omega
  · intro hall
    rcases h3 with ⟨heq, _⟩ | ⟨hlt, pre, post, hsplit, hcount, _⟩
    · rw [heq]
      rfl
    · exfalso
      have := hall _ (mem_of_eq_append_cons hsplit)
      omega

/-- Witness for C19 (amended): in "One two. Three four! Five" the first of the two
two-token spans is returned. -/
theorem findLongestSentence_spec_witness :
    findLongestSentence "One two. Three four! Five".toList = ("One two.".toList, 2)
    ∧ ∃ pre post, splitSentences "One two. Three four! Five".toList
        = pre ++ (findLongestSentence "One two. Three four! Five".toList).1 :: post
      ∧ (tokenCount (findLongestSentence "One two. Three four! Five".toList).1 : Int)
          = (findLongestSentence "One two. Three four! Five".toList).2
      ∧ ∀ y ∈ pre, (tokenCount y : Int)
          < (findLongestSentence "One two. Three four! Five".toList).2 :=
  ⟨by decide,
    (findLongestSentence_spec "One two. Three four! Five".toList).2.2.1 (by decide)⟩

/-! ## C20: the top frequent words -/

theorem getTopFrequentWords_eq_take (stdSort : List (Str × Int) → List (Str × Int))
    (F : List (Str × Int)) (n : Nat) :
    getTopFrequentWords stdSort F n = (stdSort F).take n := by
  simp only [getTopFrequentWords]
  split
  · rfl
  · rw [List.take_of_length_le (by omega)]

theorem isMap_nodup_pairs {F : List (Str × Int)} (h : IsMap F) : F.Nodup :=
  List.Nodup.of_map Prod.fst (IsSet.nodup h)

/-- The insertion sort by descending count meets the contract of `std::sort`. -/
theorem isStdSort_insertionSortByCount : IsStdSort insertionSortByCount := by
  intro l
  haveI : IsTotal (Str × Int) (fun a b => a.2 ≥ b.2) := ⟨fun a b => le_total b.2 a.2⟩
  haveI : IsTrans (Str × Int) (fun a b => a.2 ≥ b.2) :=
    ⟨fun a b c hab hbc => le_trans hbc hab⟩
  refine ⟨List.perm_insertionSort _ l, ?_⟩
  have hs := List.sorted_insertionSort (fun a b : Str × Int => a.2 ≥ b.2) l
  refine List.Pairwise.imp ?_ hs
  intro a b hab
  simp only [byCountDescending, decide_eq_false_iff_not, gt_iff_lt, not_lt]
  exact hab

/-- C20: for every word-frequency table `F` (and every `std::sort` meeting its contract),
`getTopFrequentWords(F, 5)` returns `min(5, |F|)` pairs, each a distinct entry of `F`,
listed with non-increasing counts, and every entry of `F` that is not returned has a count
less than or equal to every returned count, in particular the smallest. -/
theorem getTopFrequentWords_spec (stdSort : List (Str × Int) → List (Str × Int))
    (hsort : IsStdSort stdSort) (F : List (Str × Int)) (hF : IsMap F) :
    (getTopFrequentWords stdSort F 5).length = min 5 F.length
    ∧ (getTopFrequentWords stdSort F 5).Nodup
    ∧ (∀ e ∈ getTopFrequentWords stdSort F 5, e ∈ F)
    ∧ (getTopFrequentWords stdSort F 5).Pairwise (fun a b => a.2 ≥ b.2)
    ∧ (∀ e ∈ F, e ∉ getTopFrequentWords stdSort F 5 →
        ∀ r ∈ getTopFrequentWords stdSort F 5, e.2 ≤ r.2) := by
  obtain ⟨hperm, hsorted⟩ := hsort F
  have hge : (stdSort F).Pairwise (fun a b => a.2 ≥ b.2) := by
    refine List.Pairwise.imp ?_ hsorted
    intro a b hab
    simpa [byCountDescending] using hab
  rw [getTopFrequentWords_eq_take]
  refine ⟨?_, ?_, ?_, ?_, ?_⟩
  · rw [List.length_take, hperm.length_eq]
  · exact List.Nodup.sublist (List.take_sublist _ _) (hperm.nodup_iff.mpr (isMap_nodup_pairs hF))
  · intro e he
    exact hperm.subset (List.mem_of_mem_take he)
  · exact List.Pairwise.sublist (List.take_sublist _ _) hge
  · intro e he hnot r hr
    have hmem : e ∈ (stdSort F).take 5 ++ (stdSort F).drop 5 := by
      rw [List.take_append_drop]; exact hperm.symm.subset he
    have hdrop : e ∈ (stdSort F).drop 5 := by
      rcases List.mem_append.mp hmem with h | h
      · exact absurd h hnot
      · exact h
    have hpw : ((stdSort F).take 5 ++ (stdSort F).drop 5).Pairwise
        (fun a b => a.2 ≥ b.2) := by
      rw [List.take_append_drop]; exact hge
    exact (List.pairwise_append.mp hpw).2.2 r hr e hdrop

/-- Witness for C20: the table of "a a a b b c d e f g g" sorted by insertion. -/
theorem getTopFrequentWords_spec_witness :
    IsStdSort insertionSortByCount
    ∧ IsMap (getWordFrequency (tokenize "a a a b b c d e f g g".toList))
    ∧ getTopFrequentWords insertionSortByCount
        (getWordFrequency (tokenize "a a a b b c d e f g g".toList)) 5
      = [("a".toList, 3), ("b".toList, 2), ("g".toList, 2), ("c".toList, 1),
          ("d".toList, 1)]
    ∧ (getTopFrequentWords insertionSortByCount
        (getWordFrequency (tokenize "a a a b b c d e f g g".toList)) 5).length
      = min 5 (getWordFrequency (tokenize "a a a b b c d e f g g".toList)).length :=
  ⟨isStdSort_insertionSortByCount, by decide, by decide,
    (getTopFrequentWords_spec insertionSortByCount isStdSort_insertionSortByCount
      (getWordFrequency (tokenize "a a a b b c d e f g g".toList)) (by decide)).1⟩

/-! ## C21: ties among the top words -/

theorem filter_count_orderedInsert (count : Int) (b : Str × Int) : ∀ l : List (Str × Int),
    (List.orderedInsert (fun a b => a.2 ≥ b.2) b l).filter (fun e => e.2 == count)
      = (b :: l).filter (fun e => e.2 == count)
  | [] => rfl
  | x :: l => by
    rw [List.orderedInsert]
    split
    · rfl
    · rename_i hnot
      have hne : x.2 ≠ b.2 := by
        intro h
        exact hnot (by simp [h])
      rw [List.filter_cons, filter_count_orderedInsert count b l]
      simp only [List.filter_cons]
      by_cases hb : (b.2 == count) = true
      · have hx : ¬ (x.2 == count) = true := by
          simp only [beq_iff_eq] at hb ⊢
          rw [← hb]; exact hne
        simp [hb, hx]
      · simp [hb]

/-- The insertion sort by descending count is stable. -/
theorem isStableSort_insertionSortByCount : IsStableSort insertionSortByCount := by
  intro l count
  induction l with
  | nil => rfl
  | cons b l ih =>
    have ih' : (List.insertionSort (fun a b : Str × Int => a.2 ≥ b.2) l).filter
        (fun e => e.2 == count) = l.filter (fun e => e.2 == count) := ih
    rw [insertionSortByCount, List.insertionSort, filter_count_orderedInsert,
      List.filter_cons, List.filter_cons, ih']

/-! ## The GNU `std::sort` on at most 16 entries -/

theorem getElem?_append_cons_length {α : Type} (A : List α) (y : α) (R : List α) :
    (A ++ y :: R)[A.length]? = some y := by
  rw [List.getElem?_append_right (Nat.le_refl _), Nat.sub_self, List.getElem?_cons_zero]

theorem set_append_cons_succ {α : Type} (y h z : α) (R : List α) : ∀ A : List α,
    (A ++ y :: h :: R).set (A.length + 1) z = A ++ y :: z :: R
  | [] => rfl
  | a :: A => by
    simp only [List.cons_append, List.length_cons, List.set_cons_succ,
      set_append_cons_succ y h z R A]

theorem linearInsertLoop_spec (val : Str × Int) : ∀ (T : List (Str × Int)) (h : Str × Int)
    (R : List (Str × Int)), (∃ y ∈ T, byCountDescending val y = false) →
    linearInsertLoop byCountDescending val T.length (T.reverse ++ h :: R)
      = some ((insertRev val T).reverse ++ R)
  | [], _, _, hg => by
    obtain ⟨y, hy, _⟩ := hg
    cases hy
  | y :: ys, h, R, hg => by
    have hlen : (y :: ys).length = ys.reverse.length + 1 := by simp
    have hv : (y :: ys).reverse ++ h :: R = ys.reverse ++ y :: h :: R := by simp
    rw [hlen, hv, linearInsertLoop, getElem?_append_cons_length]
    simp only [Option.bind_eq_bind, Option.some_bind]
    cases hc : byCountDescending val y with
    | true =>
      have hg2 : ∃ z ∈ ys, byCountDescending val z = false := by
        obtain ⟨z, hz, hz2⟩ := hg
        rcases List.mem_cons.mp hz with h1 | h1
        · rw [h1, hc] at hz2
          cases hz2
        · exact ⟨z, h1, hz2⟩
      rw [if_pos rfl, set_append_cons_succ, List.length_reverse,
        linearInsertLoop_spec val ys y (y :: R) hg2, insertRev, hc, if_pos rfl]
      simp
    | false =>
      rw [if_neg (by simp), set_append_cons_succ, insertRev, hc, if_neg (by simp)]
      simp

theorem length_insertRev (x : Str × Int) : ∀ T : List (Str × Int),
    (insertRev x T).length = T.length + 1
  | [] => rfl
  | y :: ys => by
    rw [insertRev]
    split
    · rw [List.length_cons, length_insertRev x ys, List.length_cons]
    · rw [List.length_cons]

theorem length_gnuInsert (S : List (Str × Int)) (x : Str × Int) :
    (gnuInsert S x).length = S.length + 1 := by
  cases S with
  | nil => rfl
  | cons f S' =>
    rw [gnuInsert]
    split
    · rw [List.length_cons]
    · rw [List.length_reverse, length_insertRev, List.length_reverse]

theorem insertionStep_spec (S : List (Str × Int)) (hS : S ≠ []) (x : Str × Int)
    (R : List (Str × Int)) :
    insertionStep byCountDescending 0 (S ++ x :: R) S.length = some (gnuInsert S x ++ R) := by
  cases S with
  | nil => exact absurd rfl hS
  | cons f S' =>
    have h0 : ((f :: S') ++ x :: R)[0]? = some f := by
      rw [List.cons_append, List.getElem?_cons_zero]
    rw [insertionStep, getElem?_append_cons_length, h0]
    simp only [Option.bind_eq_bind, Option.some_bind]
    rw [gnuInsert]
    cases hc : byCountDescending x f with
    | true =>
      rw [if_pos rfl, if_pos rfl]
      have h1 : List.drop ((f :: S').length + 1) ((f :: S') ++ x :: R) = R := by
        rw [← List.drop_drop, List.drop_left]
        rfl
      rw [List.take_zero, List.nil_append, List.drop_zero, Nat.sub_zero, List.take_left, h1]
      simp
    | false =>
      rw [if_neg (by simp), if_neg (by simp), unguarded_linear_insert,
        getElem?_append_cons_length]
      simp only [Option.bind_eq_bind, Option.some_bind]
      have h2 := linearInsertLoop_spec x (f :: S').reverse x R
        ⟨f, by simp, hc⟩
      rw [List.length_reverse, List.reverse_reverse] at h2
      exact h2

theorem insertionLoop_spec : ∀ (n : Nat) (S R : List (Str × Int)), S ≠ [] →
    n ≤ R.length →
    insertionLoop byCountDescending 0 n S.length (S ++ R)
      = some ((R.take n).foldl gnuInsert S ++ R.drop n)
  | 0, S, R, _, _ => by
    rw [insertionLoop, List.take_zero, List.foldl_nil, List.drop_zero]
  | n + 1, S, [], _, h => by simp at h
  | n + 1, S, x :: R, hS, h => by
    have hne : gnuInsert S x ≠ [] := by
      intro h0
      have := length_gnuInsert S x
      rw [h0] at this
      simp at this
    have ih := insertionLoop_spec n (gnuInsert S x) R hne (by simpa using h)
    rw [length_gnuInsert] at ih
    rw [insertionLoop, insertionStep_spec S hS x R, Option.some_bind, ih, List.take_succ_cons,
      List.foldl_cons, List.drop_succ_cons]

theorem introsort_loop_small {α : Type} (comp : α → α → Bool) (d first last : Nat)
    (v : List α) (h : last - first ≤ 16) :
    introsort_loop comp d first last v = some v := by
  cases d with
  | zero => rw [introsort_loop, if_neg (by simp only [S_threshold]; omega)]
  | succ d => rw [introsort_loop, if_neg (by simp only [S_threshold]; omega)]

theorem gnuSort_small (f : Str × Int) (R : List (Str × Int)) (h : (f :: R).length ≤ 16) :
    gnuSort (f :: R) = R.foldl gnuInsert [f] := by
  have h1 : std_sort byCountDescending (f :: R) = some (R.foldl gnuInsert [f]) := by
    have h2 := insertionLoop_spec R.length [f] R (by simp) (Nat.le_refl _)
    rw [List.take_length, List.drop_length, List.append_nil] at h2
    rw [std_sort, if_neg (by simp), introsort_loop_small _ _ _ _ _ (by omega)]
    simp only [Option.bind_eq_bind, Option.some_bind]
    rw [final_insertion_sort, if_neg (by simp only [S_threshold]; omega), insertion_sort,
      if_neg (by simp)]
    simpa using h2
  rw [gnuSort, h1]

theorem insertRev_perm (x : Str × Int) : ∀ T : List (Str × Int),
    (insertRev x T).Perm (x :: T)
  | [] => List.Perm.refl _
  | y :: ys => by
    rw [insertRev]
    split
    · exact ((insertRev_perm x ys).cons y).trans (List.Perm.swap x y ys)
    · exact List.Perm.refl _

theorem insertRev_sorted (x : Str × Int) : ∀ T : List (Str × Int),
    T.Pairwise (fun a b => a.2 ≤ b.2) → (insertRev x T).Pairwise (fun a b => a.2 ≤ b.2)
  | [], _ => by simp [insertRev]
  | y :: ys, h => by
    obtain ⟨h1, h2⟩ := List.pairwise_cons.mp h
    rw [insertRev]
    split
    · rename_i hc
      have hxy : x.2 > y.2 := by simpa [byCountDescending] using hc
      refine List.pairwise_cons.mpr ⟨?_, insertRev_sorted x ys h2⟩
      intro b hb
      rcases List.mem_cons.mp ((insertRev_perm x ys).subset hb) with h3 | h3
      · rw [h3]; omega
      · exact h1 b h3
    · rename_i hc
      have hxy : x.2 ≤ y.2 := by simpa [byCountDescending] using hc
      refine List.pairwise_cons.mpr ⟨?_, h⟩
      intro b hb
      rcases List.mem_cons.mp hb with h3 | h3
      · rw [h3]; exact hxy
      · have := h1 b h3
        omega

theorem insertRev_filter (x : Str × Int) (c : Int) : ∀ T : List (Str × Int),
    (insertRev x T).filter (fun e => e.2 == c) = (x :: T).filter (fun e => e.2 == c)
  | [] => rfl
  | y :: ys => by
    rw [insertRev]
    split
    · rename_i hc
      have hxy : x.2 > y.2 := by simpa [byCountDescending] using hc
      rw [List.filter_cons, insertRev_filter x c ys]
      simp only [List.filter_cons]
      by_cases hy : (y.2 == c) = true
      · have hx : ¬ (x.2 == c) = true := by
          simp only [beq_iff_eq] at hy ⊢
          omega
        simp [hy, hx]
      · simp [hy]
    · rfl

theorem gnuInsert_spec (S : List (Str × Int)) (x : Str × Int) (c : Int)
    (hsorted : S.Pairwise (fun a b => a.2 ≥ b.2)) :
    (gnuInsert S x).Perm (S ++ [x])
    ∧ (gnuInsert S x).Pairwise (fun a b => a.2 ≥ b.2)
    ∧ (gnuInsert S x).filter (fun e => e.2 == c) = (S ++ [x]).filter (fun e => e.2 == c) := by
  cases S with
  | nil => exact ⟨List.Perm.refl _, by simp [gnuInsert], rfl⟩
  | cons f S' =>
    obtain ⟨h1, h2⟩ := List.pairwise_cons.mp hsorted
    rw [gnuInsert]
    split
    · rename_i hc
      have hxf : x.2 > f.2 := by simpa [byCountDescending] using hc
      have hall : ∀ b ∈ f :: S', x.2 > b.2 := by
        intro b hb
        rcases List.mem_cons.mp hb with h3 | h3
        · rw [h3]; exact hxf
        · have := h1 b h3
          omega
      refine ⟨(List.perm_append_singleton x (f :: S')).symm,
        List.pairwise_cons.mpr ⟨fun b hb => by have := hall b hb; omega, hsorted⟩, ?_⟩
      rw [List.filter_append, List.filter_cons]
      by_cases hx : (x.2 == c) = true
      · have hnil : (f :: S').filter (fun e => e.2 == c) = [] := by
          rw [List.filter_eq_nil_iff]
          intro b hb
          have := hall b hb
          simp only [beq_iff_eq] at hx ⊢
          omega
        rw [hnil, if_pos hx]
        simp [hx]
      · rw [if_neg hx]
        simp [hx]
    · have hrev : (f :: S').reverse.Pairwise (fun a b => a.2 ≤ b.2) := by
        rw [List.pairwise_reverse]
        exact hsorted
      refine ⟨?_, ?_, ?_⟩
      · have h3 := (insertRev_perm x (f :: S').reverse).trans
          ((List.reverse_perm (f :: S')).cons x)
        exact ((List.reverse_perm _).trans h3).trans
          (List.perm_append_singleton x (f :: S')).symm
      · rw [List.pairwise_reverse]
        exact insertRev_sorted x _ hrev
      · rw [List.filter_reverse, insertRev_filter, ← List.filter_reverse, List.reverse_cons,
          List.reverse_reverse]

theorem foldl_gnuInsert_spec (c : Int) : ∀ (R S P : List (Str × Int)),
    S.Perm P → S.Pairwise (fun a b => a.2 ≥ b.2) →
    S.filter (fun e => e.2 == c) = P.filter (fun e => e.2 == c) →
    (R.foldl gnuInsert S).Perm (P ++ R)
    ∧ (R.foldl gnuInsert S).Pairwise (fun a b => a.2 ≥ b.2)
    ∧ (R.foldl gnuInsert S).filter (fun e => e.2 == c) = (P ++ R).filter (fun e => e.2 == c)
  | [], S, P, h1, h2, h3 => by
    rw [List.foldl_nil, List.append_nil]
    exact ⟨h1, h2, h3⟩
  | x :: R, S, P, h1, h2, h3 => by
    obtain ⟨g1, g2, g3⟩ := gnuInsert_spec S x c h2
    have ih := foldl_gnuInsert_spec c R (gnuInsert S x) (P ++ [x])
      (g1.trans (h1.append_right [x])) g2
      (by rw [g3, List.filter_append, List.filter_append, h3])
    rw [List.append_assoc, List.singleton_append] at ih
    exact ih

theorem gnuSort_spec (F : List (Str × Int)) (h : F.length ≤ 16) (c : Int) :
    (gnuSort F).Perm F
    ∧ (gnuSort F).Pairwise (fun a b => byCountDescending b a = false)
    ∧ (gnuSort F).filter (fun e => e.2 == c) = F.filter (fun e => e.2 == c) := by
  cases F with
  | nil => exact ⟨List.Perm.refl _, List.Pairwise.nil, rfl⟩
  | cons f R =>
    rw [gnuSort_small f R h]
    obtain ⟨g1, g2, g3⟩ := foldl_gnuInsert_spec c R [f] [f] (List.Perm.refl _)
      (List.pairwise_singleton _ _) rfl
    refine ⟨g1, List.Pairwise.imp ?_ g2, g3⟩
    intro a b hab
    simpa [byCountDescending] using hab

/-- In a sorted copy `S` of a well-formed table `F` that keeps the entries of each count in
their input order, an entry listed before another entry of the same count has the smaller
word. -/
theorem stable_sort_ties {S F : List (Str × Int)}
    (hstable : ∀ count : Int,
      S.filter (fun e => e.2 == count) = F.filter (fun e => e.2 == count))
    (hF : IsMap F)
    {a b : Str × Int} (hab : [a, b].Sublist S) (heq : a.2 = b.2) :
    strLess a.1 b.1 = true := by
  have h1 := hab.filter (fun e => e.2 == b.2)
  rw [hstable b.2] at h1
  have h2 : [a, b].filter (fun e => e.2 == b.2) = [a, b] := by simp [heq]
  rw [h2] at h1
  have h3 : [a, b].Sublist F := h1.trans (List.filter_sublist F)
  have h4 : [a.1, b.1].Sublist (F.map Prod.fst) := by
    have := h3.map Prod.fst
    simpa using this
  have hpw : (F.map Prod.fst).Pairwise (fun x y => strLess x y = true) := hF
  exact List.pairwise_iff_forall_sublist.mp hpw h4

theorem tiesAscending_of_stable (stdSort : List (Str × Int) → List (Str × Int))
    (F : List (Str × Int)) (hF : IsMap F) (hperm : (stdSort F).Perm F)
    (hsorted : (stdSort F).Pairwise (fun a b => byCountDescending b a = false))
    (hstable : ∀ count : Int,
      (stdSort F).filter (fun e => e.2 == count) = F.filter (fun e => e.2 == count)) :
    TiesAscending stdSort F := by
  have hge : (stdSort F).Pairwise (fun a b => a.2 ≥ b.2) := by
    refine List.Pairwise.imp ?_ hsorted
    intro a b hab
    simpa [byCountDescending] using hab
  have hties : (stdSort F).Pairwise (fun x y => x.2 = y.2 → strLess x.1 y.1 = true) := by
    rw [List.pairwise_iff_forall_sublist]
    intro a b hab heq
    exact stable_sort_ties hstable hF hab heq
  rw [TiesAscending, getTopFrequentWords_eq_take]
  refine ⟨List.Pairwise.sublist (List.take_sublist _ _) hge,
    List.Pairwise.sublist (List.take_sublist _ _) hties, ?_⟩
  intro e he hnot r hr
  have hmem : e ∈ (stdSort F).take 5 ++ (stdSort F).drop 5 := by
    rw [List.take_append_drop]; exact hperm.symm.subset he
  have hdrop : e ∈ (stdSort F).drop 5 := by
    rcases List.mem_append.mp hmem with h | h
    · exact absurd h hnot
    · exact h
  have hpw : ((stdSort F).take 5 ++ (stdSort F).drop 5).Pairwise
      (fun x y => x.2 = y.2 → strLess x.1 y.1 = true) := by
    rw [List.take_append_drop]; exact hties
  exact (List.pairwise_append.mp hpw).2.2 r hr e hdrop

/-- C21 (as stated) fails for the GNU `std::sort` on a table of more than 16 entries: for
twenty words that occur once each the sort returns the entries in the order k, t, s, r, q,
p, o, n, m, l, a, j, i, h, g, f, e, d, c, b, so `topWords` is k, t, s, r, q, whose entries
of equal count are not in ascending lexicographic order (t comes before s). -/
theorem topWords_ties_not_ascending :
    (std_sort byCountDescending (getWordFrequency (tokenize twentyWords))).map
        (List.map Prod.fst)
      = some ["k".toList, "t".toList, "s".toList, "r".toList, "q".toList, "p".toList,
          "o".toList, "n".toList, "m".toList, "l".toList, "a".toList, "j".toList,
          "i".toList, "h".toList, "g".toList, "f".toList, "e".toList, "d".toList,
          "c".toList, "b".toList]
    ∧ getTopFrequentWords gnuSort (getWordFrequency (tokenize twentyWords)) 5
        = [("k".toList, 1), ("t".toList, 1), ("s".toList, 1), ("r".toList, 1),
            ("q".toList, 1)]
    ∧ ¬ (getTopFrequentWords gnuSort (getWordFrequency (tokenize twentyWords)) 5).Pairwise
          (fun x y => x.2 = y.2 → strLess x.1 y.1 = true) := by
  have h : getTopFrequentWords gnuSort (getWordFrequency (tokenize twentyWords)) 5
      = [("k".toList, 1), ("t".toList, 1), ("s".toList, 1), ("r".toList, 1),
          ("q".toList, 1)] := by decide
  refine ⟨by decide, h, ?_⟩
  rw [h]
  intro hpw
  have := (List.pairwise_cons.mp (List.pairwise_cons.mp hpw).2).1 ("s".toList, 1)
    (by simp) rfl
  revert this
  decide

/-- C21 (amended): for every word-frequency table of at most 16 entries the GNU `std::sort`
is a plain insertion sort that keeps entries of equal count in their input order, so the
entries of `topWords` that have equal counts appear in ascending lexicographic order of the
word, and every entry left out by the cut-off at 5 has a larger word than each kept entry
of the same count; the same holds for a table of any size under every `std::sort` that
keeps entries of equal count in their input order (a stable sort), which the C++ standard
does not promise. -/
theorem topWords_ties_of_stable_sort (F : List (Str × Int)) (hF : IsMap F) :
    (F.length ≤ 16 → TiesAscending gnuSort F)
    ∧ (∀ stdSort : List (Str × Int) → List (Str × Int),
        IsStdSort stdSort → IsStableSort stdSort → TiesAscending stdSort F) := by
  constructor
  · intro hlen
    exact tiesAscending_of_stable gnuSort F hF (gnuSort_spec F hlen 0).1
      (gnuSort_spec F hlen 0).2.1 (fun count => (gnuSort_spec F hlen count).2.2)
  · intro stdSort hsort hstable
    exact tiesAscending_of_stable stdSort F hF (hsort F).1 (hsort F).2
      (fun count => hstable F count)

/-- Witness for C21 (amended): for the table of "g f e d c b a a" the GNU `std::sort` keeps
a (twice) and, of the six words occurring once, b, c, d and e. -/
theorem topWords_ties_of_stable_sort_witness :
    IsMap (getWordFrequency (tokenize "g f e d c b a a".toList))
    ∧ getTopFrequentWords gnuSort (getWordFrequency (tokenize "g f e d c b a a".toList)) 5
      = [("a".toList, 2), ("b".toList, 1), ("c".toList, 1), ("d".toList, 1),
          ("e".toList, 1)]
    ∧ TiesAscending gnuSort (getWordFrequency (tokenize "g f e d c b a a".toList))
    ∧ TiesAscending insertionSortByCount
        (getWordFrequency (tokenize "g f e d c b a a".toList)) :=
  ⟨by decide, by decide,
    (topWords_ties_of_stable_sort (getWordFrequency (tokenize "g f e d c b a a".toList))
      (by decide)).1 (by decide),
    (topWords_ties_of_stable_sort (getWordFrequency (tokenize "g f e d c b a a".toList))
      (by decide)).2 insertionSortByCount isStdSort_insertionSortByCount
      isStableSort_insertionSortByCount⟩

/-! ## C22 and C23: the paragraph count -/

theorem paragraph_fold (text : Str) : ∀ (l : Str) (k : Nat) (acc : Int),
    text.drop k = l →
    (List.range' k (l.length - 1)).foldl
      (fun count i =>
        if charAt text i == '\n' && charAt text (i + 1) == '\n' then count + 1 else count) acc
      = acc + (adjacentNewlines l : Int)
  | [], k, acc, _ => by simp [adjacentNewlines]
  | [a], k, acc, _ => by simp [adjacentNewlines]
  | a :: b :: rest, k, acc, h => by
    have hlen : (a :: b :: rest).length - 1 = (b :: rest).length - 1 + 1 := by simp
    have ha : charAt text k = a := by
      have := charAt_drop text k 0
      rw [h] at this
      simpa [charAt] using this.symm
    have hb : charAt text (k + 1) = b := by
      have := charAt_drop text k 1
      rw [h] at this
      simpa [charAt] using this.symm
    have hdrop : text.drop (k + 1) = b :: rest := by
      have : text.drop (k + 1) = (text.drop k).drop 1 := by
        rw [List.drop_drop]
      rw [this, h]
      rfl
    rw [hlen, List.range'_succ, List.foldl_cons, ha, hb,
      paragraph_fold text (b :: rest) (k + 1) _ hdrop, adjacentNewlines]
    by_cases hc : (a == '\n' && b == '\n') = true
    · rw [if_pos hc, if_pos hc]
      push_cast
      omega
    · rw [if_neg hc, if_neg hc]
      push_cast
      omega

/-- The paragraph count is one more than the number of adjacent newline pairs. -/
theorem countParagraphs_eq_adjacent (text : Str) :
    countParagraphs text = 1 + (adjacentNewlines text : Int) := by
  have h := paragraph_fold text text 0 1 rfl
  rw [countParagraphs, List.range_eq_range']
  exact h

theorem newlinePairs_cons_cons (a b : Char) (rest : Str) :
    newlinePairs (a :: b :: rest)
      = (if a == '\n' && b == '\n' then 1 else 0) + newlinePairs (b :: rest) := by
  simp only [newlinePairs, List.length_cons]
  rw [List.range_succ_eq_map, List.filter_cons, List.filter_map]
  have hcongr : (List.range (rest.length + 1)).filter
      ((fun i => decide (i + 1 < rest.length + 1 + 1) && (charAt (a :: b :: rest) i == '\n')
          && (charAt (a :: b :: rest) (i + 1) == '\n')) ∘ Nat.succ)
      = (List.range (rest.length + 1)).filter
        (fun i => decide (i + 1 < rest.length + 1) && (charAt (b :: rest) i == '\n')
          && (charAt (b :: rest) (i + 1) == '\n')) := by
    apply List.filter_congr
    intro i _
    simp only [Function.comp, Nat.succ_eq_add_one]
    have h1 : charAt (a :: b :: rest) (i + 1) = charAt (b :: rest) i := by
      simp [charAt]
    have h2 : charAt (a :: b :: rest) (i + 1 + 1) = charAt (b :: rest) (i + 1) := by
      simp [charAt]
    rw [h1, h2]
    congr 2
    simp
  rw [hcongr]
  have h0 : (decide (0 + 1 < rest.length + 1 + 1) && (charAt (a :: b :: rest) 0 == '\n')
      && (charAt (a :: b :: rest) (0 + 1) == '\n')) = (a == '\n' && b == '\n') := by
    simp [charAt]
  rw [h0]
  by_cases hc : (a == '\n' && b == '\n') = true
  · rw [if_pos hc, if_pos hc, List.length_cons, List.length_map]
    omega
  · rw [if_neg hc, if_neg hc, List.length_map]
    omega

theorem newlinePairs_eq_adjacent : ∀ text : Str, newlinePairs text = adjacentNewlines text
  | [] => rfl
  | [a] => by simp [newlinePairs, adjacentNewlines, List.range_succ]
  | a :: b :: rest => by
    rw [newlinePairs_cons_cons, adjacentNewlines, newlinePairs_eq_adjacent (b :: rest)]

theorem adjacentNewlines_append : ∀ (pre x : Str),
    (pre.getLast? ≠ some '\n' ∨ x.head? ≠ some '\n') →
    adjacentNewlines (pre ++ x) = adjacentNewlines pre + adjacentNewlines x
  | [], x, _ => by simp [adjacentNewlines]
  | [a], [], _ => by simp [adjacentNewlines]
  | [a], b :: rest, h => by
    have hc : ¬ (a == '\n' && b == '\n') = true := by
      simp only [List.getLast?_singleton, List.head?_cons, ne_eq, Option.some.injEq] at h
      simp only [Bool.and_eq_true, beq_iff_eq]
      tauto
    simp only [List.singleton_append, adjacentNewlines, if_neg hc, Nat.zero_add]
  | a :: a' :: pre, x, h => by
    have h' : (a' :: pre).getLast? ≠ some '\n' ∨ x.head? ≠ some '\n' := by
      rw [List.getLast?_cons_cons] at h
      exact h
    have := adjacentNewlines_append (a' :: pre) x h'
    simp only [List.cons_append] at this ⊢
    rw [adjacentNewlines, this, adjacentNewlines]
    omega

theorem adjacentNewlines_replicate : ∀ k : Nat,
    adjacentNewlines (List.replicate k '\n') = k - 1
  | 0 => rfl
  | 1 => rfl
  | k + 2 => by
    have := adjacentNewlines_replicate (k + 1)
    rw [List.replicate_succ] at this
    rw [List.replicate_succ, List.replicate_succ, adjacentNewlines, this]
    simp
    omega

theorem foldl_invariant_mem {α β : Type} (P : β → Prop) (f : β → α → β) :
    ∀ (l : List α), (∀ acc x, x ∈ l → P acc → P (f acc x)) → ∀ acc : β, P acc →
    P (l.foldl f acc)
  | [], _, _, h => h
  | x :: xs, hstep, acc, h =>
    foldl_invariant_mem P f xs (fun acc y hy => hstep acc y (List.mem_cons_of_mem _ hy))
      (f acc x) (hstep acc x (List.mem_cons_self _ _) h)

theorem getlines_no_newline : ∀ (text line : Str), '\n' ∉ line →
    ∀ l ∈ getlines text line, '\n' ∉ l
  | [], line, hline, l, hl => by
    rw [getlines] at hl
    split at hl
    · cases hl
    · rw [List.mem_singleton.mp hl]; exact hline
  | c :: cs, line, hline, l, hl => by
    rw [getlines] at hl
    split at hl
    · rcases List.mem_cons.mp hl with e | hm
      · rw [e]; exact hline
      · exact getlines_no_newline cs [] (by simp) l hm
    · rename_i hc
      refine getlines_no_newline cs (line ++ [c]) ?_ l hl
      intro hmem
      rcases List.mem_append.mp hmem with h | h
      · exact hline h
      · rw [List.mem_singleton] at h
        exact hc (by simp [← h])

/-- The content built by `loadFile` holds no newline character. -/
theorem loadFile_no_newline (file : Option Str) : '\n' ∉ loadFile file := by
  cases file with
  | none => simp [loadFile]
  | some text =>
    simp only [loadFile]
    apply foldl_invariant_mem (fun acc : Str => '\n' ∉ acc)
    · intro acc line hline hacc hmem
      rcases List.mem_append.mp hmem with h | h
      · exact hacc h
      · rcases List.mem_append.mp h with h | h
        · exact getlines_no_newline text [] (by simp) line hline h
        · rw [List.mem_singleton] at h
          revert h
          decide
    · simp

theorem adjacentNewlines_eq_zero : ∀ text : Str, '\n' ∉ text → adjacentNewlines text = 0
  | [], _ => rfl
  | [_], _ => rfl
  | a :: b :: rest, h => by
    have ha : ¬ (a == '\n' && b == '\n') = true := by
      intro hc
      simp only [Bool.and_eq_true, beq_iff_eq] at hc
      exact h (by simp [hc.1])
    rw [adjacentNewlines, if_neg ha, Nat.zero_add]
    exact adjacentNewlines_eq_zero (b :: rest) (fun hm => h (List.mem_cons_of_mem _ hm))

theorem analyzeDocument_paragraphCount (init : DocumentStats)
    (stdSort : List (Str × Int) → List (Str × Int)) (filename : Str) (file : Option Str)
    (h : loadFile file ≠ []) :
    (analyzeDocument init stdSort filename file).paragraphCount
      = countParagraphs (loadFile file) := by
  cases hc : loadFile file with
  | nil => exact absurd hc h
  | cons c cs =>
    simp only [analyzeDocument, hc, List.isEmpty_cons, Bool.false_eq_true, if_false]

/-- C22 (failing input): the file "One.\n\nTwo." holds one double-newline boundary, but
`loadFile` joins its lines with spaces into "One.  Two. ", so `analyzeDocument` stores
`paragraphCount = 1`, not 2; the stored value is 1 for every readable non-empty file. -/
theorem paragraphCount_ignores_blank_lines :
    newlinePairs "One.\n\nTwo.".toList = 1
    ∧ loadFile (some "One.\n\nTwo.".toList) = "One.  Two. ".toList
    ∧ (analyzeDocument zeroStats id "a.txt".toList
        (some "One.\n\nTwo.".toList)).paragraphCount = 1
    ∧ ∀ (init : DocumentStats) (stdSort : List (Str × Int) → List (Str × Int))
        (filename : Str) (file : Option Str), loadFile file ≠ [] →
        (analyzeDocument init stdSort filename file).paragraphCount = 1 := by
  refine ⟨by decide, by decide, by decide, ?_⟩
  intro init stdSort filename file h
  rw [analyzeDocument_paragraphCount init stdSort filename file h,
    countParagraphs_eq_adjacent, adjacentNewlines_eq_zero _ (loadFile_no_newline file)]
  rfl

/-- C23: for every non-empty text, `countParagraphs(text)` is 1 plus the number of indices
`i` such that `text[i]` and `text[i + 1]` are both the newline character, overlapping pairs
counted; so a run of `k ≥ 1` consecutive newlines contributes `k − 1`, and
`countParagraphs("a\n\n\nb") = 3`. -/
theorem countParagraphs_spec (text : Str) (_hne : text ≠ []) :
    countParagraphs text = 1 + (newlinePairs text : Int)
    ∧ (∀ (pre post : Str) (k : Nat), pre.getLast? ≠ some '\n' → post.head? ≠ some '\n' →
        newlinePairs (pre ++ List.replicate k '\n' ++ post)
          = newlinePairs pre + (k - 1) + newlinePairs post)
    ∧ countParagraphs "a\n\n\nb".toList = 3 := by
  refine ⟨?_, ?_, by decide⟩
  · rw [countParagraphs_eq_adjacent, newlinePairs_eq_adjacent]
  · intro pre post k hpre hpost
    rw [newlinePairs_eq_adjacent, newlinePairs_eq_adjacent, newlinePairs_eq_adjacent,
      List.append_assoc, adjacentNewlines_append pre _ (Or.inl hpre),
      adjacentNewlines_append _ post (Or.inr hpost), adjacentNewlines_replicate]
    omega

/-- Witness for C23: "a\n\n\nb" holds a run of three newlines, hence two pairs. -/
theorem countParagraphs_spec_witness :
    "a\n\n\nb".toList ≠ [] ∧ newlinePairs "a\n\n\nb".toList = 2
    ∧ countParagraphs "a\n\n\nb".toList = 1 + 2 :=
  ⟨by decide, by decide,
    (countParagraphs_spec "a\n\n\nb".toList (by decide)).1.trans (by decide)⟩

/-! ## C24: the name of the updated copy -/

/-- C24 (failing input): for the path "./notes", whose file name has no extension,
`find_last_of('.')` finds the dot of the directory part and the new name is
"_updated./notes" instead of "./notes_updated.txt"; the names for "docs/a.txt" and "notes"
are as claimed. -/
theorem updatedFilename_directory_dot :
    updatedFilename "./notes".toList = "_updated./notes".toList
    ∧ updatedFilename "./notes".toList ≠ "./notes_updated.txt".toList
    ∧ updatedFilename "my.dir/notes".toList = "my_updated.dir/notes".toList
    ∧ updatedFilename "docs/a.txt".toList = "docs/a_updated.txt".toList
    ∧ updatedFilename "notes".toList = "notes_updated.txt".toList := by
  decide

/-! ## C29: the files of the updated report -/

/-- C29 (failing input): with option 1 (both documents), the word "dog" found in
"one.txt" only, the file "one_updated.txt" is written, but neither branch of the
report-file selection applies and `generateUpdatedReport` is called with two empty
names, instead of "one_updated.txt" and "two.txt". -/
theorem report_names_empty_when_one_of_two_updated :
    processFiles
        (fun name => if name = "one.txt".toList then some "a dog".toList
          else if name = "two.txt".toList then some "a cat".toList else none)
        (fun _ => true) "dog".toList "wolf".toList ["one.txt".toList, "two.txt".toList] []
      = some ["one_updated.txt".toList]
    ∧ performWordReplacement
        (fun name => if name = "one.txt".toList then some "a dog".toList
          else if name = "two.txt".toList then some "a cat".toList else none)
        (fun _ => true) 1 "one.txt".toList "two.txt".toList "dog".toList "wolf".toList
      = some (some ([], []))
    ∧ reportFileNames 1 "one.txt".toList "two.txt".toList ["one_updated.txt".toList]
      = some ([], [])
    ∧ reportFileNames 2 "one.txt".toList "two.txt".toList ["one_updated.txt".toList]
      = some ("one_updated.txt".toList, "two.txt".toList) := by
  decide

/-! ## C26 and C27: the scanning loops for an arbitrary word -/

theorem find_some_bounds {h nd : Str} {pos p : Nat} (hf : find h nd pos = some p) :
    pos ≤ p ∧ p + nd.length ≤ h.length := by
  rw [find] at hf
  split at hf
  · rename_i hpos
    obtain ⟨j, hpj, hjl, hpre, _⟩ := findAux_some _ _ _ hf
    have hlen := hpre.length_le
    simp only [List.length_drop] at hlen hjl
    omega
  · cases hf

/-- Each iteration of the loop of `replaceWordInText` leaves the cursor inside the scratch
copy and shortens the text after the cursor. -/
theorem replaceStep_decreases {oldLen : Nat} {wl r result textLower : Str} {pos : Nat}
    (hwl : wl ≠ []) {st : Str × Str × Nat}
    (hstep : replaceStep oldLen wl r result textLower pos = some st) :
    st.2.2 ≤ st.2.1.length ∧ st.2.1.length - st.2.2 < textLower.length - pos := by
  have hlen : 0 < wl.length := List.length_pos.mpr hwl
  rw [replaceStep] at hstep
  cases hf : find textLower wl pos with
  | none => rw [hf] at hstep; cases hstep
  | some p =>
    obtain ⟨h1, h2⟩ := find_some_bounds hf
    rw [hf] at hstep
    simp only [] at hstep
    split at hstep
    · cases hstep
      simp only [replace, List.length_append, List.length_take, List.length_drop]
      omega
    · cases hstep
      simp only []
      omega

/-- Each iteration of the loop of `countWordOccurrences` shortens the text after the
cursor. -/
theorem countStep_decreases {wl textLower : Str} {pos pos' : Nat} (hwl : wl ≠ [])
    (hstep : countStep wl textLower pos = some pos') :
    pos' ≤ textLower.length ∧ textLower.length - pos' < textLower.length - pos := by
  have hlen : 0 < wl.length := List.length_pos.mpr hwl
  rw [countStep] at hstep
  cases hf : find textLower wl pos with
  | none => rw [hf] at hstep; cases hstep
  | some p =>
    obtain ⟨h1, h2⟩ := find_some_bounds hf
    rw [hf] at hstep
    cases hstep
    omega

/-- The loop of `replaceWordInText` runs `replaceStep` until it returns `none`. -/
theorem replaceLoop_succ (oldLen : Nat) (wl r : Str) (fuel : Nat) (result textLower : Str)
    (pos n : Nat) :
    ∃ n', replaceLoop oldLen wl r (fuel + 1) result textLower pos n
      = match replaceStep oldLen wl r result textLower pos with
        | none => some (result, n)
        | some st => replaceLoop oldLen wl r fuel st.1 st.2.1 st.2.2 n' := by
  rw [replaceLoop, replaceStep]
  cases find textLower wl pos with
  | none => exact ⟨n, rfl⟩
  | some p =>
    simp only []
    by_cases hww : isWholeWord textLower p wl.length = true
    · exact ⟨n + 1, by rw [if_pos hww, if_pos hww]⟩
    · exact ⟨n, by rw [if_neg hww, if_neg hww]⟩

/-- The loop of `countWordOccurrences` runs `countStep` until it returns `none`. -/
theorem countLoop_succ (wl textLower : Str) (fuel pos : Nat) (count : Int) :
    ∃ count', countLoop wl textLower (fuel + 1) pos count
      = match countStep wl textLower pos with
        | none => some count
        | some pos' => countLoop wl textLower fuel pos' count' := by
  rw [countLoop, countStep]
  cases find textLower wl pos with
  | none => exact ⟨count, rfl⟩
  | some p => exact ⟨_, rfl⟩

theorem replaceLoop_terminates (oldLen : Nat) (wl r : Str) (hwl : wl ≠ []) :
    ∀ (fuel : Nat) (result textLower : Str) (pos n : Nat), textLower.length - pos < fuel →
      ∃ out, replaceLoop oldLen wl r fuel result textLower pos n = some out := by
  intro fuel
  induction fuel with
  | zero => intro _ _ _ _ h; omega
  | succ fuel ih =>
    intro result textLower pos n hfuel
    obtain ⟨n', hn'⟩ := replaceLoop_succ oldLen wl r fuel result textLower pos n
    rw [hn']
    cases hstep : replaceStep oldLen wl r result textLower pos with
    | none => exact ⟨_, rfl⟩
    | some st =>
      have := replaceStep_decreases hwl hstep
      exact ih st.1 st.2.1 st.2.2 n' (by omega)

theorem countLoop_terminates (wl textLower : Str) (hwl : wl ≠ []) :
    ∀ (fuel pos : Nat) (count : Int), textLower.length - pos < fuel →
      ∃ c, countLoop wl textLower fuel pos count = some c := by
  intro fuel
  induction fuel with
  | zero => intro _ _ h; omega
  | succ fuel ih =>
    intro pos count hfuel
    obtain ⟨count', hc⟩ := countLoop_succ wl textLower fuel pos count
    rw [hc]
    cases hstep : countStep wl textLower pos with
    | none => exact ⟨_, rfl⟩
    | some pos' =>
      have := countStep_decreases hwl hstep
      exact ih pos' count' (by omega)

theorem replaceLoop_fuel_mono (oldLen : Nat) (wl r : Str) :
    ∀ (fuel : Nat) (result textLower : Str) (pos n : Nat) (out : Str × Nat),
      replaceLoop oldLen wl r fuel result textLower pos n = some out →
      replaceLoop oldLen wl r (fuel + 1) result textLower pos n = some out := by
  intro fuel
  induction fuel with
  | zero => intro _ _ _ _ _ h; rw [replaceLoop] at h; cases h
  | succ fuel ih =>
    intro result textLower pos n out h
    rw [replaceLoop] at h ⊢
    cases hf : find textLower wl pos with
    | none => rw [hf] at h; exact h
    | some p =>
      rw [hf] at h
      simp only [] at h ⊢
      by_cases hww : isWholeWord textLower p wl.length = true
      · rw [if_pos hww] at h ⊢
        exact ih _ _ _ _ _ h
      · rw [if_neg hww] at h ⊢
        exact ih _ _ _ _ _ h

theorem countLoop_fuel_mono (wl textLower : Str) :
    ∀ (fuel pos : Nat) (count out : Int),
      countLoop wl textLower fuel pos count = some out →
      countLoop wl textLower (fuel + 1) pos count = some out := by
  intro fuel
  induction fuel with
  | zero => intro _ _ _ h; rw [countLoop] at h; cases h
  | succ fuel ih =>
    intro pos count out h
    rw [countLoop] at h ⊢
    cases hf : find textLower wl pos with
    | none => rw [hf] at h; exact h
    | some p =>
      rw [hf] at h
      exact ih _ _ _ h

theorem replaceLoop_fuel_add (oldLen : Nat) (wl r : Str) (fuel : Nat)
    (result textLower : Str) (pos n : Nat) (out : Str × Nat)
    (h : replaceLoop oldLen wl r fuel result textLower pos n = some out) :
    ∀ k, replaceLoop oldLen wl r (fuel + k) result textLower pos n = some out
  | 0 => h
  | k + 1 => replaceLoop_fuel_mono oldLen wl r (fuel + k) _ _ _ _ _
      (replaceLoop_fuel_add oldLen wl r fuel result textLower pos n out h k)

theorem countLoop_fuel_add (wl textLower : Str) (fuel pos : Nat) (count out : Int)
    (h : countLoop wl textLower fuel pos count = some out) :
    ∀ k, countLoop wl textLower (fuel + k) pos count = some out
  | 0 => h
  | k + 1 => countLoop_fuel_mono wl textLower (fuel + k) _ _ _
      (countLoop_fuel_add wl textLower fuel pos count out h k)

/-- C27: for every text, every non-empty old word and every replacement string (the empty
string and a replacement containing the old word included), the scanning loops of
`replaceWordInText` and `countWordOccurrences` terminate, with a result that does not
depend on the fuel given beyond `text.size() + 1` iterations: each iteration, accepted or
rejected, strictly shortens the text remaining after the search cursor. -/
theorem scanning_loops_terminate (t w r : Str) (hw : w ≠ []) :
    (∃ out, replaceWordInText t w r = some out)
    ∧ (∃ c, countWordOccurrences t w = some c)
    ∧ (∀ fuel, t.length < fuel →
        replaceWordInTextFuel fuel t w r = replaceWordInTextFuel (t.length + 1) t w r)
    ∧ (∀ fuel, t.length < fuel →
        countWordOccurrencesFuel fuel t w = countWordOccurrencesFuel (t.length + 1) t w)
    ∧ (∀ (result textLower : Str) (pos : Nat) (st : Str × Str × Nat),
        replaceStep w.length (w.map tolower) r result textLower pos = some st →
        st.2.2 ≤ st.2.1.length ∧ st.2.1.length - st.2.2 < textLower.length - pos)
    ∧ (∀ (textLower : Str) (pos pos' : Nat),
        countStep (w.map tolower) textLower pos = some pos' →
        pos' ≤ textLower.length ∧ textLower.length - pos' < textLower.length - pos) := by
  have hwl : w.map tolower ≠ [] := by simpa using hw
  obtain ⟨out, hout⟩ := replaceLoop_terminates w.length (w.map tolower) r hwl (t.length + 1)
    t (t.map tolower) 0 0 (by simp)
  obtain ⟨c, hc⟩ := countLoop_terminates (w.map tolower) (t.map tolower) hwl (t.length + 1)
    0 0 (by simp)
  refine ⟨⟨out.1, ?_⟩, ⟨c, hc⟩, ?_, ?_, ?_, ?_⟩
  · rw [replaceWordInText, replaceWordInTextFuel, hout]
    rfl
  · intro fuel hfuel
    have := replaceLoop_fuel_add _ _ _ _ _ _ _ _ _ hout (fuel - (t.length + 1))
    rw [show t.length + 1 + (fuel - (t.length + 1)) = fuel by omega] at this
    rw [replaceWordInTextFuel, replaceWordInTextFuel, this, hout]
  · intro fuel hfuel
    have := countLoop_fuel_add _ _ _ _ _ _ hc (fuel - (t.length + 1))
    rw [show t.length + 1 + (fuel - (t.length + 1)) = fuel by omega] at this
    rw [countWordOccurrencesFuel, countWordOccurrencesFuel, this, hc]
  · intro result textLower pos st hstep
    exact replaceStep_decreases hwl hstep
  · intro textLower pos pos' hstep
    exact countStep_decreases hwl hstep

/-- Witness for C27: "cat" replaced in "cat cat" by "cat cat" and by the empty string. -/
theorem scanning_loops_terminate_witness :
    "cat".toList ≠ []
    ∧ replaceWordInText "cat cat".toList "cat".toList "cat cat".toList
        = some "cat cat cat cat".toList
    ∧ replaceWordInText "cat cat".toList "cat".toList [] = some " ".toList
    ∧ ∃ out, replaceWordInText "cat cat".toList "cat".toList "cat cat".toList = some out :=
  ⟨by decide, by decide, by decide,
    (scanning_loops_terminate "cat cat".toList "cat".toList "cat cat".toList
      (by decide)).1⟩

theorem countLoop_ge (wl textLower : Str) : ∀ (fuel pos : Nat) (count out : Int),
    countLoop wl textLower fuel pos count = some out → count ≤ out := by
  intro fuel
  induction fuel with
  | zero => intro _ _ _ h; rw [countLoop] at h; cases h
  | succ fuel ih =>
    intro pos count out h
    rw [countLoop] at h
    cases hf : find textLower wl pos with
    | none =>
      rw [hf] at h
      cases h
      exact le_refl _
    | some p =>
      rw [hf] at h
      have := ih _ _ _ h
      split at this <;> omega

/-- While the counting loop accepts no match, the replacing loop on the same unmodified
text takes the same steps and changes nothing. -/
theorem replaceLoop_of_countLoop_unchanged (oldLen : Nat) (wl r text textLower : Str) :
    ∀ (fuel pos : Nat) (count : Int) (n : Nat),
      countLoop wl textLower fuel pos count = some count →
      replaceLoop oldLen wl r fuel text textLower pos n = some (text, n) := by
  intro fuel
  induction fuel with
  | zero => intro _ _ _ h; rw [countLoop] at h; cases h
  | succ fuel ih =>
    intro pos count n h
    rw [countLoop] at h
    rw [replaceLoop]
    cases hf : find textLower wl pos with
    | none => rfl
    | some p =>
      rw [hf] at h
      simp only [] at h ⊢
      by_cases hww : isWholeWord textLower p wl.length = true
      · rw [if_pos hww] at h
        have := countLoop_ge _ _ _ _ _ _ h
        omega
      · rw [if_neg hww] at h
        rw [if_neg hww]
        exact ih _ _ _ h

/-- C26: for every text `t`, every word `w` and every replacement `r`, if
`countWordOccurrences(t, w) = 0` (no whole-word match) then `replaceWordInText(t, w, r)`
returns `t`, character for character. -/
theorem replaceWordInText_of_no_occurrence (t w r : Str)
    (h : countWordOccurrences t w = some 0) : replaceWordInText t w r = some t := by
  rw [countWordOccurrences, countWordOccurrencesFuel] at h
  rw [replaceWordInText, replaceWordInTextFuel,
    replaceLoop_of_countLoop_unchanged _ _ _ _ _ _ _ _ _ h]
  rfl

/-- Witness for C26: "cat" only occurs inside other words of "concatenate cats". -/
theorem replaceWordInText_of_no_occurrence_witness :
    countWordOccurrences "concatenate cats".toList "cat".toList = some 0
    ∧ replaceWordInText "concatenate cats".toList "cat".toList "dog".toList
        = some "concatenate cats".toList :=
  ⟨by decide,
    replaceWordInText_of_no_occurrence "concatenate cats".toList "cat".toList "dog".toList
      (by decide)⟩


/-! ## Runs of a text -/

theorem mapRuns_nil (p : Char → Bool) (f : Str → Str) : mapRuns p f [] = [] := by
  rw [mapRuns]

theorem mapRuns_cons_pos (p : Char → Bool) (f : Str → Str) {c : Char} (cs : Str)
    (h : p c = true) :
    mapRuns p f (c :: cs) = f (c :: cs.takeWhile p) ++ mapRuns p f (cs.dropWhile p) := by
  rw [mapRuns, if_pos h]

theorem mapRuns_cons_neg (p : Char → Bool) (f : Str → Str) {c : Char} (cs : Str)
    (h : p c = false) :
    mapRuns p f (c :: cs) = c :: mapRuns p f cs := by
  rw [mapRuns, if_neg (by simp [h])]

theorem runsOf_nil (p : Char → Bool) : runsOf p [] = [] := by
  rw [runsOf]

theorem runsOf_cons_pos (p : Char → Bool) {c : Char} (cs : Str) (h : p c = true) :
    runsOf p (c :: cs) = (c :: cs.takeWhile p) :: runsOf p (cs.dropWhile p) := by
  rw [runsOf, if_pos h]

theorem runsOf_cons_neg (p : Char → Bool) {c : Char} (cs : Str) (h : p c = false) :
    runsOf p (c :: cs) = runsOf p cs := by
  rw [runsOf, if_neg (by simp [h])]

theorem startsOutside_nil (p : Char → Bool) : StartsOutside p [] := by
  intro d hd
  simp at hd

theorem startsOutside_cons {p : Char → Bool} {c : Char} {cs : Str} :
    StartsOutside p (c :: cs) ↔ p c = false := by
  simp [StartsOutside]

theorem startsOutside_dropWhile (p : Char → Bool) : ∀ l : Str,
    StartsOutside p (l.dropWhile p)
  | [] => startsOutside_nil p
  | c :: cs => by
    by_cases h : p c = true
    · rw [List.dropWhile_cons_of_pos h]
      exact startsOutside_dropWhile p cs
    · rw [List.dropWhile_cons_of_neg h]
      exact startsOutside_cons.mpr (by simpa using h)

theorem takeWhile_of_startsOutside {p : Char → Bool} {x : Str} (hx : StartsOutside p x) :
    x.takeWhile p = [] := by
  cases x with
  | nil => rfl
  | cons d x' =>
    have hd : p d = false := startsOutside_cons.mp hx
    rw [List.takeWhile_cons_of_neg (by simp [hd])]

theorem dropWhile_of_startsOutside {p : Char → Bool} {x : Str} (hx : StartsOutside p x) :
    x.dropWhile p = x := by
  cases x with
  | nil => rfl
  | cons d x' =>
    have hd : p d = false := startsOutside_cons.mp hx
    rw [List.dropWhile_cons_of_neg (by simp [hd])]

theorem takeWhile_append_outside {p : Char → Bool} {x : Str} (hx : StartsOutside p x) :
    ∀ a : Str, (a ++ x).takeWhile p = a.takeWhile p
  | [] => by rw [List.nil_append, takeWhile_of_startsOutside hx, List.takeWhile_nil]
  | c :: cs => by
    by_cases h : p c = true
    · rw [List.cons_append, List.takeWhile_cons_of_pos h, List.takeWhile_cons_of_pos h,
        takeWhile_append_outside hx cs]
    · rw [List.cons_append, List.takeWhile_cons_of_neg h, List.takeWhile_cons_of_neg h]

theorem dropWhile_append_outside {p : Char → Bool} {x : Str} (hx : StartsOutside p x) :
    ∀ a : Str, (a ++ x).dropWhile p = a.dropWhile p ++ x
  | [] => by rw [List.nil_append, dropWhile_of_startsOutside hx, List.dropWhile_nil,
      List.nil_append]
  | c :: cs => by
    by_cases h : p c = true
    · rw [List.cons_append, List.dropWhile_cons_of_pos h, List.dropWhile_cons_of_pos h,
        dropWhile_append_outside hx cs]
    · rw [List.cons_append, List.dropWhile_cons_of_neg h, List.dropWhile_cons_of_neg h,
        List.cons_append]

theorem length_dropWhile_le (p : Char → Bool) (l : Str) :
    (l.dropWhile p).length ≤ l.length :=
  (List.dropWhile_sublist p : (l.dropWhile p).Sublist l).length_le

theorem startsOutside_mapRuns {p : Char → Bool} (f : Str → Str) {x : Str}
    (hx : StartsOutside p x) : StartsOutside p (mapRuns p f x) := by
  cases x with
  | nil => rw [mapRuns_nil]; exact startsOutside_nil p
  | cons d x' =>
    have hd : p d = false := startsOutside_cons.mp hx
    rw [mapRuns_cons_neg p f x' hd]
    exact startsOutside_cons.mpr hd

theorem mapRuns_append_aux (p : Char → Bool) (f : Str → Str) {x : Str}
    (hx : StartsOutside p x) : ∀ (n : Nat) (a : Str), a.length ≤ n →
      mapRuns p f (a ++ x) = mapRuns p f a ++ mapRuns p f x
  | _, [], _ => by rw [List.nil_append, mapRuns_nil, List.nil_append]
  | 0, c :: cs, h => by simp at h
  | n + 1, c :: cs, h => by
    have hlen : cs.length ≤ n := by simpa using h
    cases hc : p c with
    | true =>
      rw [List.cons_append, mapRuns_cons_pos p f _ hc, mapRuns_cons_pos p f _ hc,
        takeWhile_append_outside hx, dropWhile_append_outside hx,
        mapRuns_append_aux p f hx n (cs.dropWhile p)
          (Nat.le_trans (length_dropWhile_le p cs) hlen),
        List.append_assoc]
    | false =>
      rw [List.cons_append, mapRuns_cons_neg p f _ hc, mapRuns_cons_neg p f _ hc,
        mapRuns_append_aux p f hx n cs hlen, List.cons_append]

theorem mapRuns_append (p : Char → Bool) (f : Str → Str) (a : Str) {x : Str}
    (hx : StartsOutside p x) :
    mapRuns p f (a ++ x) = mapRuns p f a ++ mapRuns p f x :=
  mapRuns_append_aux p f hx a.length a (Nat.le_refl _)

theorem runsOf_append_aux (p : Char → Bool) {x : Str}
    (hx : StartsOutside p x) : ∀ (n : Nat) (a : Str), a.length ≤ n →
      runsOf p (a ++ x) = runsOf p a ++ runsOf p x
  | _, [], _ => by rw [List.nil_append, runsOf_nil, List.nil_append]
  | 0, c :: cs, h => by simp at h
  | n + 1, c :: cs, h => by
    have hlen : cs.length ≤ n := by simpa using h
    cases hc : p c with
    | true =>
      rw [List.cons_append, runsOf_cons_pos p _ hc, runsOf_cons_pos p _ hc,
        takeWhile_append_outside hx, dropWhile_append_outside hx,
        runsOf_append_aux p hx n (cs.dropWhile p)
          (Nat.le_trans (length_dropWhile_le p cs) hlen),
        List.cons_append]
    | false =>
      rw [List.cons_append, runsOf_cons_neg p _ hc, runsOf_cons_neg p _ hc,
        runsOf_append_aux p hx n cs hlen]

theorem runsOf_append (p : Char → Bool) (a : Str) {x : Str} (hx : StartsOutside p x) :
    runsOf p (a ++ x) = runsOf p a ++ runsOf p x :=
  runsOf_append_aux p hx a.length a (Nat.le_refl _)

theorem mapRuns_of_all (p : Char → Bool) (f : Str → Str) {a : Str} (hne : a ≠ [])
    (hall : ∀ c ∈ a, p c = true) : mapRuns p f a = f a := by
  cases a with
  | nil => exact absurd rfl hne
  | cons c cs =>
    have hc : p c = true := hall c (List.mem_cons_self _ _)
    have hcs : ∀ d ∈ cs, p d = true := fun d hd => hall d (List.mem_cons_of_mem _ hd)
    rw [mapRuns_cons_pos p f _ hc, List.takeWhile_eq_self_iff.mpr hcs,
      List.dropWhile_eq_nil_iff.mpr hcs, mapRuns_nil, List.append_nil]

theorem runsOf_of_all (p : Char → Bool) {a : Str} (hne : a ≠ [])
    (hall : ∀ c ∈ a, p c = true) : runsOf p a = [a] := by
  cases a with
  | nil => exact absurd rfl hne
  | cons c cs =>
    have hc : p c = true := hall c (List.mem_cons_self _ _)
    have hcs : ∀ d ∈ cs, p d = true := fun d hd => hall d (List.mem_cons_of_mem _ hd)
    rw [runsOf_cons_pos p _ hc, List.takeWhile_eq_self_iff.mpr hcs,
      List.dropWhile_eq_nil_iff.mpr hcs, runsOf_nil]

theorem run_all (p : Char → Bool) (c : Char) (cs : Str) (hc : p c = true) :
    ∀ d ∈ c :: cs.takeWhile p, p d = true := by
  intro d hd
  rcases List.mem_cons.mp hd with h | h
  · rw [h]; exact hc
  · exact List.mem_takeWhile_imp h

theorem mapRuns_idem_aux (p : Char → Bool) (f : Str → Str)
    (hf : ∀ A : Str, A ≠ [] → (∀ c ∈ A, p c = true) → mapRuns p f (f A) = f A) :
    ∀ (n : Nat) (s : Str), s.length ≤ n →
      mapRuns p f (mapRuns p f s) = mapRuns p f s
  | _, [], _ => by rw [mapRuns_nil, mapRuns_nil]
  | 0, c :: cs, h => by simp at h
  | n + 1, c :: cs, h => by
    have hlen : cs.length ≤ n := by simpa using h
    cases hc : p c with
    | true =>
      rw [mapRuns_cons_pos p f _ hc,
        mapRuns_append p f _ (startsOutside_mapRuns f (startsOutside_dropWhile p cs)),
        hf _ (List.cons_ne_nil _ _) (run_all p c cs hc),
        mapRuns_idem_aux p f hf n (cs.dropWhile p)
          (Nat.le_trans (length_dropWhile_le p cs) hlen)]
    | false =>
      rw [mapRuns_cons_neg p f _ hc, mapRuns_cons_neg p f _ hc,
        mapRuns_idem_aux p f hf n cs hlen]

theorem mapRuns_idem (p : Char → Bool) (f : Str → Str)
    (hf : ∀ A : Str, A ≠ [] → (∀ c ∈ A, p c = true) → mapRuns p f (f A) = f A)
    (s : Str) : mapRuns p f (mapRuns p f s) = mapRuns p f s :=
  mapRuns_idem_aux p f hf s.length s (Nat.le_refl _)

theorem runsOf_mapRuns_aux (p : Char → Bool) (f : Str → Str)
    (hf : ∀ A : Str, A ≠ [] → (∀ c ∈ A, p c = true) →
      f A ≠ [] ∧ ∀ c ∈ f A, p c = true) :
    ∀ (n : Nat) (s : Str), s.length ≤ n →
      runsOf p (mapRuns p f s) = (runsOf p s).map f
  | _, [], _ => by rw [mapRuns_nil, runsOf_nil, List.map_nil]
  | 0, c :: cs, h => by simp at h
  | n + 1, c :: cs, h => by
    have hlen : cs.length ≤ n := by simpa using h
    cases hc : p c with
    | true =>
      obtain ⟨h1, h2⟩ := hf _ (List.cons_ne_nil _ _) (run_all p c cs hc)
      rw [mapRuns_cons_pos p f _ hc, runsOf_cons_pos p _ hc,
        runsOf_append p _ (startsOutside_mapRuns f (startsOutside_dropWhile p cs)),
        runsOf_of_all p h1 h2,
        runsOf_mapRuns_aux p f hf n (cs.dropWhile p)
          (Nat.le_trans (length_dropWhile_le p cs) hlen),
        List.map_cons, List.singleton_append]
    | false =>
      rw [mapRuns_cons_neg p f _ hc, runsOf_cons_neg p _ hc, runsOf_cons_neg p _ hc,
        runsOf_mapRuns_aux p f hf n cs hlen]

theorem runsOf_mapRuns (p : Char → Bool) (f : Str → Str)
    (hf : ∀ A : Str, A ≠ [] → (∀ c ∈ A, p c = true) →
      f A ≠ [] ∧ ∀ c ∈ f A, p c = true)
    (s : Str) : runsOf p (mapRuns p f s) = (runsOf p s).map f :=
  runsOf_mapRuns_aux p f hf s.length s (Nat.le_refl _)

theorem runsOf_eq_takeWhile (p : Char → Bool) (s : Str) :
    runsOf p s
      = (if s.takeWhile p = [] then [] else [s.takeWhile p]) ++ runsOf p (s.dropWhile p) := by
  cases s with
  | nil => simp [runsOf_nil]
  | cons c cs =>
    cases hc : p c with
    | true =>
      rw [runsOf_cons_pos p _ hc, List.takeWhile_cons_of_pos hc,
        List.dropWhile_cons_of_pos hc, if_neg (List.cons_ne_nil _ _), List.singleton_append]
    | false =>
      rw [List.takeWhile_cons_of_neg (by simp [hc]), List.dropWhile_cons_of_neg (by simp [hc]),
        if_pos rfl, List.nil_append]

theorem mem_runsOf_aux (p : Char → Bool) :
    ∀ (n : Nat) (s : Str), s.length ≤ n → ∀ A ∈ runsOf p s,
      A ≠ [] ∧ ∀ c ∈ A, p c = true ∧ c ∈ s
  | _, [], _, A, hA => by rw [runsOf_nil] at hA; cases hA
  | 0, c :: cs, h, _, _ => by simp at h
  | n + 1, c :: cs, h, A, hA => by
    have hlen : cs.length ≤ n := by simpa using h
    cases hc : p c with
    | true =>
      rw [runsOf_cons_pos p _ hc] at hA
      rcases List.mem_cons.mp hA with h1 | h1
      · rw [h1]
        refine ⟨List.cons_ne_nil _ _, fun d hd => ⟨run_all p c cs hc d hd, ?_⟩⟩
        rcases List.mem_cons.mp hd with h2 | h2
        · rw [h2]; exact List.mem_cons_self _ _
        · exact List.mem_cons_of_mem _ ((List.takeWhile_prefix p).subset h2)
      · obtain ⟨h2, h3⟩ := mem_runsOf_aux p n (cs.dropWhile p)
          (Nat.le_trans (length_dropWhile_le p cs) hlen) A h1
        exact ⟨h2, fun d hd => ⟨(h3 d hd).1,
          List.mem_cons_of_mem _ ((List.dropWhile_sublist p).subset (h3 d hd).2)⟩⟩
    | false =>
      rw [runsOf_cons_neg p _ hc] at hA
      obtain ⟨h2, h3⟩ := mem_runsOf_aux p n cs hlen A hA
      exact ⟨h2, fun d hd => ⟨(h3 d hd).1, List.mem_cons_of_mem _ (h3 d hd).2⟩⟩

theorem mem_runsOf (p : Char → Bool) {s A : Str} (hA : A ∈ runsOf p s) :
    A ≠ [] ∧ ∀ c ∈ A, p c = true ∧ c ∈ s :=
  mem_runsOf_aux p s.length s (Nat.le_refl _) A hA

/-! ## The replaced text in terms of runs -/

theorem wholeWordPositionsFrom_end {t w : Str} (hw : w ≠ []) :
    wholeWordPositionsFrom t w t.length = [] := by
  apply wholeWordPositionsFrom_nil
  intro k hk1 _
  cases h : occursAt t w k with
  | false => rfl
  | true =>
    have := occursAt_le h
    have := List.length_pos.mpr hw
    omega

theorem wholeWordPositionsFrom_run {t w : Str} {q m : Nat} (hm : 0 < m)
    (hqm : q + m ≤ t.length)
    (hint : ∀ j, j + 1 < m → isalnum (charAt t (q + j)) = true) :
    wholeWordPositionsFrom t w q
      = (if wholeWordAt t w q then [q] else []) ++ wholeWordPositionsFrom t w (q + m) := by
  have e1 : List.range' q (t.length + 1 - q)
      = List.range' q 1 ++ (List.range' (q + 1) (m - 1)
            ++ List.range' (q + m) (t.length + 1 - (q + m))) := by
    have a1 : q + 1 + (m - 1) = q + m := by omega
    rw [← a1, List.range'_append_1, List.range'_append_1]
    congr 1
    omega
  rw [wholeWordPositionsFrom, e1, List.filter_append, List.filter_append]
  have f2 : (List.range' (q + 1) (m - 1)).filter (wholeWordAt t w) = [] := by
    apply range'_filter_nil
    intro k hk1 hk2
    have hk : q + (k - 1 - q) = k - 1 := by omega
    have := hint (k - 1 - q) (by omega)
    rw [hk] at this
    have hk0 : k ≠ 0 := by omega
    simp [wholeWordAt, this, hk0]
  have f3 : (List.range' q 1).filter (wholeWordAt t w)
      = if wholeWordAt t w q then [q] else [] := by
    simp [List.range', List.filter]
    cases wholeWordAt t w q <;> rfl
  rw [f2, f3, wholeWordPositionsFrom]
  simp

theorem drop_eq_append_facts {t A D : Str} {q : Nat} (hq : q ≤ t.length)
    (hd : t.drop q = A ++ D) :
    t.length = q + A.length + D.length
    ∧ (∀ j, j < A.length → charAt t (q + j) = charAt A j)
    ∧ (∀ j, charAt t (q + A.length + j) = charAt D j)
    ∧ t.drop (q + A.length) = D := by
  refine ⟨?_, ?_, ?_, ?_⟩
  · have := congrArg List.length hd
    rw [List.length_drop, List.length_append] at this
    omega
  · intro j hj
    rw [← charAt_drop, hd, charAt_append_left hj]
  · intro j
    rw [Nat.add_assoc, ← charAt_drop, hd, charAt_append_right]
  · rw [← List.drop_drop, hd, List.drop_left]

theorem wholeWordAt_run {t w A D : Str} {q : Nat} (hw : w ≠ [])
    (hal : ∀ c ∈ w, isalnum c = true) (hq : q ≤ t.length) (hd : t.drop q = A ++ D)
    (hA : ∀ c ∈ A, isalnum c = true) (hD : StartsOutside isalnum D)
    (hprev : q = 0 ∨ isalnum (charAt t (q - 1)) = false) :
    wholeWordAt t w q = matchesWord w A := by
  obtain ⟨hlen, hcA, hcD, _⟩ := drop_eq_append_facts hq hd
  have hwl := List.length_pos.mpr hw
  have hnext : D = [] ∨ isalnum (charAt t (q + A.length)) = false := by
    cases D with
    | nil => exact Or.inl rfl
    | cons d D' =>
      right
      have h0 := hcD 0
      rw [Nat.add_zero] at h0
      rw [h0]
      exact startsOutside_cons.mp hD
  rw [Bool.eq_iff_iff]
  constructor
  · intro h
    have hocc := wholeWordAt_occursAt h
    have hle := occursAt_le hocc
    have h3 : t.length ≤ q + w.length ∨ isalnum (charAt t (q + w.length)) = false := by
      simp only [wholeWordAt, Bool.and_eq_true, Bool.or_eq_true, decide_eq_true_eq,
        Bool.not_eq_true'] at h
      exact h.2
    have hnm : w.length = A.length := by
      rcases Nat.lt_trichotomy w.length A.length with h4 | h4 | h4
      · exfalso
        have h5 := hA _ (charAt_mem h4)
        rw [← hcA _ h4] at h5
        rcases h3 with h3 | h3
        · omega
        · rw [h3] at h5
          cases h5
      · exact h4
      · exfalso
        have h5 := occursAt_isalnum hal hocc (i := A.length) h4
        rcases hnext with h6 | h6
        · subst h6
          simp at hlen
          omega
        · rw [h6] at h5
          cases h5
    simp only [occursAt, Bool.and_eq_true, decide_eq_true_eq] at hocc
    have h7 := hocc.2
    rw [hd, hnm, List.take_left] at h7
    exact h7
  · intro h
    have hm : A.map tolower = w.map tolower := by simpa [matchesWord] using h
    have hnm : A.length = w.length := by simpa using congrArg List.length hm
    simp only [wholeWordAt, occursAt, Bool.and_eq_true, Bool.or_eq_true, decide_eq_true_eq,
      Bool.not_eq_true']
    refine ⟨⟨⟨by omega, ?_⟩, hprev⟩, ?_⟩
    · rw [hd, ← hnm, List.take_left]
      exact h
    · rcases hnext with h6 | h6
      · left
        subst h6
        simp at hlen
        omega
      · right
        rw [← hnm]
        exact h6

theorem splice_eq_mapRuns_aux (t w r : Str) (hw : w ≠ [])
    (hal : ∀ c ∈ w, isalnum c = true) :
    ∀ (n q : Nat), t.length - q ≤ n → q ≤ t.length →
      ((q = 0 ∨ isalnum (charAt t (q - 1)) = false) ∨ StartsOutside isalnum (t.drop q)) →
      splice t w.length r (wholeWordPositionsFrom t w q) q
          = mapRuns isalnum (substRun w r) (t.drop q)
        ∧ (wholeWordPositionsFrom t w q).length
          = (runsOf isalnum (t.drop q)).countP (matchesWord w) := by
  have hend : ∀ q, q = t.length →
      splice t w.length r (wholeWordPositionsFrom t w q) q
          = mapRuns isalnum (substRun w r) (t.drop q)
        ∧ (wholeWordPositionsFrom t w q).length
          = (runsOf isalnum (t.drop q)).countP (matchesWord w) := by
    intro q hq
    subst hq
    rw [wholeWordPositionsFrom_end hw, List.drop_length, mapRuns_nil, runsOf_nil]
    simp [splice]
  intro n
  induction n with
  | zero =>
    intro q hn hq _
    exact hend q (by omega)
  | succ n ih =>
    intro q hn hq hinv
    cases hd : t.drop q with
    | nil =>
      have h1 := List.drop_eq_nil_iff.mp hd
      have h2 := hend q (by omega)
      rw [hd] at h2
      exact h2
    | cons c cs =>
      have hqlt : q < t.length := by
        by_contra hcon
        rw [List.drop_eq_nil_of_le (by omega)] at hd
        cases hd
      have hcq : charAt t q = c := by
        have h1 := charAt_drop t q 0
        rw [hd] at h1
        simpa [charAt] using h1.symm
      cases hc : isalnum c with
      | false =>
        have hrej : wholeWordAt t w q = false := by
          cases h : wholeWordAt t w q with
          | false => rfl
          | true =>
            have h1 := occursAt_isalnum hal (wholeWordAt_occursAt h) (i := 0)
              (List.length_pos.mpr hw)
            rw [Nat.add_zero, hcq, hc] at h1
            cases h1
        have hsplit := wholeWordPositionsFrom_run (t := t) (w := w) (q := q) (m := 1)
          (by omega) (by omega) (by intro j hj; omega)
        rw [hrej] at hsplit
        simp only [Bool.false_eq_true, if_false, List.nil_append] at hsplit
        have hd1 : t.drop (q + 1) = cs := by
          rw [← List.drop_drop, hd]
          rfl
        obtain ⟨ih1, ih2⟩ := ih (q + 1) (by omega) (by omega)
          (Or.inl (Or.inr (by rw [Nat.add_sub_cancel, hcq]; exact hc)))
        rw [hsplit, mapRuns_cons_neg _ _ _ hc, runsOf_cons_neg _ _ hc, ← hd1, ← ih1, ← ih2]
        refine ⟨?_, rfl⟩
        rw [splice_shift t w.length r _ q (q + 1) (by omega)
          (fun k hk => wholeWordPositionsFrom_ge hk), hd]
        simp
      | true =>
        have hprev : q = 0 ∨ isalnum (charAt t (q - 1)) = false := by
          rcases hinv with h | h
          · exact h
          · rw [hd] at h
            rw [startsOutside_cons.mp h] at hc
            cases hc
        have hsplitAD : t.drop q = (c :: cs.takeWhile isalnum) ++ cs.dropWhile isalnum := by
          rw [hd, List.cons_append, List.takeWhile_append_dropWhile]
        have hA := run_all isalnum c cs hc
        have hD := startsOutside_dropWhile isalnum cs
        obtain ⟨hlen, hcA, _, hdD⟩ := drop_eq_append_facts hq hsplitAD
        have hww := wholeWordAt_run hw hal hq hsplitAD hA hD hprev
        have hsplit := wholeWordPositionsFrom_run (t := t) (w := w) (q := q)
          (m := (c :: cs.takeWhile isalnum).length) (by simp) (by omega)
          (by
            intro j hj
            rw [hcA j (by omega)]
            exact hA _ (charAt_mem (by omega)))
        obtain ⟨ih1, ih2⟩ := ih (q + (c :: cs.takeWhile isalnum).length)
          (by simp at hlen ⊢; omega) (by omega) (Or.inr (by rw [hdD]; exact hD))
        rw [hdD] at ih1 ih2
        rw [hsplit, hww, mapRuns_cons_pos _ _ _ hc, runsOf_cons_pos _ _ hc, List.countP_cons,
          ← ih1, ← ih2]
        cases hm : matchesWord w (c :: cs.takeWhile isalnum) with
        | true =>
          have hnm : (c :: cs.takeWhile isalnum).length = w.length := by
            have h1 : (c :: cs.takeWhile isalnum).map tolower = w.map tolower := by
              simpa [matchesWord] using hm
            simpa using congrArg List.length h1
          simp [splice, substRun, hm, hnm]
        | false =>
          simp only [substRun, hm, Bool.false_eq_true, if_false, List.nil_append, Nat.add_zero,
            and_true]
          rw [splice_shift t w.length r _ q (q + (c :: cs.takeWhile isalnum).length)
            (by omega) (fun k hk => wholeWordPositionsFrom_ge hk), hsplitAD,
            Nat.add_sub_cancel_left, List.take_left]

theorem replaceWordInText_eq_mapRuns (t w r : Str) (hw : w ≠ [])
    (hal : ∀ c ∈ w, isalnum c = true) :
    replaceWordInText t w r = some (mapRuns isalnum (substRun w r) t) := by
  obtain ⟨h1, _⟩ := splice_eq_mapRuns_aux t w r hw hal t.length 0 (by omega) (by omega)
    (Or.inl (Or.inl rfl))
  rw [List.drop_zero] at h1
  rw [replaceWordInText, replaceWordInTextFuel_spec t w r hw hal _ (by omega),
    Option.map_some', wholeWordPositions, h1]

theorem countWordOccurrences_eq_countP (t w : Str) (hw : w ≠ [])
    (hal : ∀ c ∈ w, isalnum c = true) :
    countWordOccurrences t w
      = some ((((runsOf isalnum t).countP (matchesWord w) : Nat)) : Int) := by
  obtain ⟨_, h2⟩ := splice_eq_mapRuns_aux t w [] hw hal t.length 0 (by omega) (by omega)
    (Or.inl (Or.inl rfl))
  rw [List.drop_zero] at h2
  rw [(countWordOccurrences_eq_accepted_of_isalnum t w [] hw hal).1, wholeWordPositions, h2]

theorem mapRuns_self_of_count_zero (s w r : Str) (hw : w ≠ [])
    (hal : ∀ c ∈ w, isalnum c = true) (hs : countWordOccurrences s w = some 0) :
    mapRuns isalnum (substRun w r) s = s := by
  obtain ⟨h1, _⟩ := splice_eq_mapRuns_aux s w r hw hal s.length 0 (by omega) (by omega)
    (Or.inl (Or.inl rfl))
  rw [(countWordOccurrences_eq_accepted_of_isalnum s w [] hw hal).1, Option.some.injEq,
    wholeWordPositions] at hs
  have h0 : wholeWordPositionsFrom s w 0 = [] :=
    List.length_eq_zero.mp (by exact_mod_cast hs)
  rw [h0, splice, List.drop_zero] at h1
  exact h1.symm

/-! ## C25: replacing twice -/

/-- Claim C25 as stated fails for an old word with a character that is neither a letter
nor a digit: with `w = "a-b"` and `r = "a"` the word `w` does not occur in `r`, the first
pass turns `"a-b-b"` into `"a-b"`, and a second pass turns that into `"a"`. -/
theorem replaceWordInText_not_idempotent :
    countWordOccurrences "a".toList "a-b".toList = some 0
    ∧ replaceWordInText "a-b-b".toList "a-b".toList "a".toList = some "a-b".toList
    ∧ replaceWordInText "a-b".toList "a-b".toList "a".toList = some "a".toList := by
  decide

/-- Claim C25, for old words made of ASCII letters and digits: when `w` is non-empty and
alphanumeric and the replacement `r` holds no whole-word occurrence of `w`
(`countWordOccurrences(r, w) = 0`), `replaceWordInText(t, w, r)` returns a text that a second
replacement of `w` by `r` returns unchanged. -/
theorem replaceWordInText_idempotent (t w r : Str) (hw : w ≠ [])
    (hal : ∀ c ∈ w, isalnum c = true) (hr : countWordOccurrences r w = some 0) :
    ∃ once, replaceWordInText t w r = some once
      ∧ replaceWordInText once w r = some once := by
  refine ⟨mapRuns isalnum (substRun w r) t, replaceWordInText_eq_mapRuns t w r hw hal, ?_⟩
  rw [replaceWordInText_eq_mapRuns _ w r hw hal, mapRuns_idem]
  intro A hA hall
  by_cases hm : matchesWord w A = true
  · have e : substRun w r A = r := by rw [substRun, if_pos hm]
    rw [e]
    exact mapRuns_self_of_count_zero r w r hw hal hr
  · have e : substRun w r A = A := by rw [substRun, if_neg hm]
    rw [e, mapRuns_of_all isalnum _ hA hall, e]

/-- The replacement of "cat" by "dog" in "cat cat." gives a text that a second replacement
leaves unchanged. -/
theorem replaceWordInText_idempotent_witness :
    ∃ once, replaceWordInText "cat cat.".toList "cat".toList "dog".toList = some once
      ∧ replaceWordInText once "cat".toList "dog".toList = some once :=
  replaceWordInText_idempotent "cat cat.".toList "cat".toList "dog".toList (by decide)
    (by decide) (by decide)

/-! ## C28: the frequency table of the replaced text -/

theorem isspace_of_islower {c : Char} (h : islower c = true) : isspace c = false := by
  simp only [islower, isspace, Bool.and_eq_true, decide_eq_true_eq, Bool.or_eq_false_iff,
    Bool.and_eq_false_iff, decide_eq_false_iff_not] at h ⊢
  omega

theorem isalpha_of_islower {c : Char} (h : islower c = true) : isalpha c = true := by
  simp [isalpha, h]

theorem isalnum_of_islower {c : Char} (h : islower c = true) : isalnum c = true := by
  simp [isalnum, isalpha, h]

theorem tolower_of_islower {c : Char} (h : islower c = true) : tolower c = c := by
  apply tolower_of_not_isupper
  simp only [islower, isupper, Bool.and_eq_true, decide_eq_true_eq, Bool.and_eq_false_iff,
    decide_eq_false_iff_not] at h ⊢
  omega

theorem map_tolower_of_islower : ∀ w : Str, (∀ c ∈ w, islower c = true) →
    w.map tolower = w
  | [], _ => rfl
  | c :: cs, h => by
    rw [List.map_cons, tolower_of_islower (h c (List.mem_cons_self _ _)),
      map_tolower_of_islower cs (fun d hd => h d (List.mem_cons_of_mem _ hd))]

theorem isSeparator_of_isalnum {c : Char} (h : isalnum c = true) : isSeparator c = false := by
  simp only [isSeparator, isalnum, ispunct, isalpha, isupper, islower, isdigit, isspace,
    Bool.or_eq_true, Bool.and_eq_true, decide_eq_true_eq, Bool.not_eq_true',
    Bool.or_eq_false_iff, Bool.and_eq_false_iff, decide_eq_false_iff_not,
    Bool.not_eq_false'] at h ⊢
  omega

theorem isalnum_of_isSeparator {c : Char} (h : isSeparator c = true) : isalnum c = false := by
  cases ha : isalnum c with
  | false => rfl
  | true => rw [isSeparator_of_isalnum ha] at h; cases h

theorem inChunk_of_isalnum {c : Char} (h : isalnum c = true) : inChunk c = true := by
  rw [inChunk, isSeparator_of_isalnum h]
  rfl

theorem isSeparator_of_not_inChunk {c : Char} (h : inChunk c = false) :
    isSeparator c = true := by
  simpa [inChunk] using h

theorem not_isSeparator_of_inChunk {c : Char} (h : inChunk c = true) :
    isSeparator c = false := by
  simpa [inChunk] using h

theorem normalizeCharSpec_of_isalpha {c : Char} (h : isalpha c = true) :
    normalizeCharSpec c = [tolower c] ∧ isspace (tolower c) = false := by
  refine ⟨by rw [normalizeCharSpec, if_pos h], isspace_of_islower ?_⟩
  rw [islower_tolower, h]

theorem normalizeCharSpec_of_isSeparator {c : Char} (hc : isSeparator c = true) :
    ∃ d, normalizeCharSpec c = [d] ∧ isspace d = true := by
  have hal : isalpha c = false := by
    have h1 := isalnum_of_isSeparator hc
    cases h : isalpha c with
    | false => rfl
    | true => simp [isalnum, h] at h1
  by_cases hs : isspace c = true
  · refine ⟨c, ?_, hs⟩
    rw [normalizeCharSpec, if_neg (by simp [hal]), if_pos (by simp [hs])]
  · have hs1 : isspace c = false := by simpa using hs
    have hp : ispunct c = true ∧ isTerminator c = false := by
      simpa [isSeparator, hs1] using hc
    refine ⟨' ', ?_, by decide⟩
    rw [normalizeCharSpec, if_neg (by simp [hal]), if_neg (by simp [hs1, hp.2]), if_pos hp.1]

theorem normalizeCharSpec_of_inChunk {c : Char} (hc : inChunk c = true) :
    ∀ d ∈ normalizeCharSpec c, isspace d = false := by
  have hsep := not_isSeparator_of_inChunk hc
  have hs : isspace c = false := by
    cases h : isspace c with
    | false => rfl
    | true => simp [isSeparator, h] at hsep
  intro d hd
  by_cases hal : isalpha c = true
  · rw [(normalizeCharSpec_of_isalpha hal).1, List.mem_singleton] at hd
    rw [hd]
    exact (normalizeCharSpec_of_isalpha hal).2
  · rw [normalizeCharSpec, if_neg hal] at hd
    by_cases ht : isTerminator c = true
    · rw [if_pos (by simp [ht]), List.mem_singleton] at hd
      rw [hd]
      exact hs
    · have ht1 : isTerminator c = false := by simpa using ht
      have hp : ispunct c = false := by
        cases h : ispunct c with
        | false => rfl
        | true => simp [isSeparator, h, ht1] at hsep
      rw [if_neg (by simp [hs, ht1]), if_neg (by simp [hp])] at hd
      cases hd

theorem flatMap_normalizeCharSpec_of_isalpha : ∀ C : Str, (∀ c ∈ C, isalpha c = true) →
    C.flatMap normalizeCharSpec = C.map tolower
  | [], _ => rfl
  | c :: cs, h => by
    rw [List.flatMap_cons, (normalizeCharSpec_of_isalpha (h c (List.mem_cons_self _ _))).1,
      flatMap_normalizeCharSpec_of_isalpha cs (fun d hd => h d (List.mem_cons_of_mem _ hd)),
      List.map_cons, List.singleton_append]

theorem isalnum_of_map_tolower_eq {A w : Str} (h : A.map tolower = w.map tolower)
    (hal : ∀ c ∈ w, isalnum c = true) : ∀ c ∈ A, isalnum c = true := by
  intro c hc
  have h1 : tolower c ∈ w.map tolower := by
    rw [← h]
    exact List.mem_map_of_mem _ hc
  obtain ⟨d, hd, hd2⟩ := List.mem_map.mp h1
  rw [← isalnum_tolower c, ← hd2, isalnum_tolower]
  exact hal d hd

theorem isalpha_of_map_tolower_eq {A w : Str} (h : A.map tolower = w)
    (hwl : ∀ c ∈ w, islower c = true) : ∀ c ∈ A, isalpha c = true := by
  intro c hc
  have h1 : tolower c ∈ w := by
    rw [← h]
    exact List.mem_map_of_mem _ hc
  rw [← islower_tolower]
  exact hwl _ h1

theorem chunkToken_nil : chunkToken [] = [] := rfl

theorem chunkToken_cons (c : Char) (cs : Str) :
    chunkToken (c :: cs) = normalizeCharSpec c ++ chunkToken cs := by
  rw [chunkToken, List.flatMap_cons, chunkToken]

theorem extractWords_append_of_not_isspace : ∀ (n rest word : Str),
    (∀ d ∈ n, isspace d = false) →
    extractWords (n ++ rest) word = extractWords rest (word ++ n)
  | [], rest, word, _ => by rw [List.nil_append, List.append_nil]
  | d :: n, rest, word, h => by
    rw [List.cons_append, extractWords, if_neg (by simp [h d (List.mem_cons_self _ _)]),
      extractWords_append_of_not_isspace n rest _
        (fun e he => h e (List.mem_cons_of_mem _ he)),
      List.append_assoc, List.singleton_append]

theorem chunk_tokens_eq (p : Char → Bool) (s : Str) :
    ((runsOf p s).map chunkToken).filter (fun x => !x.isEmpty)
      = (if chunkToken (s.takeWhile p) = [] then []
          else [chunkToken (s.takeWhile p)])
        ++ ((runsOf p (s.dropWhile p)).map chunkToken).filter
            (fun x => !x.isEmpty) := by
  rw [runsOf_eq_takeWhile p s, List.map_append, List.filter_append]
  congr 1
  by_cases h : s.takeWhile p = []
  · simp [h, chunkToken_nil]
  · by_cases h2 : chunkToken (s.takeWhile p) = []
    · rw [if_neg h, if_pos h2, List.map_singleton, List.filter_cons, h2]
      rfl
    · rw [if_neg h, if_neg h2, List.map_singleton, List.filter_cons, if_pos (by simpa using h2)]
      rfl

theorem extractWords_chunks : ∀ (s word : Str),
    extractWords (s.flatMap normalizeCharSpec) word
      = (if word ++ chunkToken (s.takeWhile inChunk) = [] then []
          else [word ++ chunkToken (s.takeWhile inChunk)])
        ++ ((runsOf inChunk (s.dropWhile inChunk)).map
              chunkToken).filter (fun x => !x.isEmpty)
  | [], word => by
    rw [List.flatMap_nil, extractWords, List.takeWhile_nil, List.dropWhile_nil, runsOf_nil,
      List.map_nil, List.filter_nil, chunkToken_nil, List.append_nil, List.append_nil]
    by_cases h : word = []
    · simp [h]
    · simp [h]
  | c :: cs, word => by
    cases hc : inChunk c with
    | true =>
      rw [List.flatMap_cons,
        extractWords_append_of_not_isspace _ _ _ (normalizeCharSpec_of_inChunk hc),
        extractWords_chunks cs _, List.takeWhile_cons_of_pos hc,
        List.dropWhile_cons_of_pos hc, chunkToken_cons, List.append_assoc]
    | false =>
      obtain ⟨d, h1, h2⟩ := normalizeCharSpec_of_isSeparator (isSeparator_of_not_inChunk hc)
      rw [List.flatMap_cons, h1, List.singleton_append, extractWords, if_pos h2,
        extractWords_chunks cs [], List.takeWhile_cons_of_neg (by simp [hc]),
        List.dropWhile_cons_of_neg (by simp [hc]), runsOf_cons_neg _ _ hc,
        chunk_tokens_eq inChunk cs, chunkToken_nil, List.append_nil, List.nil_append]
      by_cases h : word = []
      · simp [h]
      · simp [h]

theorem tokenize_eq_chunks (s : Str) :
    tokenize s
      = ((runsOf inChunk s).map chunkToken).filter
          (fun word => !word.isEmpty && isalpha (charAt word 0)) := by
  have h1 : normalizeText s = s.flatMap normalizeCharSpec := by
    rw [normalizeText, normalize_foldl, List.nil_append]
  rw [tokenize, h1, extractWords_chunks s [], List.nil_append, ← chunk_tokens_eq inChunk s,
    List.filter_filter]
  apply List.filter_congr
  intro x _
  cases x with
  | nil => rfl
  | cons a x' => simp

theorem wholeWordPositionsFrom_skip {t w : Str} {q m : Nat} (hm : 0 < m)
    (hqm : q + m ≤ t.length)
    (hint : ∀ k, q < k → k < q + m → wholeWordAt t w k = false) :
    wholeWordPositionsFrom t w q
      = (if wholeWordAt t w q then [q] else []) ++ wholeWordPositionsFrom t w (q + m) := by
  have e1 : List.range' q (t.length + 1 - q)
      = List.range' q 1 ++ (List.range' (q + 1) (m - 1)
            ++ List.range' (q + m) (t.length + 1 - (q + m))) := by
    have a1 : q + 1 + (m - 1) = q + m := by omega
    rw [← a1, List.range'_append_1, List.range'_append_1]
    congr 1
    omega
  rw [wholeWordPositionsFrom, e1, List.filter_append, List.filter_append]
  have f2 : (List.range' (q + 1) (m - 1)).filter (wholeWordAt t w) = [] := by
    apply range'_filter_nil
    intro k hk1 hk2
    exact hint k (by omega) (by omega)
  have f3 : (List.range' q 1).filter (wholeWordAt t w)
      = if wholeWordAt t w q then [q] else [] := by
    simp [List.range', List.filter]
    cases wholeWordAt t w q <;> rfl
  rw [f2, f3, wholeWordPositionsFrom]
  simp

theorem mem_wholeWordPositions {t w : Str} {p : Nat} (h : wholeWordAt t w p = true) :
    p ∈ wholeWordPositions t w := by
  have hle := occursAt_le (wholeWordAt_occursAt h)
  simp only [wholeWordPositions, wholeWordPositionsFrom, List.mem_filter, List.mem_range'_1]
  exact ⟨⟨Nat.zero_le _, by omega⟩, h⟩

theorem wholeWordAt_chunk {t w C D : Str} {q : Nat} (hw : w ≠ [])
    (hal : ∀ c ∈ w, isalnum c = true)
    (hdelim : ∀ p ∈ wholeWordPositions t w,
      (p = 0 ∨ isSeparator (charAt t (p - 1)) = true)
      ∧ (t.length ≤ p + w.length ∨ isSeparator (charAt t (p + w.length)) = true))
    (hq : q ≤ t.length) (hd : t.drop q = C ++ D)
    (hC : ∀ c ∈ C, inChunk c = true) (hD : StartsOutside inChunk D)
    (hprev : q = 0 ∨ isSeparator (charAt t (q - 1)) = true) :
    wholeWordAt t w q = matchesWord w C := by
  obtain ⟨hlen, hcA, _, _⟩ := drop_eq_append_facts hq hd
  by_cases hall : ∀ c ∈ C, isalnum c = true
  · refine wholeWordAt_run hw hal hq hd hall ?_ ?_
    · intro d hd2
      exact isalnum_of_isSeparator (isSeparator_of_not_inChunk (hD d hd2))
    · rcases hprev with h | h
      · exact Or.inl h
      · exact Or.inr (isalnum_of_isSeparator h)
  · have hm : matchesWord w C = false := by
      cases h : matchesWord w C with
      | false => rfl
      | true =>
        exfalso
        apply hall
        exact isalnum_of_map_tolower_eq (by simpa [matchesWord] using h) hal
    rw [hm]
    cases h : wholeWordAt t w q with
    | false => rfl
    | true =>
      exfalso
      have hocc := wholeWordAt_occursAt h
      have hle := occursAt_le hocc
      obtain ⟨_, hnext⟩ := hdelim q (mem_wholeWordPositions h)
      have hmn : C.length ≤ w.length := by
        by_contra hcon
        have hlt : w.length < C.length := by omega
        have h5 := hC _ (charAt_mem hlt)
        rw [← hcA _ hlt] at h5
        rcases hnext with h6 | h6
        · omega
        · rw [not_isSeparator_of_inChunk h5] at h6
          cases h6
      apply hall
      intro c hc
      obtain ⟨j, hj, hjc⟩ := List.mem_iff_getElem.mp hc
      have h7 := occursAt_isalnum hal hocc (i := j) (by omega)
      rw [hcA j hj, charAt_of_lt hj, hjc] at h7
      exact h7

theorem splice_eq_mapRuns_chunks (t w r : Str) (hw : w ≠ [])
    (hal : ∀ c ∈ w, isalnum c = true)
    (hdelim : ∀ p ∈ wholeWordPositions t w,
      (p = 0 ∨ isSeparator (charAt t (p - 1)) = true)
      ∧ (t.length ≤ p + w.length ∨ isSeparator (charAt t (p + w.length)) = true)) :
    ∀ (n q : Nat), t.length - q ≤ n → q ≤ t.length →
      ((q = 0 ∨ isSeparator (charAt t (q - 1)) = true)
        ∨ StartsOutside inChunk (t.drop q)) →
      splice t w.length r (wholeWordPositionsFrom t w q) q
          = mapRuns inChunk (substRun w r) (t.drop q)
        ∧ (wholeWordPositionsFrom t w q).length
          = (runsOf inChunk (t.drop q)).countP (matchesWord w) := by
  have hend : ∀ q, q = t.length →
      splice t w.length r (wholeWordPositionsFrom t w q) q
          = mapRuns inChunk (substRun w r) (t.drop q)
        ∧ (wholeWordPositionsFrom t w q).length
          = (runsOf inChunk (t.drop q)).countP (matchesWord w) := by
    intro q hq
    subst hq
    rw [wholeWordPositionsFrom_end hw, List.drop_length, mapRuns_nil, runsOf_nil]
    simp [splice]
  intro n
  induction n with
  | zero =>
    intro q hn hq _
    exact hend q (by omega)
  | succ n ih =>
    intro q hn hq hinv
    cases hd : t.drop q with
    | nil =>
      have h1 := List.drop_eq_nil_iff.mp hd
      have h2 := hend q (by omega)
      rw [hd] at h2
      exact h2
    | cons c cs =>
      have hqlt : q < t.length := by
        by_contra hcon
        rw [List.drop_eq_nil_of_le (by omega)] at hd
        cases hd
      have hcq : charAt t q = c := by
        have h1 := charAt_drop t q 0
        rw [hd] at h1
        simpa [charAt] using h1.symm
      cases hc : inChunk c with
      | false =>
        have hsep := isSeparator_of_not_inChunk hc
        have hrej : wholeWordAt t w q = false := by
          cases h : wholeWordAt t w q with
          | false => rfl
          | true =>
            have h1 := occursAt_isalnum hal (wholeWordAt_occursAt h) (i := 0)
              (List.length_pos.mpr hw)
            rw [Nat.add_zero, hcq, isalnum_of_isSeparator hsep] at h1
            cases h1
        have hsplit := wholeWordPositionsFrom_skip (t := t) (w := w) (q := q) (m := 1)
          (by omega) (by omega) (by intro k hk1 hk2; omega)
        rw [hrej] at hsplit
        simp only [Bool.false_eq_true, if_false, List.nil_append] at hsplit
        have hd1 : t.drop (q + 1) = cs := by
          rw [← List.drop_drop, hd]
          rfl
        obtain ⟨ih1, ih2⟩ := ih (q + 1) (by omega) (by omega)
          (Or.inl (Or.inr (by rw [Nat.add_sub_cancel, hcq]; exact hsep)))
        rw [hsplit, mapRuns_cons_neg _ _ _ hc, runsOf_cons_neg _ _ hc, ← hd1, ← ih1, ← ih2]
        refine ⟨?_, rfl⟩
        rw [splice_shift t w.length r _ q (q + 1) (by omega)
          (fun k hk => wholeWordPositionsFrom_ge hk), hd]
        simp
      | true =>
        have hprev : q = 0 ∨ isSeparator (charAt t (q - 1)) = true := by
          rcases hinv with h | h
          · exact h
          · rw [hd] at h
            rw [startsOutside_cons.mp h] at hc
            cases hc
        have hsplitAD : t.drop q = (c :: cs.takeWhile inChunk) ++ cs.dropWhile inChunk := by
          rw [hd, List.cons_append, List.takeWhile_append_dropWhile]
        have hA := run_all inChunk c cs hc
        have hD := startsOutside_dropWhile inChunk cs
        obtain ⟨hlen, hcA, _, hdD⟩ := drop_eq_append_facts hq hsplitAD
        have hww := wholeWordAt_chunk hw hal hdelim hq hsplitAD hA hD hprev
        have hsplit := wholeWordPositionsFrom_skip (t := t) (w := w) (q := q)
          (m := (c :: cs.takeWhile inChunk).length) (by simp) (by omega)
          (by
            intro k hk1 hk2
            cases h : wholeWordAt t w k with
            | false => rfl
            | true =>
              exfalso
              obtain ⟨hp, _⟩ := hdelim k (mem_wholeWordPositions h)
              have hk : q + (k - 1 - q) = k - 1 := by omega
              have h5 := hA _ (charAt_mem (i := k - 1 - q) (by omega))
              rw [← hcA _ (by omega), hk] at h5
              rcases hp with h6 | h6
              · omega
              · rw [not_isSeparator_of_inChunk h5] at h6
                cases h6)
        obtain ⟨ih1, ih2⟩ := ih (q + (c :: cs.takeWhile inChunk).length)
          (by simp at hlen ⊢; omega) (by omega) (Or.inr (by rw [hdD]; exact hD))
        rw [hdD] at ih1 ih2
        rw [hsplit, hww, mapRuns_cons_pos _ _ _ hc, runsOf_cons_pos _ _ hc, List.countP_cons,
          ← ih1, ← ih2]
        cases hm : matchesWord w (c :: cs.takeWhile inChunk) with
        | true =>
          have hnm : (c :: cs.takeWhile inChunk).length = w.length := by
            have h1 : (c :: cs.takeWhile inChunk).map tolower = w.map tolower := by
              simpa [matchesWord] using hm
            simpa using congrArg List.length h1
          simp [splice, substRun, hm, hnm]
        | false =>
          simp only [substRun, hm, Bool.false_eq_true, if_false, List.nil_append, Nat.add_zero,
            and_true]
          rw [splice_shift t w.length r _ q (q + (c :: cs.takeWhile inChunk).length)
            (by omega) (fun k hk => wholeWordPositionsFrom_ge hk), hsplitAD,
            Nat.add_sub_cancel_left, List.take_left]

theorem replaceWordInText_eq_mapRuns_chunks (t w r : Str) (hw : w ≠ [])
    (hal : ∀ c ∈ w, isalnum c = true)
    (hdelim : ∀ p ∈ wholeWordPositions t w,
      (p = 0 ∨ isSeparator (charAt t (p - 1)) = true)
      ∧ (t.length ≤ p + w.length ∨ isSeparator (charAt t (p + w.length)) = true)) :
    replaceWordInText t w r = some (mapRuns inChunk (substRun w r) t)
    ∧ countWordOccurrences t w
      = some ((((runsOf inChunk t).countP (matchesWord w) : Nat)) : Int) := by
  obtain ⟨h1, h2⟩ := splice_eq_mapRuns_chunks t w r hw hal hdelim t.length 0 (by omega)
    (by omega) (Or.inl (Or.inl rfl))
  rw [List.drop_zero] at h1 h2
  constructor
  · rw [replaceWordInText, replaceWordInTextFuel_spec t w r hw hal _ (by omega),
      Option.map_some', wholeWordPositions, h1]
  · rw [(countWordOccurrences_eq_accepted_of_isalnum t w [] hw hal).1, wholeWordPositions, h2]

theorem countP_imp_of_eq {α : Type} (p q : α → Bool) : ∀ l : List α,
    (∀ x ∈ l, p x = true → q x = true) → l.countP p = l.countP q →
    ∀ x ∈ l, q x = true → p x = true
  | [], _, _, x, hx, _ => by cases hx
  | a :: l, himp, heq, x, hx, hqx => by
    have himp2 : ∀ y ∈ l, p y = true → q y = true :=
      fun y hy => himp y (List.mem_cons_of_mem _ hy)
    have hmono : l.countP p ≤ l.countP q := List.countP_mono_left himp2
    rw [List.countP_cons, List.countP_cons] at heq
    cases hpa : p a with
    | true =>
      have hqa := himp a (List.mem_cons_self _ _) hpa
      rw [hpa, hqa] at heq
      rcases List.mem_cons.mp hx with h | h
      · rw [h]; exact hpa
      · exact countP_imp_of_eq p q l himp2 (by simpa using heq) x h hqx
    | false =>
      cases hqa : q a with
      | true =>
        rw [hpa, hqa] at heq
        simp only [Bool.false_eq_true, if_false, if_true] at heq
        omega
      | false =>
        rw [hpa, hqa] at heq
        rcases List.mem_cons.mp hx with h | h
        · rw [h, hqa] at hqx
          cases hqx
        · exact countP_imp_of_eq p q l himp2 (by simpa using heq) x h hqx

theorem token_of_matching_chunk {w C : Str} (hwl : ∀ c ∈ w, islower c = true)
    (hm : matchesWord w C = true) : chunkToken C = w := by
  have h1 : C.map tolower = w := by
    have h2 : C.map tolower = w.map tolower := by simpa [matchesWord] using hm
    rw [h2, map_tolower_of_islower w hwl]
  rw [chunkToken, flatMap_normalizeCharSpec_of_isalpha C (isalpha_of_map_tolower_eq h1 hwl),
    h1]

theorem count_token_eq_countP (t w : Str) (hw : w ≠ []) (hwl : ∀ c ∈ w, islower c = true) :
    (tokenize t).count w
      = (runsOf inChunk t).countP (fun C => chunkToken C == w) := by
  have hok : (!w.isEmpty && isalpha (charAt w 0)) = true := by
    cases w with
    | nil => exact absurd rfl hw
    | cons a w' =>
      have := isalpha_of_islower (hwl a (List.mem_cons_self _ _))
      simp [charAt, this]
  have h1 := List.count_filter (p := fun word : Str => !word.isEmpty && isalpha (charAt word 0))
    (a := w) (l := (runsOf inChunk t).map chunkToken) hok
  rw [tokenize_eq_chunks, h1, List.count_eq_countP, List.countP_map]
  rfl

theorem tokenize_after_replacement (t w r : Str) (hw : w ≠ [])
    (hwl : ∀ c ∈ w, islower c = true) (hr : r ≠ [])
    (hrl : ∀ c ∈ r, islower c = true)
    (htok : (tokenize t).count w = (runsOf inChunk t).countP (matchesWord w)) :
    tokenize (mapRuns inChunk (substRun w r) t)
      = (tokenize t).map (fun x => if x = w then r else x) := by
  have hf : ∀ A : Str, A ≠ [] → (∀ c ∈ A, inChunk c = true) →
      substRun w r A ≠ [] ∧ ∀ c ∈ substRun w r A, inChunk c = true := by
    intro A hA hall
    by_cases hm : matchesWord w A = true
    · rw [substRun, if_pos hm]
      exact ⟨hr, fun c hc => inChunk_of_isalnum (isalnum_of_islower (hrl c hc))⟩
    · rw [substRun, if_neg hm]
      exact ⟨hA, hall⟩
  have hconv : ∀ C ∈ runsOf inChunk t,
      (chunkToken C == w) = true → matchesWord w C = true := by
    apply countP_imp_of_eq
    · intro C _ hm
      rw [token_of_matching_chunk hwl hm]
      simp
    · rw [← htok, count_token_eq_countP t w hw hwl]
  have hrtok : chunkToken r = r := by
    rw [chunkToken, flatMap_normalizeCharSpec_of_isalpha r (fun c hc => isalpha_of_islower (hrl c hc)),
      map_tolower_of_islower r hrl]
  have hokr : (!r.isEmpty && isalpha (charAt r 0)) = true := by
    cases r with
    | nil => exact absurd rfl hr
    | cons a r' =>
      have := isalpha_of_islower (hrl a (List.mem_cons_self _ _))
      simp [charAt, this]
  have hokw : (!w.isEmpty && isalpha (charAt w 0)) = true := by
    cases w with
    | nil => exact absurd rfl hw
    | cons a w' =>
      have := isalpha_of_islower (hwl a (List.mem_cons_self _ _))
      simp [charAt, this]
  have hmap : ((runsOf inChunk t).map (substRun w r)).map chunkToken
      = ((runsOf inChunk t).map chunkToken).map
          (fun x => if x = w then r else x) := by
    rw [List.map_map, List.map_map]
    apply List.map_congr_left
    intro C hC
    simp only [Function.comp_apply]
    by_cases hm : matchesWord w C = true
    · rw [substRun, if_pos hm, hrtok, token_of_matching_chunk hwl hm, if_pos rfl]
    · have hne : ¬ chunkToken C = w := by
        intro h
        exact hm (hconv C hC (by simp [h]))
      rw [substRun, if_neg hm, if_neg hne]
  rw [tokenize_eq_chunks, runsOf_mapRuns inChunk _ hf, hmap, tokenize_eq_chunks,
    List.filter_map]
  congr 1
  apply List.filter_congr
  intro x _
  simp only [Function.comp_apply]
  by_cases hx : x = w
  · rw [if_pos hx, hx, hokr, hokw]
  · rw [if_neg hx]

theorem count_le_count_subst (w r : Str) : ∀ l : List Str,
    l.count w ≤ (l.map (fun x => if x = w then r else x)).count r
  | [] => by simp
  | x :: xs => by
    have ih := count_le_count_subst w r xs
    rw [List.map_cons, List.count_cons, List.count_cons]
    by_cases h : x = w
    · simp only [h, if_true, beq_self_eq_true]
      omega
    · have h1 : (x == w) = false := by simpa using h
      rw [h1]
      simp only [Bool.false_eq_true, if_false, Nat.add_zero]
      omega

/-- Claim C28 as stated fails when an occurrence is followed by a sentence terminator or
when another token reads as the old word once normalisation has deleted a character: in
"A dog." the word "dog" is counted once, but the table of the replaced text "A wolf." has
the key "wolf." and no key "wolf"; in "dog d1og" it is counted once, and the replaced text
"wolf d1og" still has the key "dog", because the digit is deleted before the text is split
into tokens. -/
theorem frequency_keys_after_replacement_fail :
    countWordOccurrences "A dog.".toList "dog".toList = some 1
    ∧ replaceWordInText "A dog.".toList "dog".toList "wolf".toList = some "A wolf.".toList
    ∧ getWordFrequency (tokenize "A wolf.".toList) = [("a".toList, 1), ("wolf.".toList, 1)]
    ∧ mapFind strLess "wolf".toList (getWordFrequency (tokenize "A wolf.".toList)) = none
    ∧ countWordOccurrences "dog d1og".toList "dog".toList = some 1
    ∧ replaceWordInText "dog d1og".toList "dog".toList "wolf".toList
        = some "wolf d1og".toList
    ∧ mapFind strLess "dog".toList (getWordFrequency (tokenize "wolf d1og".toList))
        = some 1 := by
  decide

/-- Claim C28, amended: for every text `t` and distinct non-empty words `w` and `r` of
lowercase ASCII letters with `countWordOccurrences(t, w) = k ≥ 1`, when every counted
occurrence of `w` is delimited on both sides by a separator (white space or punctuation
other than `.`, `!`, `?`) or by an end of the text, and the word-frequency table of `t`
counts `w` exactly `k` times (no other token reads as `w`), `replaceWordInText(t, w, r)`
returns a text whose word-frequency table has no key `w` and has the key `r` with a count
of at least `k`. -/
theorem frequency_after_replacement (t w r : Str) (k : Int)
    (hw : w ≠ []) (hwl : ∀ c ∈ w, islower c = true)
    (hr : r ≠ []) (hrl : ∀ c ∈ r, islower c = true) (hne : w ≠ r)
    (hcount : countWordOccurrences t w = some k) (hk : 1 ≤ k)
    (hdelim : ∀ p ∈ wholeWordPositions t w,
      (p = 0 ∨ isSeparator (charAt t (p - 1)) = true)
      ∧ (t.length ≤ p + w.length ∨ isSeparator (charAt t (p + w.length)) = true))
    (htable : mapFind strLess w (getWordFrequency (tokenize t)) = some k) :
    ∃ res, replaceWordInText t w r = some res
      ∧ mapFind strLess w (getWordFrequency (tokenize res)) = none
      ∧ ∃ n, mapFind strLess r (getWordFrequency (tokenize res)) = some n ∧ k ≤ n := by
  have hal : ∀ c ∈ w, isalnum c = true := fun c hc => isalnum_of_islower (hwl c hc)
  obtain ⟨hres, hcnt⟩ := replaceWordInText_eq_mapRuns_chunks t w r hw hal hdelim
  rw [hcnt, Option.some.injEq] at hcount
  have htok : (tokenize t).count w = (runsOf inChunk t).countP (matchesWord w) := by
    rw [mapFind_getWordFrequency] at htable
    split at htable
    · rw [Option.some.injEq, ← hcount] at htable
      exact_mod_cast htable
    · cases htable
  refine ⟨mapRuns inChunk (substRun w r) t, hres, ?_⟩
  rw [tokenize_after_replacement t w r hw hwl hr hrl htok]
  have hle := count_le_count_subst w r (tokenize t)
  have hpos : 0 < (tokenize t).count w := by omega
  have hmem : r ∈ (tokenize t).map (fun x => if x = w then r else x) :=
    List.count_pos_iff.mp (Nat.lt_of_lt_of_le hpos hle)
  have hnot : w ∉ (tokenize t).map (fun x => if x = w then r else x) := by
    intro h
    obtain ⟨x, _, hx⟩ := List.mem_map.mp h
    by_cases hxw : x = w
    · rw [if_pos hxw] at hx
      exact hne hx.symm
    · rw [if_neg hxw] at hx
      exact hxw hx
  rw [mapFind_getWordFrequency, if_neg hnot, mapFind_getWordFrequency, if_pos hmem]
  refine ⟨rfl, _, rfl, ?_⟩
  omega

/-- In Document A, "The cat sat. The dog ran fast!", the word "dog" is counted once,
stands between two spaces and is a token once; replacing it by "wolf" gives a table without
the key "dog" and with the key "wolf". -/
theorem frequency_after_replacement_witness :
    ∃ res, replaceWordInText documentA "dog".toList "wolf".toList = some res
      ∧ mapFind strLess "dog".toList (getWordFrequency (tokenize res)) = none
      ∧ ∃ n, mapFind strLess "wolf".toList (getWordFrequency (tokenize res)) = some n
        ∧ (1 : Int) ≤ n :=
  frequency_after_replacement documentA "dog".toList "wolf".toList 1
    (by decide) (by decide) (by decide) (by decide) (by decide) (by decide) (by decide)
    (by decide) (by decide)
end TextComparator
